import Mathlib

/-!
Verification development for the JSON5 codec in `src/encoding/json5/`
(value model `value.rs`, parser `parser.rs`, serializer `ser.rs`,
deserializer `de.rs`, errors `error.rs`).

Modelling conventions:
* bytes are `Nat` (always < 256 where produced); the parser input is a
  `List Nat` of bytes with an absolute cursor `pos`, mirroring
  `Parser { input: &[u8], pos: usize }`;
* Rust strings are `List Char` (Unicode scalar values, as in Rust);
* `f64` is modelled by `F64`: an exact rational for finite values plus
  the three special classes.  IEEE rounding, `-0.0` and the
  shortest-round-trip `Display` rendering of non-whole finite floats are
  not modelled; no claim below depends on them;
* machine integers are `Int`/`Nat` with explicit range conditions;
* loops are structural recursion on an explicit fuel argument; the
  canonical entry points pass `input.length + 1`-style fuel, which the
  adequacy lemmas show is never exhausted.
-/

set_option maxRecDepth 40000

namespace Json5

/-- Model of Rust `f64` values: exact rational for finite values,
plus infinities and NaN.  (IEEE rounding and negative zero are not
modelled; the claims below never depend on them.) -/
inductive F64 where
  | finite (q : ℚ)
  | inf
  | neginf
  | nan
deriving DecidableEq, Repr

/-- Rust `f64` `PartialEq`: NaN compares unequal to everything,
including itself; other values compare by numeric value. -/
def F64.beq : F64 → F64 → Bool
  | .finite a, .finite b => a = b
  | .inf, .inf => true
  | .neginf, .neginf => true
  | _, _ => false

/-- `f64::is_nan` -/
def F64.isNan : F64 → Bool
  | .nan => true
  | _ => false

/-- `f64::is_infinite` -/
def F64.isInfinite : F64 → Bool
  | .inf => true
  | .neginf => true
  | _ => false

/-- `f64 > 0.0` -/
def F64.gtZero : F64 → Bool
  | .finite q => 0 < q
  | .inf => true
  | _ => false

/-- `f64 >= 0.0` (false for NaN, as in IEEE comparisons) -/
def F64.geZero : F64 → Bool
  | .finite q => 0 ≤ q
  | .inf => true
  | _ => false

/-- `f.fract() == 0.0 && f.is_finite()` — the whole-valued-finite test
used by `impl fmt::Display for Number`. -/
def F64.isWholeFinite : F64 → Bool
  | .finite q => q.den = 1
  | _ => false

/-- Truncation of a rational toward zero (Lean `Int` division truncates
toward zero, like Rust's). -/
def ratTrunc (q : ℚ) : Int := q.num / (q.den : Int)

/-- Rust `f as i64` saturating cast: NaN ↦ 0, truncate toward zero,
clamp to the `i64` range. -/
def F64.satCastI64 : F64 → Int
  | .nan => 0
  | .inf => 2 ^ 63 - 1
  | .neginf => -(2 ^ 63)
  | .finite q =>
      let t := ratTrunc q
      if t < -(2 ^ 63) then -(2 ^ 63) else if t > 2 ^ 63 - 1 then 2 ^ 63 - 1 else t

/-- Rust `f as u64` saturating cast: NaN ↦ 0, truncate toward zero,
clamp to the `u64` range. -/
def F64.satCastU64 : F64 → Int
  | .nan => 0
  | .inf => 2 ^ 64 - 1
  | .neginf => 0
  | .finite q =>
      let t := ratTrunc q
      if t < 0 then 0 else if t > 2 ^ 64 - 1 then 2 ^ 64 - 1 else t

/-- `value.rs`: `enum Number { Int(i64), Uint(u64), Float(f64), NaN,
Infinity, NegInfinity }`.  `Int` carries a mathematical integer (in-range
`i64` values where the parser produces them); `Uint` a natural. -/
inductive Number where
  | Int (n : Int)
  | Uint (n : Nat)
  | Float (f : F64)
  | NaN
  | Infinity
  | NegInfinity
deriving DecidableEq, Repr

/-- The `#[derive(PartialEq)]` equality of `Number`: discriminants and
fields compared structurally; the only non-structural field comparison is
the `f64` payload of `Float` (where NaN ≠ NaN).  Note that the unit
variant `NaN` compares equal to itself under the derived instance. -/
def Number.beq : Number → Number → Bool
  | .Int a, .Int b => a = b
  | .Uint a, .Uint b => a = b
  | .Float a, .Float b => a.beq b
  | .NaN, .NaN => true
  | .Infinity, .Infinity => true
  | .NegInfinity, .NegInfinity => true
  | _, _ => false

/-- `value.rs`: `enum Value` — objects are the insertion-ordered
`IndexMap`, modelled as an association list with unique keys. -/
inductive Value where
  | Null
  | Bool (b : Bool)
  | Number (n : Number)
  | String (s : List Char)
  | Array (a : List Value)
  | Object (o : List (List Char × Value))

/-- `Value::type_name` -/
def type_name : Value → String
  | .Null => "null"
  | .Bool _ => "bool"
  | .Number _ => "number"
  | .String _ => "string"
  | .Array _ => "array"
  | .Object _ => "object"

/-- Association-list lookup used to model `IndexMap::get`. -/
def mapGet (k : List Char) : List (List Char × Value) → Option Value
  | [] => none
  | (k', v) :: rest => if k' = k then some v else mapGet k rest

mutual

/-- `#[derive(PartialEq)]` equality of `Value`; object comparison follows
`IndexMap`'s `PartialEq` (same length, every key of the left map present
in the right with an equal value — order-independent). -/
def valueBEq : Value → Value → Bool
  | .Null, .Null => true
  | .Bool a, .Bool b => a = b
  | .Number a, .Number b => a.beq b
  | .String a, .String b => a = b
  | .Array a, .Array b => valueBEqList a b
  | .Object a, .Object b => a.length = b.length && valueBEqPairs a b
  | _, _ => false

def valueBEqList : List Value → List Value → Bool
  | [], [] => true
  | x :: xs, y :: ys => valueBEq x y && valueBEqList xs ys
  | _, _ => false

def valueBEqPairs : List (List Char × Value) → List (List Char × Value) → Bool
  | [], _ => true
  | (k, v) :: rest, b =>
      (match mapGet k b with
       | some w => valueBEq v w
       | none => false) && valueBEqPairs rest b

end

mutual

/-- Nesting depth of a `Value` as seen by the emitters: the depth
argument at which the deepest node of the tree is visited when the root
is written at depth 0. -/
def valueDepth : Value → Nat
  | .Array a => valueDepthList a
  | .Object o => valueDepthPairs o
  | _ => 0

/-- max over children of `1 + child.vdepth` -/
def valueDepthList : List Value → Nat
  | [] => 0
  | v :: rest => max (1 + valueDepth v) (valueDepthList rest)

def valueDepthPairs : List (List Char × Value) → Nat
  | [] => 0
  | (_, v) :: rest => max (1 + valueDepth v) (valueDepthPairs rest)

end

/-! ## Number and string rendering (`impl fmt::Display for Number`,
`write_escaped_str`, `is_valid_identifier` in `ser.rs`) -/

/-- Decimal digits of a natural number (Rust `{}` formatting of
unsigned integers). -/
def natDigits (n : Nat) : List Char :=
  if h : n < 10 then [Char.ofNat (48 + n)]
  else natDigits (n / 10) ++ [Char.ofNat (48 + n % 10)]
decreasing_by exact Nat.div_lt_self (by omega) (by omega)

/-- Rust `{}` formatting of a signed integer. -/
def intDigits (n : Int) : List Char :=
  if n < 0 then '-' :: natDigits (-n).toNat else natDigits n.toNat

/-- A decimal rendering of a rational: used only for the `Display` of a
non-whole finite `Float`, where Rust uses the shortest round-trip decimal
form.  That algorithm is not modelled; no claim depends on this branch.
We render `num/den` exactly when `den` is 1 and fall back to a
numerator/denominator form otherwise. -/
def ratDigits (q : ℚ) : List Char :=
  if q.den = 1 then intDigits q.num
  else intDigits q.num ++ '/' :: natDigits q.den

/-- `Display` for the `f64` payload of `Number::Float` (Rust renders
infinities as `inf`/`-inf` and NaN as `NaN` under `{}`). -/
def F64.display : F64 → List Char
  | .finite q => ratDigits q
  | .inf => "inf".toList
  | .neginf => "-inf".toList
  | .nan => "NaN".toList

/-- `impl fmt::Display for Number` (`value.rs` lines 54–71): whole-valued
finite floats print with one forced fractional digit (`{:.1}`). -/
def Number.display : Number → List Char
  | .Int n => intDigits n
  | .Uint n => natDigits n
  | .Float f => if f.isWholeFinite then intDigits (ratTrunc (match f with | .finite q => q | _ => 0)) ++ ['.', '0'] else f.display
  | .NaN => "NaN".toList
  | .Infinity => "Infinity".toList
  | .NegInfinity => "-Infinity".toList

/-- `ser.rs` `hex_digit` -/
def hex_digit (n : Nat) : Char :=
  if n < 10 then Char.ofNat (48 + n) else Char.ofNat (97 + n - 10)

/-- One character of `write_escaped_str`'s loop body. -/
def escapeChar (c : Char) : List Char :=
  if c = '"' then ['\\', '"']
  else if c = '\\' then ['\\', '\\']
  else if c = '\x08' then ['\\', 'b']
  else if c = '\x0c' then ['\\', 'f']
  else if c = '\n' then ['\\', 'n']
  else if c = '\r' then ['\\', 'r']
  else if c = '\t' then ['\\', 't']
  else if c.toNat < 0x20 then
    let code := c.toNat
    ['\\', 'u', hex_digit (code / 4096 % 16), hex_digit (code / 256 % 16),
     hex_digit (code / 16 % 16), hex_digit (code % 16)]
  else [c]

/-- `ser.rs` `write_escaped_str` -/
def write_escaped_str (s : List Char) (quote : Bool) : List Char :=
  (if quote then ['"'] else []) ++ (s.map escapeChar).flatten ++ (if quote then ['"'] else [])

/-- `ser.rs` `is_valid_identifier` -/
def is_valid_identifier (k : List Char) : Bool :=
  match k with
  | [] => false
  | c :: rest =>
      (c.isAlpha || c = '_' || c = '$') &&
      rest.all (fun c => c.isAlphanum || c = '_' || c = '$')

/-! ## Errors (`error.rs`) -/

inductive Err where
  | UnexpectedChar (c : Char) (pos : Nat)
  | UnexpectedEof
  | InvalidEscape (c : Char)
  | InvalidUnicode (cp : Nat)
  | InvalidNumber (s : List Char)
  | TrailingData (pos : Nat)
  | DuplicateKey (k : List Char)
  | Expected (c : Char) (got : Option Char)
  | Custom (msg : String)
  | TypeMismatch (expected got : String)
deriving DecidableEq, Repr

instance {e a : Type} [DecidableEq e] [DecidableEq a] : DecidableEq (Except e a) := by
  intro x y
  cases x <;> cases y
  case error.error u v =>
    exact if h : u = v then .isTrue (by rw [h]) else .isFalse (by intro hc; cases hc; exact h rfl)
  case ok.ok u v =>
    exact if h : u = v then .isTrue (by rw [h]) else .isFalse (by intro hc; cases hc; exact h rfl)
  case error.ok u v => exact .isFalse (by intro hc; cases hc)
  case ok.error u v => exact .isFalse (by intro hc; cases hc)

/-! ## Text emitters (`ser.rs`) -/

/-- `ser.rs`: `const MAX_DEPTH: usize = 512` -/
def MAX_DEPTH : Nat := 512

mutual

/-- `CompactFormatter::write_value` (quote_keys and max_depth are the
formatter fields). -/
def compactWriteValue (qk : Bool) (md : Nat) : Value → Nat → Except Err (List Char)
  | v, depth =>
    if depth > md then .error (.Custom "Recursion limit exceeded")
    else
      match v with
      | .Null => .ok "null".toList
      | .Bool b => .ok (if b then "true".toList else "false".toList)
      | .Number n => .ok n.display
      | .String s => .ok (write_escaped_str s true)
      | .Array arr => do
          let body ← compactWriteArr qk md arr (depth + 1) true
          .ok ('[' :: body ++ [']'])
      | .Object obj => do
          let body ← compactWriteObj qk md obj (depth + 1) true
          .ok ('{' :: body ++ ['}'])

/-- `CompactFormatter::write_array` loop (the `first` flag models the
`i > 0` comma test). -/
def compactWriteArr (qk : Bool) (md : Nat) : List Value → Nat → Bool → Except Err (List Char)
  | [], _, _ => .ok []
  | v :: rest, depth, first => do
      let s ← compactWriteValue qk md v depth
      let r ← compactWriteArr qk md rest depth false
      .ok ((if first then [] else [',']) ++ s ++ r)

/-- `CompactFormatter::write_object` loop. -/
def compactWriteObj (qk : Bool) (md : Nat) : List (List Char × Value) → Nat → Bool → Except Err (List Char)
  | [], _, _ => .ok []
  | (k, v) :: rest, depth, first => do
      let s ← compactWriteValue qk md v depth
      let r ← compactWriteObj qk md rest depth false
      let key := if !qk && is_valid_identifier k then k else write_escaped_str k true
      .ok ((if first then [] else [',']) ++ key ++ ':' :: s ++ r)

end

/-- `PrettyFormatter::write_indent` -/
def writeIndent (indent : List Char) : Nat → List Char
  | 0 => []
  | n + 1 => indent ++ writeIndent indent n

mutual

/-- `PrettyFormatter::write_value` — note: no depth check is performed
here, unlike the compact formatter. -/
def prettyWriteValue (indent : List Char) (qk : Bool) : Value → Nat → Except Err (List Char)
  | v, depth =>
      match v with
      | .Array arr =>
          match arr with
          | [] => .ok "[]".toList
          | _ => do
              let body ← prettyWriteArr indent qk arr (depth + 1) arr.length
              .ok ('[' :: '\n' :: body ++ writeIndent indent depth ++ [']'])
      | .Object obj =>
          match obj with
          | [] => .ok "{}".toList
          | _ => do
              let body ← prettyWriteObj indent qk obj (depth + 1) obj.length
              .ok ('{' :: '\n' :: body ++ writeIndent indent depth ++ ['}'])
      | .Null => .ok "null".toList
      | .Bool b => .ok (if b then "true".toList else "false".toList)
      | .Number n => .ok n.display
      | .String s => .ok (write_escaped_str s true)

/-- `PrettyFormatter::write_array` loop; `remaining` counts elements left
(the trailing comma is omitted for the last one). -/
def prettyWriteArr (indent : List Char) (qk : Bool) : List Value → Nat → Nat → Except Err (List Char)
  | [], _, _ => .ok []
  | v :: rest, depth, remaining => do
      let s ← prettyWriteValue indent qk v depth
      let r ← prettyWriteArr indent qk rest depth (remaining - 1)
      .ok (writeIndent indent depth ++ s ++ (if remaining ≤ 1 then [] else [',']) ++ '\n' :: r)

def prettyWriteObj (indent : List Char) (qk : Bool) : List (List Char × Value) → Nat → Nat → Except Err (List Char)
  | [], _, _ => .ok []
  | (k, v) :: rest, depth, remaining => do
      let s ← prettyWriteValue indent qk v depth
      let r ← prettyWriteObj indent qk rest depth (remaining - 1)
      let key := if !qk && is_valid_identifier k then k else write_escaped_str k true
      .ok (writeIndent indent depth ++ key ++ ':' :: ' ' :: s ++ (if remaining ≤ 1 then [] else [',']) ++ '\n' :: r)

end

/-! ## Typed decode adapter fragments (`de.rs`) -/

/-- Which access object the visitor receives (`visit_seq` with a
`SeqDeserializer`, or `visit_map` with a `MapDeserializer`). -/
inductive DecAccess where
  | seqAcc (l : List Value)
  | mapAcc (o : List (List Char × Value))

/-- `ValueDeserializer::deserialize_struct` (`de.rs` 254–265): objects go
to `visit_map`, arrays to `visit_seq`, anything else is a
`TypeMismatch`. -/
def deserialize_struct : Value → Except Err DecAccess
  | .Object m => .ok (.mapAcc m)
  | .Array a => .ok (.seqAcc a)
  | v => .error (.TypeMismatch "object" (type_name v))

/-- `ValueDeserializer::deserialize_map` (`de.rs` 247–252). -/
def deserialize_map : Value → Except Err DecAccess
  | .Object m => .ok (.mapAcc m)
  | v => .error (.TypeMismatch "object" (type_name v))

/-- `ValueDeserializer::deserialize_seq` (`de.rs` 227–232). -/
def deserialize_seq : Value → Except Err DecAccess
  | .Array a => .ok (.seqAcc a)
  | v => .error (.TypeMismatch "array" (type_name v))

/-- `ValueDeserializer::deserialize_string` (`de.rs` 181–189). -/
def deserialize_string : Value → Except Err (List Char)
  | .String s => .ok s
  | .Number n => .ok n.display
  | .Bool b => .ok (if b then "true".toList else "false".toList)
  | .Null => .ok "null".toList
  | v => .error (.TypeMismatch "string" (type_name v))

/-- `de.rs` `num_to_int::<T>` where the target `T`'s `TryFrom<i64>` /
`TryFrom<u64>` instances are modelled by the range `[lo, hi]`.  Note the
`Float` arm first performs the saturating Rust cast `*f as i64` and only
then range-checks the result. -/
def num_to_int (lo hi : Int) : Value → Except Err Int
  | .Number (.Int n) =>
      if lo ≤ n ∧ n ≤ hi then .ok n
      else .error (.Custom ("integer overflow: " ++ toString n))
  | .Number (.Uint n) =>
      if lo ≤ (n : Int) ∧ (n : Int) ≤ hi then .ok n
      else .error (.Custom ("integer overflow: " ++ toString n))
  | .Number (.Float f) =>
      let n := f.satCastI64
      if lo ≤ n ∧ n ≤ hi then .ok n
      else .error (.Custom ("integer overflow: " ++ toString n))
  | v => .error (.TypeMismatch "integer" (type_name v))

/-- `de.rs` `num_to_uint::<T>` with the unsigned target's range `[0, hi]`.
The `Int` arm requires `n ≥ 0` (otherwise the catch-all `TypeMismatch`
fires); the `Float` arm requires `f ≥ 0.0` and performs the saturating
`*f as u64` cast before the range check. -/
def num_to_uint (hi : Nat) : Value → Except Err Nat
  | .Number (.Uint n) =>
      if n ≤ hi then .ok n
      else .error (.Custom ("integer overflow: " ++ toString n))
  | .Number (.Int n) =>
      if 0 ≤ n then
        (if n.toNat ≤ hi then .ok n.toNat
         else .error (.Custom ("integer overflow: " ++ toString n)))
      else .error (.TypeMismatch "unsigned int" "number")
  | .Number (.Float f) =>
      if f.geZero then
        (let u := f.satCastU64.toNat
         if u ≤ hi then .ok u
         else .error (.Custom ("integer overflow: " ++ String.mk f.display)))
      else .error (.TypeMismatch "unsigned int" "number")
  | v => .error (.TypeMismatch "unsigned int" (type_name v))

/-! ## Well-formedness and NaN-freedom predicates on values -/

/-- `true` unless the number is a `Float` whose payload is the IEEE NaN
(the `NaN` unit variant is allowed — it is a distinct constructor). -/
def numberNanPayloadFree : Number → Bool
  | .Float f => !f.isNan
  | _ => true

mutual

/-- No `Float` constructor anywhere carries a NaN payload. -/
def valueNanPayloadFree : Value → Bool
  | .Number n => numberNanPayloadFree n
  | .Array a => valueNanPayloadFreeList a
  | .Object o => valueNanPayloadFreePairs o
  | _ => true

def valueNanPayloadFreeList : List Value → Bool
  | [] => true
  | v :: rest => valueNanPayloadFree v && valueNanPayloadFreeList rest

def valueNanPayloadFreePairs : List (List Char × Value) → Bool
  | [] => true
  | (_, v) :: rest => valueNanPayloadFree v && valueNanPayloadFreePairs rest

end

/-- `k` does not occur as a key of the association list. -/
def keyAbsent (k : List Char) : List (List Char × Value) → Bool
  | [] => true
  | (k', _) :: rest => !(k' = k : Bool) && keyAbsent k rest

mutual

/-- The `IndexMap` structural invariant: object keys are pairwise
distinct, at every level of the tree. -/
def valueWf : Value → Bool
  | .Array a => valueWfList a
  | .Object o => valueWfPairs o
  | _ => true

def valueWfList : List Value → Bool
  | [] => true
  | v :: rest => valueWf v && valueWfList rest

def valueWfPairs : List (List Char × Value) → Bool
  | [] => true
  | (k, v) :: rest => keyAbsent k rest && valueWf v && valueWfPairs rest

end

/-! ## Compact emitter: closed form and depth guard -/

mutual

/-- The string the compact formatter produces when the depth guard does
not fire (closed form of `compactWriteValue`). -/
def encCompact (qk : Bool) : Value → List Char
  | .Null => "null".toList
  | .Bool b => if b then "true".toList else "false".toList
  | .Number n => n.display
  | .String s => write_escaped_str s true
  | .Array arr => '[' :: encCompactArr qk arr true ++ [']']
  | .Object obj => '{' :: encCompactObj qk obj true ++ ['}']

def encCompactArr (qk : Bool) : List Value → Bool → List Char
  | [], _ => []
  | v :: rest, first =>
      (if first then [] else [',']) ++ encCompact qk v ++ encCompactArr qk rest false

def encCompactObj (qk : Bool) : List (List Char × Value) → Bool → List Char
  | [], _ => []
  | (k, v) :: rest, first =>
      (if first then [] else [',']) ++
      (if !qk && is_valid_identifier k then k else write_escaped_str k true) ++
      ':' :: encCompact qk v ++ encCompactObj qk rest false

end

/-- `n`-fold nested singleton arrays around `null`. -/
def deepNest : Nat → Value
  | 0 => .Null
  | n + 1 => .Array [deepNest n]

/-! ## Parser (`parser.rs`)

The parser state `Parser { input, pos }` is modelled by passing the byte
list `inp` and an absolute cursor `pos`.  Every Rust loop becomes
structural recursion on an explicit fuel argument; the canonical entry
points pass `inp.length + 1` (each loop iteration consumes at least one
byte, so this fuel is never exhausted — the `Custom "fuel exhausted"`
branches are dead code, as the adequacy arguments in the proofs show). -/

/-- `self.input.get(i).copied()` -/
def byteAt (inp : List Nat) (i : Nat) : Option Nat := inp.get? i

/-- `&self.input[a..b]` as a list (empty when out of range). -/
def listSlice (inp : List Nat) (a b : Nat) : List Nat := (inp.drop a).take (b - a)

/-- `self.input.get(a..b) == Some(pat)` -/
def sliceEq (inp : List Nat) (a b : Nat) (pat : List Nat) : Bool :=
  a ≤ b && b ≤ inp.length && listSlice inp a b = pat

def strBytes (s : String) : List Nat := s.toList.map Char.toNat

/-- The whitespace-byte scanning inner `while` of
`skip_whitespace_and_comments`: ASCII whitespace, U+00A0 (`C2 A0`) and
the three-byte `E2 80 xx` forms the code accepts. -/
def skipWsBytes (inp : List Nat) : Nat → Nat → Nat
  | 0, pos => pos
  | fuel + 1, pos =>
    match byteAt inp pos with
    | some 32 | some 9 | some 10 | some 13 => skipWsBytes inp fuel (pos + 1)
    | some 0xC2 =>
        if byteAt inp (pos + 1) = some 0xA0 then skipWsBytes inp fuel (pos + 2) else pos
    | some 0xE2 =>
        match byteAt inp (pos + 1), byteAt inp (pos + 2) with
        | some b1, some b2 =>
            if b1 = 0x80 ∧ (b2 = 0xA8 ∨ b2 = 0xA9 ∨ (0x80 ≤ b2 ∧ b2 ≤ 0xAF)) then
              skipWsBytes inp fuel (pos + 3)
            else pos
        | _, _ => pos
    | _ => pos

/-- `//`-comment skipping: stops before `\n`, `\r` or a U+2028/U+2029
sequence, or at end of input. -/
def skipLineComment (inp : List Nat) : Nat → Nat → Nat
  | 0, pos => pos
  | fuel + 1, pos =>
    match byteAt inp pos with
    | none => pos
    | some b =>
        if b = 10 ∨ b = 13 then pos
        else if b = 0xE2 ∧ byteAt inp (pos + 1) = some 0x80 ∧
            (byteAt inp (pos + 2) = some 0xA8 ∨ byteAt inp (pos + 2) = some 0xA9) then pos
        else skipLineComment inp fuel (pos + 1)

/-- `/* */`-comment skipping: consumes through `*/`, or to end of input
when unterminated (lenient). -/
def skipBlockComment (inp : List Nat) : Nat → Nat → Nat
  | 0, pos => pos
  | fuel + 1, pos =>
    match byteAt inp pos, byteAt inp (pos + 1) with
    | some 42, some 47 => pos + 2
    | none, _ => pos
    | _, _ => skipBlockComment inp fuel (pos + 1)

/-- Outer loop of `skip_whitespace_and_comments`. -/
def skipWs (inp : List Nat) : Nat → Nat → Nat
  | 0, pos => pos
  | fuel + 1, pos =>
    let p := skipWsBytes inp (inp.length + 1) pos
    match byteAt inp p, byteAt inp (p + 1) with
    | some 47, some 47 => skipWs inp fuel (skipLineComment inp (inp.length + 1) (p + 2))
    | some 47, some 42 => skipWs inp fuel (skipBlockComment inp (inp.length + 1) (p + 2))
    | _, _ => p

/-- `Parser::skip_whitespace_and_comments` (returns the new cursor). -/
def skip_whitespace_and_comments (inp : List Nat) (pos : Nat) : Nat :=
  skipWs inp (inp.length + 1) pos

/-- `parser.rs` free function `hex_val`. -/
def hex_val (b : Nat) : Option Nat :=
  if 48 ≤ b ∧ b ≤ 57 then some (b - 48)
  else if 97 ≤ b ∧ b ≤ 102 then some (b - 97 + 10)
  else if 65 ≤ b ∧ b ≤ 70 then some (b - 65 + 10)
  else none

/-- `char::from_u32` — `some` exactly on Unicode scalar values. -/
def charFromU32 (cp : Nat) : Option Char :=
  if cp < 0xD800 ∨ (0xE000 ≤ cp ∧ cp < 0x110000) then some (Char.ofNat cp) else none

/-- `Parser::decode_utf8_char`: permissive length-dispatched decoder (it
does not reject overlong forms; `char::from_u32` rejects surrogates and
out-of-range code points). -/
def decode_utf8_char (inp : List Nat) (pos : Nat) : Except Err (Char × Nat) :=
  match byteAt inp pos with
  | none => .error .UnexpectedEof
  | some b0 =>
    if b0 < 0x80 then .ok (Char.ofNat b0, pos + 1)
    else if b0 &&& 0xE0 = 0xC0 then
      match byteAt inp (pos + 1) with
      | none => .error .UnexpectedEof
      | some b1 =>
          let cp := ((b0 &&& 0x1F) <<< 6) ||| (b1 &&& 0x3F)
          match charFromU32 cp with
          | some c => .ok (c, pos + 2)
          | none => .error (.InvalidUnicode cp)
    else if b0 &&& 0xF0 = 0xE0 then
      match byteAt inp (pos + 1) with
      | none => .error .UnexpectedEof
      | some b1 =>
        match byteAt inp (pos + 2) with
        | none => .error .UnexpectedEof
        | some b2 =>
            let cp := ((b0 &&& 0x0F) <<< 12) ||| ((b1 &&& 0x3F) <<< 6) ||| (b2 &&& 0x3F)
            match charFromU32 cp with
            | some c => .ok (c, pos + 3)
            | none => .error (.InvalidUnicode cp)
    else
      match byteAt inp (pos + 1) with
      | none => .error .UnexpectedEof
      | some b1 =>
        match byteAt inp (pos + 2) with
        | none => .error .UnexpectedEof
        | some b2 =>
          match byteAt inp (pos + 3) with
          | none => .error .UnexpectedEof
          | some b3 =>
              let cp := ((b0 &&& 0x07) <<< 18) ||| ((b1 &&& 0x3F) <<< 12) |||
                ((b2 &&& 0x3F) <<< 6) ||| (b3 &&& 0x3F)
              match charFromU32 cp with
              | some c => .ok (c, pos + 4)
              | none => .error (.InvalidUnicode cp)

/-- Reading `n` mandatory hex digits of a `\uXXXX` escape
(`for _ in 0..4 { ... }` in `parse_unicode_escape`). -/
def eatHexN (inp : List Nat) : Nat → Nat → Nat → Except Err (Nat × Nat)
  | 0, cp, pos => .ok (cp, pos)
  | n + 1, cp, pos =>
    match byteAt inp pos with
    | none => .error .UnexpectedEof
    | some b =>
      match hex_val b with
      | none => .error (.InvalidEscape 'u')
      | some d => eatHexN inp n ((cp <<< 4) ||| d) (pos + 1)

/-- The `\u{...}` loop of `parse_unicode_escape` (at most 6 digits). -/
def uniBraceLoop (inp : List Nat) : Nat → Nat → Nat → Nat → Except Err (Nat × Nat)
  | 0, _, _, _ => .error (.Custom "fuel exhausted")
  | fuel + 1, cp, digits, pos =>
    match byteAt inp pos with
    | none => .error .UnexpectedEof
    | some 125 => .ok (cp, pos + 1)
    | some b =>
      match hex_val b with
      | none => .error (.InvalidEscape 'u')
      | some d =>
          let cp2 := (cp <<< 4) ||| d
          if digits + 1 > 6 then .error (.InvalidUnicode cp2)
          else uniBraceLoop inp fuel cp2 (digits + 1) (pos + 1)

/-- continuation of `Parser::parse_unicode_escape` after the four
mandatory hex digits of a `\uXXXX` escape: high-surrogate pairing with a
following `\uXXXX` low surrogate, or direct conversion. -/
def ueFromCp (inp : List Nat) (cp p : Nat) : Except Err (Char × Nat) :=
  if 0xD800 ≤ cp ∧ cp ≤ 0xDBFF then
    if byteAt inp p = some 92 ∧ byteAt inp (p + 1) = some 117 then
      match eatHexN inp 4 0 (p + 2) with
      | .error e => .error e
      | .ok (lo, p2) =>
        if ¬(0xDC00 ≤ lo ∧ lo ≤ 0xDFFF) then .error (.InvalidUnicode lo)
        else
          let full := 0x10000 + ((cp - 0xD800) <<< 10) + (lo - 0xDC00)
          match charFromU32 full with
          | some c => .ok (c, p2)
          | none => .error (.InvalidUnicode full)
    else
      match charFromU32 cp with
      | some c => .ok (c, p)
      | none => .error (.InvalidUnicode cp)
  else
    match charFromU32 cp with
    | some c => .ok (c, p)
    | none => .error (.InvalidUnicode cp)

/-- `Parser::parse_unicode_escape` (both `\uXXXX` with surrogate pairing
and ES6-style `\u{...}`). -/
def parse_unicode_escape (inp : List Nat) (pos : Nat) : Except Err (Char × Nat) :=
  if byteAt inp pos = some 123 then
    match uniBraceLoop inp (inp.length + 1) 0 0 (pos + 1) with
    | .error e => .error e
    | .ok (cp, p) =>
      match charFromU32 cp with
      | some c => .ok (c, p)
      | none => .error (.InvalidUnicode cp)
  else
    match eatHexN inp 4 0 pos with
    | .error e => .error e
    | .ok (cp, p) => ueFromCp inp cp p

/-- `Parser::eat_hex_digit` -/
def eat_hex_digit (inp : List Nat) (pos : Nat) : Except Err (Nat × Nat) :=
  match byteAt inp pos with
  | none => .error .UnexpectedEof
  | some b =>
    match hex_val b with
    | none => .error (.InvalidEscape 'x')
    | some d => .ok (d, pos + 1)

/-- `Parser::parse_escape`: returns the characters pushed onto the output
(one character, or none for a line continuation). -/
def parse_escape (inp : List Nat) (pos : Nat) : Except Err (List Char × Nat) :=
  match byteAt inp pos with
  | none => .error .UnexpectedEof
  | some b =>
    let p := pos + 1
    if b = 34 then .ok (['"'], p)
    else if b = 39 then .ok (['\''], p)
    else if b = 92 then .ok (['\\'], p)
    else if b = 47 then .ok (['/'], p)
    else if b = 98 then .ok (['\x08'], p)
    else if b = 102 then .ok (['\x0C'], p)
    else if b = 110 then .ok (['\n'], p)
    else if b = 114 then .ok (['\r'], p)
    else if b = 116 then .ok (['\t'], p)
    else if b = 118 then .ok (['\x0B'], p)
    else if b = 48 then
      match byteAt inp p with
      | some d => if 49 ≤ d ∧ d ≤ 57 then .error (.InvalidEscape '0') else .ok (['\x00'], p)
      | none => .ok (['\x00'], p)
    else if b = 117 then
      match parse_unicode_escape inp p with
      | .error e => .error e
      | .ok (c, p2) => .ok ([c], p2)
    else if b = 120 then
      match eat_hex_digit inp p with
      | .error e => .error e
      | .ok (hi, p2) =>
        match eat_hex_digit inp p2 with
        | .error e => .error e
        | .ok (lo, p3) =>
            let cp := (hi <<< 4) ||| lo
            match charFromU32 cp with
            | some c => .ok ([c], p3)
            | none => .error (.InvalidUnicode cp)
    else if b = 10 ∨ b = 13 then
      if b = 13 ∧ byteAt inp p = some 10 then .ok ([], p + 1) else .ok ([], p)
    else .error (.InvalidEscape (Char.ofNat b))

/-- The fast-path scan of `parse_string_contents`: find the closing
quote, recording whether an escape was seen; raw `\n`/`\r` error for
double quotes (for single quotes they fall through to the control-byte
check, which also errors); other control bytes error. -/
def fastScan (inp : List Nat) (quote : Nat) : Nat → Nat → Bool → Except Err (Nat × Bool)
  | 0, _, _ => .error (.Custom "fuel exhausted")
  | fuel + 1, pos, esc =>
    match byteAt inp pos with
    | none => .error .UnexpectedEof
    | some b =>
      if b = quote then .ok (pos, esc)
      else if b = 92 then fastScan inp quote fuel (pos + 2) true
      else if (b = 10 ∨ b = 13) ∧ quote ≠ 39 then .error (.UnexpectedChar '\n' pos)
      else if b < 0x20 then .error (.UnexpectedChar (Char.ofNat b) pos)
      else fastScan inp quote fuel (pos + 1) esc

mutual

/-- Model of `std::str::from_utf8` followed by `.to_owned()`: strict
UTF-8 validation (overlong forms, surrogates and out-of-range values are
rejected), decoding to the character list. -/
def fromUtf8 : List Nat → Option (List Char)
  | [] => some []
  | b :: rest =>
    if b < 0x80 then (fromUtf8 rest).map (fun s => Char.ofNat b :: s)
    else if 0xC2 ≤ b ∧ b ≤ 0xDF then utf8Cont2 b rest
    else if 0xE0 ≤ b ∧ b ≤ 0xEF then utf8Cont3 b rest
    else if 0xF0 ≤ b ∧ b ≤ 0xF4 then utf8Cont4 b rest
    else none

/-- continuation of `fromUtf8` for a two-byte lead. -/
def utf8Cont2 (b : Nat) : List Nat → Option (List Char)
  | b1 :: r =>
      if 0x80 ≤ b1 ∧ b1 ≤ 0xBF then
        (fromUtf8 r).map (fun s => Char.ofNat ((b - 0xC0) * 64 + (b1 - 0x80)) :: s)
      else none
  | _ => none

/-- continuation of `fromUtf8` for a three-byte lead (the `E0`/`ED`
special first-continuation ranges exclude overlong forms and
surrogates). -/
def utf8Cont3 (b : Nat) : List Nat → Option (List Char)
  | b1 :: b2 :: r =>
      if ((if b = 0xE0 then 0xA0 else 0x80) ≤ b1 ∧ b1 ≤ (if b = 0xED then 0x9F else 0xBF)) ∧
          (0x80 ≤ b2 ∧ b2 ≤ 0xBF) then
        (fromUtf8 r).map
          (fun s => Char.ofNat ((b - 0xE0) * 4096 + (b1 - 0x80) * 64 + (b2 - 0x80)) :: s)
      else none
  | _ => none

/-- continuation of `fromUtf8` for a four-byte lead (the `F0`/`F4`
special ranges exclude overlong forms and values beyond U+10FFFF). -/
def utf8Cont4 (b : Nat) : List Nat → Option (List Char)
  | b1 :: b2 :: b3 :: r =>
      if ((if b = 0xF0 then 0x90 else 0x80) ≤ b1 ∧ b1 ≤ (if b = 0xF4 then 0x8F else 0xBF)) ∧
          (0x80 ≤ b2 ∧ b2 ≤ 0xBF) ∧ (0x80 ≤ b3 ∧ b3 ≤ 0xBF) then
        (fromUtf8 r).map
          (fun s => Char.ofNat ((b - 0xF0) * 262144 + (b1 - 0x80) * 4096 +
            (b2 - 0x80) * 64 + (b3 - 0x80)) :: s)
      else none
  | _ => none

end

/-- The slow-path rebuild loop of `parse_string_contents` (escapes
resolved, characters decoded one by one; raw `\n`/`\r` rejected). -/
def slowRebuild (inp : List Nat) (quote : Nat) : Nat → Nat → List Char → Except Err (List Char × Nat)
  | 0, _, _ => .error (.Custom "fuel exhausted")
  | fuel + 1, pos, out =>
    match byteAt inp pos with
    | none => .error .UnexpectedEof
    | some b =>
      if b = quote then .ok (out, pos + 1)
      else if b = 92 then
        match parse_escape inp (pos + 1) with
        | .error e => .error e
        | .ok (cs, p2) => slowRebuild inp quote fuel p2 (out ++ cs)
      else
        match decode_utf8_char inp pos with
        | .error e => .error e
        | .ok (ch, p2) =>
            if ch = '\n' ∨ ch = '\r' then .error (.UnexpectedChar ch p2)
            else slowRebuild inp quote fuel p2 (out ++ [ch])

/-- `Parser::parse_string_contents`: fast scan; on success without
escapes, validate the raw slice as UTF-8 (zero-copy path); with escapes,
re-scan from the start with the slow path. -/
def parse_string_contents (inp : List Nat) (quote : Nat) (pos : Nat) :
    Except Err (List Char × Nat) :=
  match fastScan inp quote (inp.length + 1) pos false with
  | .error e => .error e
  | .ok (endPos, esc) =>
    if esc then slowRebuild inp quote (inp.length + 1) pos []
    else
      match fromUtf8 (listSlice inp pos endPos) with
      | some s => .ok (s, endPos + 1)
      | none => .error (.Custom "Invalid UTF-8 in string")

/-- `Parser::parse_string` -/
def parse_string (inp : List Nat) (pos : Nat) : Except Err (List Char × Nat) :=
  match byteAt inp pos with
  | none => .error .UnexpectedEof
  | some quote => parse_string_contents inp quote (pos + 1)

/-! ### Numbers -/

/-- digits-or-underscore scan (`while matches!(self.peek(), Some(b'0'..=b'9') | Some(b'_'))`) -/
def skipDigitsU (inp : List Nat) : Nat → Nat → Nat
  | 0, pos => pos
  | fuel + 1, pos =>
    match byteAt inp pos with
    | some b => if (48 ≤ b ∧ b ≤ 57) ∨ b = 95 then skipDigitsU inp fuel (pos + 1) else pos
    | none => pos

/-- hex-digit-or-underscore scan -/
def skipHexDigits (inp : List Nat) : Nat → Nat → Nat
  | 0, pos => pos
  | fuel + 1, pos =>
    match byteAt inp pos with
    | some b =>
        if (48 ≤ b ∧ b ≤ 57) ∨ (97 ≤ b ∧ b ≤ 102) ∨ (65 ≤ b ∧ b ≤ 70) ∨ b = 95 then
          skipHexDigits inp fuel (pos + 1)
        else pos
    | none => pos

/-- Accumulate decimal digits (`none` on any non-digit). -/
def digitsVal : List Char → Nat → Option Nat
  | [], acc => some acc
  | c :: rest, acc =>
      if 48 ≤ c.toNat ∧ c.toNat ≤ 57 then digitsVal rest (acc * 10 + (c.toNat - 48))
      else none

/-- Model of Rust `str::parse::<u64>`: optional `+`, non-empty digits,
range check. -/
def parse_u64 (s : List Char) : Option Nat :=
  let s2 := match s with
    | '+' :: rest => rest
    | _ => s
  match s2 with
  | [] => none
  | _ =>
    match digitsVal s2 0 with
    | none => none
    | some n => if n < 2 ^ 64 then some n else none

/-- Model of Rust `str::parse::<i64>`. -/
def parse_i64 (s : List Char) : Option Int :=
  match s with
  | '-' :: rest =>
      (match rest with
       | [] => none
       | _ =>
         match digitsVal rest 0 with
         | none => none
         | some n => if n ≤ 2 ^ 63 then some (-(n : Int)) else none)
  | '+' :: rest =>
      (match rest with
       | [] => none
       | _ =>
         match digitsVal rest 0 with
         | none => none
         | some n => if n ≤ 2 ^ 63 - 1 then some (n : Int) else none)
  | _ =>
      (match s with
       | [] => none
       | _ =>
         match digitsVal s 0 with
         | none => none
         | some n => if n ≤ 2 ^ 63 - 1 then some (n : Int) else none)

/-- hex digits accumulator for `u64::from_str_radix(s, 16)` (the scanned
string contains only hex digits here). -/
def hexVal : List Char → Nat → Option Nat
  | [], acc => some acc
  | c :: rest, acc =>
      match hex_val c.toNat with
      | some d => hexVal rest (acc * 16 + d)
      | none => none

def parse_hex_u64 (s : List Char) : Option Nat :=
  match s with
  | [] => none
  | _ =>
    match hexVal s 0 with
    | none => none
    | some n => if n < 2 ^ 64 then some n else none

/-- Split leading decimal digits off a character list. -/
def takeDigits : List Char → List Nat × List Char
  | [] => ([], [])
  | c :: rest =>
      if 48 ≤ c.toNat ∧ c.toNat ≤ 57 then
        let (ds, r) := takeDigits rest
        ((c.toNat - 48) :: ds, r)
      else ([], c :: rest)

def digitsToNat (ds : List Nat) : Nat := ds.foldl (fun acc d => acc * 10 + d) 0

/-- Model of Rust `str::parse::<f64>` on the number grammar the scanner
produces: sign, integer digits, optional fraction, optional exponent.
The value is computed exactly as a rational (IEEE rounding and
overflow-to-infinity are not modelled; the claims below use it only on
exactly-representable values or only up to the `Float` classification). -/
def parse_f64 (s : List Char) : Option F64 :=
  let (sgn, s1) := match s with
    | '-' :: rest => (true, rest)
    | '+' :: rest => (false, rest)
    | _ => (false, s)
  let (ints, s2) := takeDigits s1
  let (fracs, s3) := match s2 with
    | '.' :: rest => takeDigits rest
    | _ => ([], s2)
  if ints.isEmpty ∧ fracs.isEmpty then none
  else
    let mantissa : ℚ := (digitsToNat ints : ℚ) + (digitsToNat fracs : ℚ) / (10 ^ fracs.length : ℚ)
    match s3 with
    | [] => some (.finite (if sgn then -mantissa else mantissa))
    | e :: rest =>
        if e = 'e' ∨ e = 'E' then
          let (esgn, r1) := match rest with
            | '-' :: r => (true, r)
            | '+' :: r => (false, r)
            | _ => (false, rest)
          let (eds, r2) := takeDigits r1
          if eds.isEmpty ∨ ¬r2.isEmpty then none
          else
            let ex : ℚ := if esgn then 1 / (10 ^ digitsToNat eds : ℚ) else (10 ^ digitsToNat eds : ℚ)
            some (.finite ((if sgn then -mantissa else mantissa) * ex))
        else none

/-- Rust release semantics of `-(n as i64)`: reinterpret the `u64` as a
signed 64-bit value, negate, wrap into the `i64` range. -/
def i64Neg (n : Nat) : Int :=
  let t : Int := if n < 2 ^ 63 then (n : Int) else (n : Int) - 2 ^ 64
  ((-t + 2 ^ 63) % 2 ^ 64) - 2 ^ 63

/-- `Parser::parse_number` -/
def parse_number (inp : List Nat) (pos : Nat) : Except Err (Value × Nat) :=
  let start := pos
  let negative := byteAt inp pos = some 45
  let pos1 := if negative ∨ byteAt inp pos = some 43 then pos + 1 else pos
  if byteAt inp pos1 = some 48 ∧ (byteAt inp (pos1 + 1) = some 120 ∨ byteAt inp (pos1 + 1) = some 88) then
    let hexStart := pos1 + 2
    let p2 := skipHexDigits inp (inp.length + 1) hexStart
    let hexStr := ((listSlice inp hexStart p2).filter (fun b => b ≠ 95)).map Char.ofNat
    match parse_hex_u64 hexStr with
    | none => .error (.InvalidNumber hexStr)
    | some n =>
        if negative then .ok (.Number (.Int (i64Neg n)), p2)
        else .ok (.Number (.Uint n), p2)
  else
    let p3 := if byteAt inp pos1 = some 48 then pos1 + 1 else skipDigitsU inp (inp.length + 1) pos1
    let fr := byteAt inp p3 = some 46
    let p4 := if fr then skipDigitsU inp (inp.length + 1) (p3 + 1) else p3
    let ex := byteAt inp p4 = some 101 ∨ byteAt inp p4 = some 69
    let p5 :=
      if ex then
        let pe := p4 + 1
        let pe2 := if byteAt inp pe = some 43 ∨ byteAt inp pe = some 45 then pe + 1 else pe
        skipDigitsU inp (inp.length + 1) pe2
      else p4
    let isFloat := fr ∨ ex
    let s := ((listSlice inp start p5).filter (fun b => b ≠ 95)).map Char.ofNat
    if isFloat then
      match parse_f64 s with
      | some f => .ok (.Number (.Float f), p5)
      | none => .error (.InvalidNumber s)
    else if negative then
      match parse_i64 s with
      | some i => .ok (.Number (.Int i), p5)
      | none => .error (.InvalidNumber s)
    else
      match parse_u64 s with
      | some n =>
          if n ≤ 2 ^ 63 - 1 then .ok (.Number (.Int (n : Int)), p5)
          else .ok (.Number (.Uint n), p5)
      | none =>
        match parse_f64 s with
        | some f => .ok (.Number (.Float f), p5)
        | none => .error (.InvalidNumber s)

/-! ### Keywords, identifiers, keys -/

/-- `Parser::parse_null` -/
def parse_null (inp : List Nat) (pos : Nat) : Except Err (Value × Nat) :=
  if sliceEq inp pos (pos + 4) (strBytes "null") then .ok (.Null, pos + 4)
  else .error (.UnexpectedChar 'n' pos)

/-- `Parser::parse_bool` -/
def parse_bool (inp : List Nat) (pos : Nat) : Except Err (Value × Nat) :=
  if sliceEq inp pos (pos + 4) (strBytes "true") then .ok (.Bool true, pos + 4)
  else if sliceEq inp pos (pos + 5) (strBytes "false") then .ok (.Bool false, pos + 5)
  else .error (.UnexpectedChar (Char.ofNat ((byteAt inp pos).getD 0)) pos)

/-- `parser.rs` `is_id_start` (byte level). -/
def is_id_start (b : Nat) : Bool :=
  (65 ≤ b ∧ b ≤ 90) ∨ (97 ≤ b ∧ b ≤ 122) ∨ b = 95 ∨ b = 36

/-- `parser.rs` `is_id_continue` (byte level). -/
def is_id_continue (b : Nat) : Bool :=
  is_id_start b ∨ (48 ≤ b ∧ b ≤ 57)

/-- Rust `char::is_alphabetic` (Unicode `Alphabetic`).  Modelled as ASCII
alphabetic or any non-ASCII code point — the claims below never exercise
non-ASCII identifiers, where this over-approximates. -/
def charIsAlphabetic (c : Char) : Bool := c.isAlpha ∨ 0x80 ≤ c.toNat

def charIsAlphanumeric (c : Char) : Bool := c.isAlphanum ∨ 0x80 ≤ c.toNat

/-- `parser.rs` `is_id_start_char` -/
def is_id_start_char (c : Char) : Bool := charIsAlphabetic c ∨ c = '_' ∨ c = '$'

/-- `parser.rs` `is_id_continue_char` -/
def is_id_continue_char (c : Char) : Bool :=
  charIsAlphanumeric c ∨ c = '_' ∨ c = '$' ∨ c = '\u200C' ∨ c = '\u200D'

/-- The continuation loop of `Parser::parse_identifier`. -/
def idLoop (inp : List Nat) : Nat → List Char → Nat → Except Err (List Char × Nat)
  | 0, _, _ => .error (.Custom "fuel exhausted")
  | fuel + 1, acc, pos =>
    match byteAt inp pos with
    | none => .ok (acc, pos)
    | some b =>
      if is_id_continue b then idLoop inp fuel (acc ++ [Char.ofNat b]) (pos + 1)
      else if 0x80 ≤ b then
        match decode_utf8_char inp pos with
        | .error e => .error e
        | .ok (ch, p2) =>
            if is_id_continue_char ch then idLoop inp fuel (acc ++ [ch]) p2
            else .ok (acc, p2 - (String.mk [ch]).utf8ByteSize)
      else .ok (acc, pos)

/-- `Parser::parse_identifier` -/
def parse_identifier (inp : List Nat) (pos : Nat) : Except Err (List Char × Nat) :=
  match decode_utf8_char inp pos with
  | .error e => .error e
  | .ok (ch, p) =>
      if ¬ is_id_start_char ch then .error (.UnexpectedChar ch p)
      else idLoop inp (inp.length + 1) [ch] p

/-- `Parser::parse_key` -/
def parse_key (inp : List Nat) (pos : Nat) : Except Err (List Char × Nat) :=
  match byteAt inp pos with
  | some 34 => parse_string inp pos
  | some 39 => parse_string inp pos
  | some b =>
      if is_id_start b then parse_identifier inp pos
      else if 0x80 ≤ b then parse_identifier inp pos
      else .error (.UnexpectedChar (Char.ofNat b) pos)
  | none => .error .UnexpectedEof

/-- `Parser::expect` -/
def expectByte (inp : List Nat) (pos : Nat) (b : Nat) : Except Err Nat :=
  match byteAt inp pos with
  | some c =>
      if c = b then .ok (pos + 1)
      else .error (.Expected (Char.ofNat b) (some (Char.ofNat c)))
  | none => .error .UnexpectedEof

/-- `IndexMap::insert`: overwrite in place when the key exists, append
otherwise. -/
def mapInsert (k : List Char) (v : Value) (m : List (List Char × Value)) :
    List (List Char × Value) :=
  if m.any (fun p => p.1 = k) then m.map (fun p => if p.1 = k then (k, v) else p)
  else m ++ [(k, v)]

mutual

/-- `Parser::parse_value` (fueled; the entry point passes
`inp.length + 1`). -/
def parse_value (inp : List Nat) : Nat → Nat → Except Err (Value × Nat)
  | 0, _ => .error (.Custom "fuel exhausted")
  | fuel + 1, pos =>
    let p := skip_whitespace_and_comments inp pos
    match byteAt inp p with
    | none => .error .UnexpectedEof
    | some b =>
      if b = 110 then parse_null inp p
      else if b = 116 ∨ b = 102 then parse_bool inp p
      else if b = 34 ∨ b = 39 then
        match parse_string inp p with
        | .error e => .error e
        | .ok (s, p2) => .ok (.String s, p2)
      else if b = 91 then
        match expectByte inp p 91 with
        | .error e => .error e
        | .ok p2 => arrLoop inp fuel [] p2
      else if b = 123 then
        match expectByte inp p 123 with
        | .error e => .error e
        | .ok p2 => objLoop inp fuel [] p2
      else if b = 45 then
        if sliceEq inp (p + 1) (p + 9) (strBytes "Infinity") then .ok (.Number .NegInfinity, p + 9)
        else parse_number inp p
      else if b = 43 then
        if sliceEq inp (p + 1) (p + 9) (strBytes "Infinity") then .ok (.Number .Infinity, p + 9)
        else parse_number inp p
      else if b = 73 then
        if sliceEq inp p (p + 8) (strBytes "Infinity") then .ok (.Number .Infinity, p + 8)
        else .error (.UnexpectedChar 'I' p)
      else if b = 78 then
        if sliceEq inp p (p + 3) (strBytes "NaN") then .ok (.Number .NaN, p + 3)
        else .error (.UnexpectedChar 'N' p)
      else if (48 ≤ b ∧ b ≤ 57) ∨ b = 46 then parse_number inp p
      else .error (.UnexpectedChar (Char.ofNat b) p)

/-- The element loop of `Parser::parse_array` (after the `[`). -/
def arrLoop (inp : List Nat) : Nat → List Value → Nat → Except Err (Value × Nat)
  | 0, _, _ => .error (.Custom "fuel exhausted")
  | fuel + 1, acc, pos =>
    let p := skip_whitespace_and_comments inp pos
    match byteAt inp p with
    | none => .error .UnexpectedEof
    | some 93 => .ok (.Array acc, p + 1)
    | some _ =>
      match parse_value inp fuel p with
      | .error e => .error e
      | .ok (v, p2) =>
        let p3 := skip_whitespace_and_comments inp p2
        match byteAt inp p3 with
        | some 44 => arrLoop inp fuel (acc ++ [v]) (p3 + 1)
        | some 93 => arrLoop inp fuel (acc ++ [v]) p3
        | some c => .error (.UnexpectedChar (Char.ofNat c) p3)
        | none => .error .UnexpectedEof

/-- The entry loop of `Parser::parse_object` (after the `{`). -/
def objLoop (inp : List Nat) : Nat → List (List Char × Value) → Nat → Except Err (Value × Nat)
  | 0, _, _ => .error (.Custom "fuel exhausted")
  | fuel + 1, acc, pos =>
    let p := skip_whitespace_and_comments inp pos
    match byteAt inp p with
    | none => .error .UnexpectedEof
    | some 125 => .ok (.Object acc, p + 1)
    | some _ =>
      match parse_key inp p with
      | .error e => .error e
      | .ok (k, p2) =>
        let p3 := skip_whitespace_and_comments inp p2
        match expectByte inp p3 58 with
        | .error e => .error e
        | .ok p4 =>
          match parse_value inp fuel p4 with
          | .error e => .error e
          | .ok (v, p5) =>
            let acc2 := mapInsert k v acc
            let p6 := skip_whitespace_and_comments inp p5
            match byteAt inp p6 with
            | some 44 => objLoop inp fuel acc2 (p6 + 1)
            | some 125 => objLoop inp fuel acc2 p6
            | some c => .error (.UnexpectedChar (Char.ofNat c) p6)
            | none => .error .UnexpectedEof

end

/-- `mod.rs` `parse_value` — the top-level entry point: parse one value,
skip trailing whitespace/comments, demand end of input. -/
def parse_value_top (inp : List Nat) : Except Err Value :=
  match parse_value inp (inp.length + 1) 0 with
  | .error e => .error e
  | .ok (v, p) =>
    let p2 := skip_whitespace_and_comments inp p
    if inp.length - p2 > 0 then .error (.TrailingData p2) else .ok v

/-! ### UTF-8 encoding (Rust `String` → bytes) -/

/-- UTF-8 encoding of one scalar value. -/
def utf8EncodeChar (c : Char) : List Nat :=
  let v := c.toNat
  if v < 0x80 then [v]
  else if v < 0x800 then [0xC0 + v / 64, 0x80 + v % 64]
  else if v < 0x10000 then [0xE0 + v / 4096, 0x80 + v / 64 % 64, 0x80 + v % 64]
  else [0xF0 + v / 262144, 0x80 + v / 4096 % 64, 0x80 + v / 64 % 64, 0x80 + v % 64]

def utf8Encode (s : List Char) : List Nat := (s.map utf8EncodeChar).flatten

mutual

/-- `ser.rs` `serialize`: run the value through `ValueSerializer` (which
normalizes `Float` specials into the `NaN`/`Infinity`/`NegInfinity`
variants and rebuilds objects by `IndexMap` insertion) and write it with
`CompactFormatter::new(false, None)`. -/
def valueReser : Value → Value
  | .Null => .Null
  | .Bool b => .Bool b
  | .Number n =>
      .Number (match n with
        | .Float .nan => .NaN
        | .Float .inf => .Infinity
        | .Float .neginf => .NegInfinity
        | other => other)
  | .String s => .String s
  | .Array a => .Array (valueReserList a)
  | .Object o => .Object (valueReserPairs o [])

/-- children of an array under `ValueSerializer` -/
def valueReserList : List Value → List Value
  | [] => []
  | v :: rest => valueReser v :: valueReserList rest

/-- object rebuild: `serialize_entry` for each pair in order, i.e. an
`IndexMap::insert` fold. -/
def valueReserPairs : List (List Char × Value) → List (List Char × Value) → List (List Char × Value)
  | [], acc => acc
  | (k, v) :: rest, acc => valueReserPairs rest (mapInsert k (valueReser v) acc)

end

/-- `encode_compact` = `ser::serialize` for a `Value` argument. -/
def encode_compact (v : Value) : Except Err (List Char) :=
  compactWriteValue false MAX_DEPTH (valueReser v) 0

/-! ## Claim C8 — whitespace and comment skipping -/

/-- Claim-side description of one whitespace token: an ASCII whitespace
byte, the two-byte U+00A0, or a three-byte `E2 80 xx` sequence with
`0x80 ≤ xx ≤ 0xAF` — i.e. the code points U+2000 through U+202F. -/
def wsTokenAt (inp : List Nat) (pos : Nat) : Option Nat :=
  match byteAt inp pos with
  | some 32 | some 9 | some 10 | some 13 => some 1
  | some 0xC2 => if byteAt inp (pos + 1) = some 0xA0 then some 2 else none
  | some 0xE2 =>
      match byteAt inp (pos + 1), byteAt inp (pos + 2) with
      | some b1, some b2 => if b1 = 0x80 ∧ 0x80 ≤ b2 ∧ b2 ≤ 0xAF then some 3 else none
      | _, _ => none
  | _ => none

/-- Reference whitespace scan: consume one token at a time. -/
def specSkipBytes (inp : List Nat) : Nat → Nat → Nat
  | 0, pos => pos
  | fuel + 1, pos =>
    match wsTokenAt inp pos with
    | some k => specSkipBytes inp fuel (pos + k)
    | none => pos

/-- Whether a line-comment terminator starts at `i` (`\n`, `\r`, or the
U+2028/U+2029 byte sequence). -/
def lineTermAt (inp : List Nat) (i : Nat) : Prop :=
  byteAt inp i = some 10 ∨ byteAt inp i = some 13 ∨
    (byteAt inp i = some 0xE2 ∧ byteAt inp (i + 1) = some 0x80 ∧
      (byteAt inp (i + 2) = some 0xA8 ∨ byteAt inp (i + 2) = some 0xA9))

/-! ## Claim C3 — raw line terminators in strings -/

/-- Claim-side predicate: scanning a string literal's contents from
`pos`, skipping backslash-escaped pairs, a raw `\n` or `\r` byte occurs
before the closing quote. -/
def bareNewlineBefore (inp : List Nat) (quote : Nat) : Nat → Nat → Bool
  | 0, _ => false
  | fuel + 1, pos =>
    match byteAt inp pos with
    | none => false
    | some b =>
      if b = quote then false
      else if b = 92 then bareNewlineBefore inp quote fuel (pos + 2)
      else if b = 10 ∨ b = 13 then true
      else bareNewlineBefore inp quote fuel (pos + 1)

/-! ## Decimal digit facts (shared by the number-classification and
round-trip proofs) -/

def natBytes (n : Nat) : List Nat := (natDigits n).map Char.toNat

def isHexByte (b : Nat) : Prop := (48 ≤ b ∧ b ≤ 57) ∨ (97 ≤ b ∧ b ≤ 102) ∨ (65 ≤ b ∧ b ≤ 70)

/-- A character the zero-copy fast path passes over untouched: printable
(no control byte), not the quote, not a backslash. -/
def plainChar (quote : Nat) (c : Char) : Prop :=
  0x20 ≤ c.toNat ∧ c.toNat ≠ quote ∧ c.toNat ≠ 92

/-! ## The compact round-trip domain (C1) -/

/-- A string/key character that `write_escaped_str` copies verbatim:
printable, not the double quote, not a backslash. -/
def goodChar (c : Char) : Bool :=
  decide (0x20 ≤ c.toNat) && decide (c.toNat ≠ 34) && decide (c.toNat ≠ 92)

/-- A key the compact writer emits either as a bare identifier or as an
escape-free quoted string. -/
def goodKey (k : List Char) : Bool :=
  is_valid_identifier k || k.all goodChar

/-- Numbers whose compact rendering parses back to the same variant:
in-range `Int`; `Uint` strictly above `i64::MAX` (smaller `Uint`s
re-parse as `Int` — the C1 counterexample); whole finite floats
(rendered `n.0`); the two infinities. -/
def numberGood : Number → Bool
  | .Int i => decide (-(2 ^ 63) ≤ i) && decide (i ≤ 2 ^ 63 - 1)
  | .Uint n => decide (2 ^ 63 - 1 < n) && decide (n < 2 ^ 64)
  | .Float (.finite q) => decide (q.den = 1)
  | .Float _ => false
  | .NaN => false
  | .Infinity => true
  | .NegInfinity => true

mutual

/-- The domain of the amended round-trip claim. -/
def valueGood : Value → Bool
  | .Null => true
  | .Bool _ => true
  | .Number n => numberGood n
  | .String _ => true
  | .Array a => valueGoodList a
  | .Object o => valueGoodPairs o

def valueGoodList : List Value → Bool
  | [] => true
  | v :: rest => valueGood v && valueGoodList rest

def valueGoodPairs : List (List Char × Value) → Bool
  | [] => true
  | (k, v) :: rest => valueGood v && keyAbsent k rest && valueGoodPairs rest

end

/-- The byte that may legally follow a complete value in this
development: a separator, a closer, or the end of input. -/
def restOk (rest : List Nat) : Prop :=
  rest = [] ∨ ∃ b rs, rest = b :: rs ∧ (b = 44 ∨ b = 93 ∨ b = 125)

/-- The characters the compact writer emits for an object key (`qk = false`). -/
def keyChars (k : List Char) : List Char :=
  if is_valid_identifier k then k else write_escaped_str k true

/-- A concrete structured value inside the good round-trip domain:
object with an identifier key and a quoted key, an array of scalars, a
string, and a whole-valued float. -/
def roundValue : Value :=
  .Object [(['a'], .Array [.Null, .Bool true, .Number (.Int 5), .String ['h', 'i']]),
           (['b', '!'], .Number (.Float (.finite 2))),
           (['c', '"'], .String ['x', '\\', '\n', '\x01', '\t', '"'])]

/-- The characters `write_escaped_str` does not copy verbatim. -/
def needsEsc (c : Char) : Bool :=
  c = '"' || c = '\\' || decide (c.toNat < 0x20)


/-! ## Theorems -/

/-! ## Reflexivity of the derived equality -/

theorem mapGet_of_keyAbsent (k : List Char) (o : List (List Char × Value))
    (h : keyAbsent k o = true) : mapGet k o = none := by
  induction o with
  | nil => rfl
  | cons p rest ih =>
      obtain ⟨k', v⟩ := p
      simp only [keyAbsent, Bool.and_eq_true, decide_eq_true_eq] at h
      simp only [mapGet]
      rw [if_neg, ih h.2]
      simpa using h.1

theorem keyAbsent_ne (k : List Char) (o : List (List Char × Value))
    (h : keyAbsent k o = true) (p : List Char × Value) (hp : p ∈ o) : p.1 ≠ k := by
  induction o with
  | nil => cases hp
  | cons q rest ih =>
      simp only [keyAbsent, Bool.and_eq_true, decide_eq_true_eq] at h
      rcases List.mem_cons.mp hp with h1 | h2
      · subst h1; simpa using h.1
      · exact ih h.2 h2

theorem mapGet_self_of_wfPairs (o : List (List Char × Value))
    (h : valueWfPairs o = true) : ∀ p ∈ o, mapGet p.1 o = some p.2 := by
  induction o with
  | nil => intro p hp; cases hp
  | cons q rest ih =>
      obtain ⟨k, v⟩ := q
      simp only [valueWfPairs, Bool.and_eq_true] at h
      intro p hp
      rcases List.mem_cons.mp hp with h1 | h2
      · subst h1; simp [mapGet]
      · have hne := keyAbsent_ne k rest h.1.1 p h2
        simp only [mapGet]
        rw [if_neg (fun he => hne he.symm)]
        exact ih h.2 p h2

mutual

theorem numberBEq_refl (n : Number) (h : numberNanPayloadFree n = true) :
    n.beq n = true := by
  cases n with
  | Float f =>
      cases f with
      | nan => simp [numberNanPayloadFree, F64.isNan] at h
      | finite q => simp [Number.beq, F64.beq]
      | inf => simp [Number.beq, F64.beq]
      | neginf => simp [Number.beq, F64.beq]
  | Int a => simp [Number.beq]
  | Uint a => simp [Number.beq]
  | NaN => simp [Number.beq]
  | Infinity => simp [Number.beq]
  | NegInfinity => simp [Number.beq]

theorem valueBEq_refl (v : Value) (hw : valueWf v = true)
    (hn : valueNanPayloadFree v = true) : valueBEq v v = true := by
  cases v with
  | Null => rfl
  | Bool b => simp [valueBEq]
  | Number n => simpa [valueBEq] using numberBEq_refl n hn
  | String s => simp [valueBEq]
  | Array a =>
      simp only [valueWf] at hw
      simp only [valueNanPayloadFree] at hn
      simpa [valueBEq] using valueBEqList_refl a hw hn
  | Object o =>
      simp only [valueWf] at hw
      simp only [valueNanPayloadFree] at hn
      simp [valueBEq, valueBEqPairs_refl o o (mapGet_self_of_wfPairs o hw) hw hn]

theorem valueBEqList_refl (l : List Value) (hw : valueWfList l = true)
    (hn : valueNanPayloadFreeList l = true) : valueBEqList l l = true := by
  cases l with
  | nil => rfl
  | cons v rest =>
      simp only [valueWfList, Bool.and_eq_true] at hw
      simp only [valueNanPayloadFreeList, Bool.and_eq_true] at hn
      simp [valueBEqList, valueBEq_refl v hw.1 hn.1, valueBEqList_refl rest hw.2 hn.2]

/-- Comparing a well-formed sublist of an object against the full object
succeeds when every entry of the sublist is found by `mapGet` in the full
object; instantiated with `sub = o` this gives reflexivity. -/
theorem valueBEqPairs_refl (sub o : List (List Char × Value))
    (hget : ∀ p ∈ sub, mapGet p.1 o = some p.2)
    (hw : valueWfPairs sub = true)
    (hn : valueNanPayloadFreePairs sub = true) : valueBEqPairs sub o = true := by
  cases sub with
  | nil => rfl
  | cons p rest =>
      obtain ⟨k, v⟩ := p
      simp only [valueWfPairs, Bool.and_eq_true] at hw
      simp only [valueNanPayloadFreePairs, Bool.and_eq_true] at hn
      have hk := hget (k, v) (by simp)
      simp only [valueBEqPairs, hk]
      simp [valueBEq_refl v hw.1.2 hn.1,
        valueBEqPairs_refl rest o (fun p hp => hget p (by simp [hp])) hw.2 hn.2]

end

/-! ## Claim C5 — value equality and NaN -/

/-- C5 counterexample: the claim says `Number::NaN == Number::NaN` is
false, but under the `#[derive(PartialEq)]` instance of `value.rs` the
unit variant `NaN` compares equal to itself, and so does a `Value`
containing it. -/
theorem C5_counterexample :
    Number.beq Number.NaN Number.NaN = true ∧
    valueBEq (Value.Number Number.NaN) (Value.Number Number.NaN) = true := by
  exact ⟨rfl, rfl⟩

/-- C5 (amended): equality on `Number` and `Value` is the structural
derived equality on every variant — in particular `NaN == NaN` is true.
The only non-reflexive case is a `Float` whose `f64` payload is the IEEE
NaN: `Float(f64::NAN) ≠ Float(f64::NAN)`.  Every number without a NaN
float payload, and every well-formed value without one, is equal to
itself. -/
theorem C5_equality_structural :
    Number.beq Number.NaN Number.NaN = true ∧
    Number.beq (Number.Float F64.nan) (Number.Float F64.nan) = false ∧
    (∀ n : Number, numberNanPayloadFree n = true → n.beq n = true) ∧
    (∀ v : Value, valueWf v = true → valueNanPayloadFree v = true →
      valueBEq v v = true) := by
  refine ⟨rfl, rfl, numberBEq_refl, valueBEq_refl⟩

/-- Witness for `C5_equality_structural` at a concrete value. -/
theorem C5_equality_structural_witness :
    valueBEq (Value.Array [Value.Number (Number.Int 3), Value.Object [(['a'], Value.Null)]])
      (Value.Array [Value.Number (Number.Int 3), Value.Object [(['a'], Value.Null)]]) = true := by
  exact C5_equality_structural.2.2.2
    (Value.Array [Value.Number (Number.Int 3), Value.Object [(['a'], Value.Null)]])
    (by rfl) (by rfl)

/-! ## Claim C9 — decode shape dispatch -/

/-- C9 counterexample: the claim says every non-`Object` value fed to a
record/struct target errors, but `deserialize_struct` accepts an `Array`
and hands it to `visit_seq`. -/
theorem C9_counterexample :
    deserialize_struct (Value.Array []) = .ok (DecAccess.seqAcc []) ∧
    type_name (Value.Array []) ≠ "object" := by
  exact ⟨rfl, by decide⟩

/-- C9 (amended): map targets error on every non-`Object` value; struct
targets accept `Object` (by-name map access) and also `Array` (positional
sequence access), erroring with `TypeMismatch` on everything else; and
decoding any non-`Array` value — in particular an `Object` — into a
sequence target yields `TypeMismatch`, never a panic or a default. -/
theorem C9_shape_dispatch :
    (∀ m, deserialize_map (Value.Object m) = .ok (DecAccess.mapAcc m)) ∧
    (∀ v, (∀ m, v ≠ Value.Object m) →
      deserialize_map v = .error (.TypeMismatch "object" (type_name v))) ∧
    (∀ m, deserialize_struct (Value.Object m) = .ok (DecAccess.mapAcc m)) ∧
    (∀ a, deserialize_struct (Value.Array a) = .ok (DecAccess.seqAcc a)) ∧
    (∀ v, (∀ m, v ≠ Value.Object m) → (∀ a, v ≠ Value.Array a) →
      deserialize_struct v = .error (.TypeMismatch "object" (type_name v))) ∧
    (∀ a, deserialize_seq (Value.Array a) = .ok (DecAccess.seqAcc a)) ∧
    (∀ v, (∀ a, v ≠ Value.Array a) →
      deserialize_seq v = .error (.TypeMismatch "array" (type_name v))) := by
  refine ⟨fun m => rfl, ?_, fun m => rfl, fun a => rfl, ?_, fun a => rfl, ?_⟩
  · intro v h
    cases v with
    | Object m => exact absurd rfl (h m)
    | Null => rfl
    | Bool b => rfl
    | Number n => rfl
    | String s => rfl
    | Array a => rfl
  · intro v h1 h2
    cases v with
    | Object m => exact absurd rfl (h1 m)
    | Array a => exact absurd rfl (h2 a)
    | Null => rfl
    | Bool b => rfl
    | Number n => rfl
    | String s => rfl
  · intro v h
    cases v with
    | Array a => exact absurd rfl (h a)
    | Null => rfl
    | Bool b => rfl
    | Number n => rfl
    | String s => rfl
    | Object m => rfl

/-- Witness for `C9_shape_dispatch`: an `Object` into a sequence target is
a `TypeMismatch`, and a `Bool` into a map target likewise. -/
theorem C9_shape_dispatch_witness :
    deserialize_seq (Value.Object [(['k'], Value.Null)]) =
      .error (.TypeMismatch "array" "object") ∧
    deserialize_map (Value.Bool true) = .error (.TypeMismatch "object" "bool") := by
  refine ⟨?_, ?_⟩
  · exact C9_shape_dispatch.2.2.2.2.2.2 (Value.Object [(['k'], Value.Null)])
      (fun a h => by cases h)
  · exact C9_shape_dispatch.2.1 (Value.Bool true) (fun m h => by cases h)

/-! ## Claim C10 — string-target coercion -/

/-- C10: decoding into a string target coerces scalars: a `String` is
returned as is, a `Number` yields its `Display` rendering (the numeric
literal), `Bool` yields `"true"`/`"false"`, `Null` yields `"null"`, and
only `Array` and `Object` values produce a `TypeMismatch`. -/
theorem C10_string_coercion :
    (∀ s, deserialize_string (Value.String s) = .ok s) ∧
    (∀ n, deserialize_string (Value.Number n) = .ok n.display) ∧
    (deserialize_string (Value.Bool true) = .ok "true".toList) ∧
    (deserialize_string (Value.Bool false) = .ok "false".toList) ∧
    (deserialize_string Value.Null = .ok "null".toList) ∧
    (∀ a, deserialize_string (Value.Array a) =
      .error (.TypeMismatch "string" "array")) ∧
    (∀ o, deserialize_string (Value.Object o) =
      .error (.TypeMismatch "string" "object")) := by
  exact ⟨fun s => rfl, fun n => rfl, rfl, rfl, rfl, fun a => rfl, fun o => rfl⟩

/-! ## Claim C4 — integer narrowing -/

/-- C4 counterexample: the claim says any `Number` whose numeric value
does not fit the target errors for all three source variants, but a
`Float` of value `1e19` (which exceeds `i64::MAX ≈ 9.22e18`) decodes into
the `i64` target as `i64::MAX` — silently saturated by the `*f as i64`
cast — instead of erroring. -/
theorem C4_counterexample :
    ¬((10 ^ 19 : ℚ) ≤ ((2 ^ 63 - 1 : Int) : ℚ)) ∧
    num_to_int (-(2 ^ 63)) (2 ^ 63 - 1)
      (Value.Number (Number.Float (F64.finite (10 ^ 19)))) = .ok (2 ^ 63 - 1) := by
  constructor
  · intro h
    have : ((2 ^ 63 - 1 : Int) : ℚ) < 10 ^ 19 := by norm_num
    exact absurd h (not_le.mpr this)
  · have hsat : (F64.finite (10 ^ 19 : ℚ)).satCastI64 = 2 ^ 63 - 1 := by
      have ht : ratTrunc (10 ^ 19 : ℚ) = 10 ^ 19 := by
        simp [ratTrunc]
      simp only [F64.satCastI64, ht]
      norm_num
    simp only [num_to_int, hsat]
    rw [if_pos (by omega)]

/-- C4 (amended): for `Int` and `Uint` sources, narrowing decode is exact
and overflow-checked — it succeeds if and only if the value fits the
target range, and the value returned is the source value unchanged.  For
`Float` sources, however, the value is first saturating-cast to `i64`
(resp. `u64`), and the range check applies to the cast result, so a float
beyond the 64-bit range saturates and can decode successfully: any finite
float truncating above `i64::MAX` decodes into an `i64` target as
`i64::MAX`. -/
theorem C4_narrowing (lo hi : Int) :
    (∀ n r, num_to_int lo hi (Value.Number (Number.Int n)) = .ok r ↔
      (r = n ∧ lo ≤ n ∧ n ≤ hi)) ∧
    (∀ n r, num_to_int lo hi (Value.Number (Number.Uint n)) = .ok r ↔
      (r = n ∧ lo ≤ (n : Int) ∧ (n : Int) ≤ hi)) ∧
    (∀ f r, num_to_int lo hi (Value.Number (Number.Float f)) = .ok r ↔
      (r = f.satCastI64 ∧ lo ≤ r ∧ r ≤ hi)) ∧
    (∀ q : ℚ, ratTrunc q > 2 ^ 63 - 1 →
      num_to_int (-(2 ^ 63)) (2 ^ 63 - 1)
        (Value.Number (Number.Float (F64.finite q))) = .ok (2 ^ 63 - 1)) ∧
    (∀ hi' : Nat, ∀ n r, num_to_uint hi' (Value.Number (Number.Uint n)) = .ok r ↔
      (r = n ∧ n ≤ hi')) ∧
    (∀ hi' : Nat, ∀ n : Int, n < 0 →
      num_to_uint hi' (Value.Number (Number.Int n)) =
        .error (.TypeMismatch "unsigned int" "number")) := by
  refine ⟨?_, ?_, ?_, ?_, ?_, ?_⟩
  · intro n r
    simp only [num_to_int]
    split
    · rename_i h
      constructor
      · intro he; cases he; exact ⟨rfl, h⟩
      · rintro ⟨rfl, _⟩; rfl
    · rename_i h
      constructor
      · intro he; cases he
      · rintro ⟨rfl, h2⟩; exact absurd h2 h
  · intro n r
    simp only [num_to_int]
    split
    · rename_i h
      constructor
      · intro he; cases he; exact ⟨rfl, h⟩
      · rintro ⟨rfl, _⟩; rfl
    · rename_i h
      constructor
      · intro he; cases he
      · rintro ⟨rfl, h2⟩; exact absurd h2 h
  · intro f r
    simp only [num_to_int]
    split
    · rename_i h
      constructor
      · intro he; cases he; exact ⟨rfl, h⟩
      · rintro ⟨rfl, _⟩; rfl
    · rename_i h
      constructor
      · intro he; cases he
      · rintro ⟨rfl, h2⟩; exact absurd h2 h
  · intro q hq
    have hsat : (F64.finite q).satCastI64 = 2 ^ 63 - 1 := by
      simp only [F64.satCastI64]
      rw [if_neg (by omega), if_pos hq]
    simp only [num_to_int, hsat]
    rw [if_pos (by constructor <;> omega)]
  · intro hi' n r
    simp only [num_to_uint]
    split
    · rename_i h
      constructor
      · intro he; cases he; exact ⟨rfl, h⟩
      · rintro ⟨rfl, _⟩; rfl
    · rename_i h
      constructor
      · intro he; cases he
      · rintro ⟨rfl, h2⟩; exact absurd h2 h
  · intro hi' n hn
    simp only [num_to_uint]
    rw [if_neg (by omega)]

/-- Witness for `C4_narrowing` at the `u8` target range. -/
theorem C4_narrowing_witness :
    num_to_uint 255 (Value.Number (Number.Uint 300)) =
      .error (.Custom "integer overflow: 300") ∧
    num_to_uint 255 (Value.Number (Number.Int (-1))) =
      .error (.TypeMismatch "unsigned int" "number") := by
  constructor
  · have h := (C4_narrowing (-128) 127).2.2.2.2.1 255 300
    simp only [num_to_uint]
    rw [if_neg (by omega)]
    rfl
  · exact (C4_narrowing (-128) 127).2.2.2.2.2 255 (-1) (by omega)

theorem valueDepthList_lt (l : List Value) (k : Nat) (h : k < valueDepthList l) :
    ∃ c ∈ l, k < 1 + valueDepth c := by
  induction l with
  | nil => simp [valueDepthList] at h
  | cons v rest ih =>
      rcases lt_max_iff.mp h with h1 | h2
      · exact ⟨v, by simp, h1⟩
      · obtain ⟨c, hc, hk⟩ := ih h2
        exact ⟨c, by simp [hc], hk⟩

theorem valueDepthPairs_lt (l : List (List Char × Value)) (k : Nat)
    (h : k < valueDepthPairs l) : ∃ p ∈ l, k < 1 + valueDepth p.2 := by
  induction l with
  | nil => simp [valueDepthPairs] at h
  | cons q rest ih =>
      obtain ⟨kk, v⟩ := q
      rcases lt_max_iff.mp h with h1 | h2
      · exact ⟨(kk, v), by simp, h1⟩
      · obtain ⟨c, hc, hk⟩ := ih h2
        exact ⟨c, by simp [hc], hk⟩

theorem value_sizeOf_pos (v : Value) : 0 < sizeOf v := by
  cases v <;> simp

/-- Combined behaviour of the compact writer, by strong induction on the
size of the value: (a) within the depth budget it succeeds with the
closed-form encoding; (b) past the budget it never returns `ok`; (c) the
only error it ever produces is the recursion-limit `Custom` error. -/
theorem cwAux (qk : Bool) (md : Nat) (N : Nat) :
    ∀ v depth, sizeOf v ≤ N →
      ((depth + valueDepth v ≤ md →
          compactWriteValue qk md v depth = .ok (encCompact qk v)) ∧
        (md < depth + valueDepth v → ∀ s, compactWriteValue qk md v depth ≠ .ok s) ∧
        (∀ e, compactWriteValue qk md v depth = .error e →
          e = .Custom "Recursion limit exceeded")) := by
  induction N with
  | zero =>
      intro v depth hsz
      exact absurd (value_sizeOf_pos v) (by omega)
  | succ N ih =>
    intro v depth hsz
    by_cases hd : md < depth
    · refine ⟨fun hle => by omega, fun _ s hok => ?_, fun e he => ?_⟩
      · unfold compactWriteValue at hok
        rw [if_pos hd] at hok
        exact Except.noConfusion hok
      · unfold compactWriteValue at he
        rw [if_pos hd] at he
        cases he; rfl
    · cases v with
      | Null =>
          refine ⟨fun _ => ?_, fun hlt => by simp [valueDepth] at hlt; omega, fun e he => ?_⟩
          · unfold compactWriteValue; rw [if_neg hd]; rfl
          · simp only [compactWriteValue, if_neg hd] at he
            exact Except.noConfusion he
      | Bool b =>
          refine ⟨fun _ => ?_, fun hlt => by simp [valueDepth] at hlt; omega, fun e he => ?_⟩
          · unfold compactWriteValue; rw [if_neg hd]; rfl
          · simp only [compactWriteValue, if_neg hd] at he
            exact Except.noConfusion he
      | Number n =>
          refine ⟨fun _ => ?_, fun hlt => by simp [valueDepth] at hlt; omega, fun e he => ?_⟩
          · unfold compactWriteValue; rw [if_neg hd]; rfl
          · simp only [compactWriteValue, if_neg hd] at he
            exact Except.noConfusion he
      | String str =>
          refine ⟨fun _ => ?_, fun hlt => by simp [valueDepth] at hlt; omega, fun e he => ?_⟩
          · unfold compactWriteValue; rw [if_neg hd]; rfl
          · simp only [compactWriteValue, if_neg hd] at he
            exact Except.noConfusion he
      | Array arr =>
          have hszc : ∀ c ∈ arr, sizeOf c ≤ N := by
            intro c hc
            have h1 := List.sizeOf_lt_of_mem hc
            simp only [Value.Array.sizeOf_spec] at hsz
            omega
          -- the three list-level facts, proved by induction on the list,
          -- for an arbitrary `first` flag
          have harr : ∀ (l : List Value), (∀ c ∈ l, sizeOf c ≤ N) → ∀ first,
              ((∀ c ∈ l, depth + 1 + valueDepth c ≤ md) →
                compactWriteArr qk md l (depth + 1) first = .ok (encCompactArr qk l first)) ∧
              ((∃ c ∈ l, md < depth + 1 + valueDepth c) →
                ∀ s, compactWriteArr qk md l (depth + 1) first ≠ .ok s) ∧
              (∀ e, compactWriteArr qk md l (depth + 1) first = .error e →
                e = .Custom "Recursion limit exceeded") := by
            intro l hl
            induction l with
            | nil =>
                intro first
                refine ⟨fun _ => rfl, fun hex s => ?_, fun e he => ?_⟩
                · obtain ⟨c, hc, _⟩ := hex; cases hc
                · exact Except.noConfusion he
            | cons x rest ihl =>
                intro first
                have hx := ih x (depth + 1) (hl x (by simp))
                have hrest := ihl (fun c hc => hl c (by simp [hc]))
                refine ⟨?_, ?_, ?_⟩
                · intro hall
                  have h1 := hx.1 (hall x (by simp))
                  have h2 := (hrest false).1 (fun c hc => hall c (by simp [hc]))
                  simp only [compactWriteArr, h1, h2, encCompactArr]
                  rfl
                · rintro ⟨c, hc, hcd⟩ s hok
                  rcases List.mem_cons.mp hc with h1 | h2
                  · subst h1
                    cases hcx : compactWriteValue qk md c (depth + 1) with
                    | error e =>
                        simp only [compactWriteArr, hcx] at hok
                        exact Except.noConfusion hok
                    | ok s1 => exact hx.2.1 hcd s1 hcx
                  · cases hcx : compactWriteValue qk md x (depth + 1) with
                    | error e =>
                        simp only [compactWriteArr, hcx] at hok
                        exact Except.noConfusion hok
                    | ok s1 =>
                        cases hr : compactWriteArr qk md rest (depth + 1) false with
                        | error e =>
                            simp only [compactWriteArr, hcx, hr] at hok
                            exact Except.noConfusion hok
                        | ok s2 => exact (hrest false).2.1 ⟨c, h2, hcd⟩ s2 hr
                · intro e he
                  cases hcx : compactWriteValue qk md x (depth + 1) with
                  | error e2 =>
                      simp only [compactWriteArr, hcx] at he
                      cases he
                      exact hx.2.2 e hcx
                  | ok s1 =>
                      cases hr : compactWriteArr qk md rest (depth + 1) false with
                      | error e3 =>
                          simp only [compactWriteArr, hcx, hr] at he
                          cases he
                          exact (hrest false).2.2 e hr
                      | ok s2 =>
                          simp only [compactWriteArr, hcx, hr] at he
                          exact Except.noConfusion he
          have h3 := harr arr hszc true
          refine ⟨?_, ?_, ?_⟩
          · intro hle
            have hall : ∀ c ∈ arr, depth + 1 + valueDepth c ≤ md := by
              intro c hc
              have : 1 + valueDepth c ≤ valueDepthList arr := by
                clear hle h3 hszc hsz
                induction arr with
                | nil => cases hc
                | cons y rest ih2 =>
                    rcases List.mem_cons.mp hc with h1 | h2
                    · subst h1; simp [valueDepthList, Nat.le_max_left]
                    · exact le_trans (ih2 h2) (by simp [valueDepthList, Nat.le_max_right])
              simp only [valueDepth] at hle
              omega
            have hb := h3.1 hall
            unfold compactWriteValue
            rw [if_neg hd]
            simp only [hb, encCompact]
            rfl
          · intro hlt s hok
            have hex : ∃ c ∈ arr, md < depth + 1 + valueDepth c := by
              have hlt2 : md - depth < valueDepthList arr := by
                simp only [valueDepth] at hlt; omega
              obtain ⟨c, hc, hck⟩ := valueDepthList_lt arr (md - depth) hlt2
              exact ⟨c, hc, by omega⟩
            cases hb : compactWriteArr qk md arr (depth + 1) true with
            | error e =>
                simp only [compactWriteValue, if_neg hd, hb] at hok
                exact Except.noConfusion hok
            | ok s2 => exact h3.2.1 hex s2 hb
          · intro e he
            cases hb : compactWriteArr qk md arr (depth + 1) true with
            | error e2 =>
                simp only [compactWriteValue, if_neg hd, hb] at he
                cases he
                exact h3.2.2 e hb
            | ok s2 =>
                simp only [compactWriteValue, if_neg hd, hb] at he
                exact Except.noConfusion he
      | Object obj =>
          have hszc : ∀ p ∈ obj, sizeOf p.2 ≤ N := by
            intro p hp
            have h1 := List.sizeOf_lt_of_mem hp
            obtain ⟨k, v⟩ := p
            simp only [Value.Object.sizeOf_spec] at hsz
            simp only [Prod.mk.sizeOf_spec] at h1
            simp only []
            omega
          have hobj : ∀ (l : List (List Char × Value)), (∀ p ∈ l, sizeOf p.2 ≤ N) → ∀ first,
              ((∀ p ∈ l, depth + 1 + valueDepth p.2 ≤ md) →
                compactWriteObj qk md l (depth + 1) first = .ok (encCompactObj qk l first)) ∧
              ((∃ p ∈ l, md < depth + 1 + valueDepth p.2) →
                ∀ s, compactWriteObj qk md l (depth + 1) first ≠ .ok s) ∧
              (∀ e, compactWriteObj qk md l (depth + 1) first = .error e →
                e = .Custom "Recursion limit exceeded") := by
            intro l hl
            induction l with
            | nil =>
                intro first
                refine ⟨fun _ => rfl, fun hex s => ?_, fun e he => ?_⟩
                · obtain ⟨c, hc, _⟩ := hex; cases hc
                · exact Except.noConfusion he
            | cons x rest ihl =>
                obtain ⟨k, v⟩ := x
                intro first
                have hx := ih v (depth + 1) (hl (k, v) (by simp))
                have hrest := ihl (fun c hc => hl c (by simp [hc]))
                refine ⟨?_, ?_, ?_⟩
                · intro hall
                  have h1 := hx.1 (hall (k, v) (by simp))
                  have h2 := (hrest false).1 (fun c hc => hall c (by simp [hc]))
                  simp only [compactWriteObj, h1, h2, encCompactObj]
                  rfl
                · rintro ⟨c, hc, hcd⟩ s hok
                  rcases List.mem_cons.mp hc with h1 | h2
                  · subst h1
                    cases hcx : compactWriteValue qk md v (depth + 1) with
                    | error e =>
                        simp only [compactWriteObj, hcx] at hok
                        exact Except.noConfusion hok
                    | ok s1 => exact hx.2.1 hcd s1 hcx
                  · cases hcx : compactWriteValue qk md v (depth + 1) with
                    | error e =>
                        simp only [compactWriteObj, hcx] at hok
                        exact Except.noConfusion hok
                    | ok s1 =>
                        cases hr : compactWriteObj qk md rest (depth + 1) false with
                        | error e =>
                            simp only [compactWriteObj, hcx, hr] at hok
                            exact Except.noConfusion hok
                        | ok s2 => exact (hrest false).2.1 ⟨c, h2, hcd⟩ s2 hr
                · intro e he
                  cases hcx : compactWriteValue qk md v (depth + 1) with
                  | error e2 =>
                      simp only [compactWriteObj, hcx] at he
                      cases he
                      exact hx.2.2 e hcx
                  | ok s1 =>
                      cases hr : compactWriteObj qk md rest (depth + 1) false with
                      | error e3 =>
                          simp only [compactWriteObj, hcx, hr] at he
                          cases he
                          exact (hrest false).2.2 e hr
                      | ok s2 =>
                          simp only [compactWriteObj, hcx, hr] at he
                          exact Except.noConfusion he
          have h3 := hobj obj hszc true
          refine ⟨?_, ?_, ?_⟩
          · intro hle
            have hall : ∀ p ∈ obj, depth + 1 + valueDepth p.2 ≤ md := by
              intro p hp
              have : 1 + valueDepth p.2 ≤ valueDepthPairs obj := by
                clear hle h3 hszc hsz
                induction obj with
                | nil => cases hp
                | cons y rest ih2 =>
                    obtain ⟨k2, v2⟩ := y
                    rcases List.mem_cons.mp hp with h1 | h2
                    · subst h1; simp [valueDepthPairs, Nat.le_max_left]
                    · exact le_trans (ih2 h2) (by simp [valueDepthPairs, Nat.le_max_right])
              simp only [valueDepth] at hle
              omega
            have hb := h3.1 hall
            unfold compactWriteValue
            rw [if_neg hd]
            simp only [hb, encCompact]
            rfl
          · intro hlt s hok
            have hex : ∃ p ∈ obj, md < depth + 1 + valueDepth p.2 := by
              have hlt2 : md - depth < valueDepthPairs obj := by
                simp only [valueDepth] at hlt; omega
              obtain ⟨c, hc, hck⟩ := valueDepthPairs_lt obj (md - depth) hlt2
              exact ⟨c, hc, by omega⟩
            cases hb : compactWriteObj qk md obj (depth + 1) true with
            | error e =>
                simp only [compactWriteValue, if_neg hd, hb] at hok
                exact Except.noConfusion hok
            | ok s2 => exact h3.2.1 hex s2 hb
          · intro e he
            cases hb : compactWriteObj qk md obj (depth + 1) true with
            | error e2 =>
                simp only [compactWriteValue, if_neg hd, hb] at he
                cases he
                exact h3.2.2 e hb
            | ok s2 =>
                simp only [compactWriteValue, if_neg hd, hb] at he
                exact Except.noConfusion he

/-- Within the depth budget the compact writer succeeds with the
closed-form encoding. -/
theorem cw_ok (qk : Bool) (md : Nat) (v : Value) (depth : Nat)
    (h : depth + valueDepth v ≤ md) :
    compactWriteValue qk md v depth = .ok (encCompact qk v) :=
  (cwAux qk md (sizeOf v) v depth (le_refl _)).1 h

/-- Past the depth budget the compact writer fails with the
recursion-limit error. -/
theorem cw_err (qk : Bool) (md : Nat) (v : Value) (depth : Nat)
    (h : md < depth + valueDepth v) :
    compactWriteValue qk md v depth = .error (.Custom "Recursion limit exceeded") := by
  have ha := cwAux qk md (sizeOf v) v depth (le_refl _)
  cases hres : compactWriteValue qk md v depth with
  | error e => rw [ha.2.2 e hres]
  | ok s => exact absurd hres (ha.2.1 h s)

/-- The pretty writer never fails (it performs no depth check), by strong
induction on the size of the value. -/
theorem pwAux (indent : List Char) (qk : Bool) (N : Nat) :
    ∀ v depth, sizeOf v ≤ N → ∃ s, prettyWriteValue indent qk v depth = .ok s := by
  induction N with
  | zero =>
      intro v depth hsz
      exact absurd (value_sizeOf_pos v) (by omega)
  | succ N ih =>
    intro v depth hsz
    cases v with
    | Null => exact ⟨_, rfl⟩
    | Bool b => exact ⟨_, rfl⟩
    | Number n => exact ⟨_, rfl⟩
    | String str => exact ⟨_, rfl⟩
    | Array arr =>
        have hszc : ∀ c ∈ arr, sizeOf c ≤ N := by
          intro c hc
          have h1 := List.sizeOf_lt_of_mem hc
          simp only [Value.Array.sizeOf_spec] at hsz
          omega
        have harr : ∀ (l : List Value), (∀ c ∈ l, sizeOf c ≤ N) → ∀ d r,
            ∃ s, prettyWriteArr indent qk l d r = .ok s := by
          intro l hl
          induction l with
          | nil => exact fun d r => ⟨_, rfl⟩
          | cons x rest ihl =>
              intro d r
              obtain ⟨s1, h1⟩ := ih x d (hl x (by simp))
              obtain ⟨s2, h2⟩ := ihl (fun c hc => hl c (by simp [hc])) d (r - 1)
              refine ⟨writeIndent indent d ++ s1 ++ (if r ≤ 1 then [] else [',']) ++ '\n' :: s2, ?_⟩
              simp only [prettyWriteArr, h1, h2]
              rfl
        cases arr with
        | nil => exact ⟨_, rfl⟩
        | cons x rest =>
            obtain ⟨body, hbody⟩ := harr (x :: rest) hszc (depth + 1) (x :: rest).length
            refine ⟨'[' :: '\n' :: body ++ writeIndent indent depth ++ [']'], ?_⟩
            simp only [prettyWriteValue, hbody]
            rfl
    | Object obj =>
        have hszc : ∀ p ∈ obj, sizeOf p.2 ≤ N := by
          intro p hp
          have h1 := List.sizeOf_lt_of_mem hp
          obtain ⟨k, v⟩ := p
          simp only [Value.Object.sizeOf_spec] at hsz
          simp only [Prod.mk.sizeOf_spec] at h1
          simp only []
          omega
        have hobj : ∀ (l : List (List Char × Value)), (∀ p ∈ l, sizeOf p.2 ≤ N) → ∀ d r,
            ∃ s, prettyWriteObj indent qk l d r = .ok s := by
          intro l hl
          induction l with
          | nil => exact fun d r => ⟨_, rfl⟩
          | cons x rest ihl =>
              obtain ⟨k, v⟩ := x
              intro d r
              obtain ⟨s1, h1⟩ := ih v d (hl (k, v) (by simp))
              obtain ⟨s2, h2⟩ := ihl (fun c hc => hl c (by simp [hc])) d (r - 1)
              refine ⟨writeIndent indent d ++
                (if !qk && is_valid_identifier k then k else write_escaped_str k true) ++
                ':' :: ' ' :: s1 ++ (if r ≤ 1 then [] else [',']) ++ '\n' :: s2, ?_⟩
              simp only [prettyWriteObj, h1, h2]
              rfl
        cases obj with
        | nil => exact ⟨_, rfl⟩
        | cons x rest =>
            obtain ⟨body, hbody⟩ := hobj (x :: rest) hszc (depth + 1) (x :: rest).length
            refine ⟨'{' :: '\n' :: body ++ writeIndent indent depth ++ ['}'], ?_⟩
            simp only [prettyWriteValue, hbody]
            rfl

theorem pw_ok (indent : List Char) (qk : Bool) (v : Value) (depth : Nat) :
    ∃ s, prettyWriteValue indent qk v depth = .ok s :=
  pwAux indent qk (sizeOf v) v depth (le_refl _)

theorem deepNest_depth (n : Nat) : valueDepth (deepNest n) = n := by
  induction n with
  | zero => rfl
  | succ n ih => simp [deepNest, valueDepth, valueDepthList, ih]; omega

/-! ## Claim C2 — emitter depth guards -/

/-- C2 counterexample: the claim says both emitters fail with a `Custom`
error on values nested deeper than 512, but `PrettyFormatter::write_value`
has no depth check at all: it succeeds on a 513-deep nest of arrays. -/
theorem C2_counterexample :
    valueDepth (deepNest 513) = 513 ∧
    (prettyWriteValue [] false (deepNest 513) 0).isOk = true := by
  refine ⟨deepNest_depth 513, ?_⟩
  obtain ⟨s, hs⟩ := pw_ok [] false (deepNest 513) 0
  rw [hs]
  rfl

/-- C2 (amended): only the Compact formatter enforces the fixed maximum
recursion depth `MAX_DEPTH = 512`: it fails with the `Custom` recursion
limit error exactly when some node lies deeper than 512, and succeeds
otherwise.  The Pretty formatter performs no depth check and succeeds on
every value, at every depth. -/
theorem C2_depth_guard :
    MAX_DEPTH = 512 ∧
    (∀ qk v, 512 < valueDepth v →
      compactWriteValue qk MAX_DEPTH v 0 = .error (.Custom "Recursion limit exceeded")) ∧
    (∀ qk v, valueDepth v ≤ 512 →
      compactWriteValue qk MAX_DEPTH v 0 = .ok (encCompact qk v)) ∧
    (∀ indent qk v depth, ∃ s, prettyWriteValue indent qk v depth = .ok s) := by
  refine ⟨rfl, ?_, ?_, fun indent qk v depth => pw_ok indent qk v depth⟩
  · intro qk v h
    exact cw_err qk MAX_DEPTH v 0 (by simpa [MAX_DEPTH] using h)
  · intro qk v h
    exact cw_ok qk MAX_DEPTH v 0 (by simpa [MAX_DEPTH] using h)

/-- Witness for `C2_depth_guard` at concrete inputs. -/
theorem C2_depth_guard_witness :
    compactWriteValue false MAX_DEPTH (deepNest 513) 0 =
      .error (.Custom "Recursion limit exceeded") ∧
    compactWriteValue false MAX_DEPTH Value.Null 0 = .ok "null".toList := by
  constructor
  · exact C2_depth_guard.2.1 false (deepNest 513) (by rw [deepNest_depth]; omega)
  · exact C2_depth_guard.2.2.1 false Value.Null (by norm_num [valueDepth])

theorem byteAt_some_lt (inp : List Nat) (pos : Nat) (b : Nat)
    (h : byteAt inp pos = some b) : pos < inp.length := by
  by_contra hge
  rw [byteAt, List.get?_eq_none.mpr (by omega)] at h
  cases h

theorem skipWsBytes_eq_spec (inp : List Nat) :
    ∀ fuel pos, skipWsBytes inp fuel pos = specSkipBytes inp fuel pos := by
  intro fuel
  induction fuel with
  | zero => intro pos; rfl
  | succ fuel ih =>
      intro pos
      rw [skipWsBytes, specSkipBytes]
      cases hb : byteAt inp pos with
      | none => simp [wsTokenAt, hb]
      | some b =>
        by_cases h32 : b = 32
        · subst h32; simp [wsTokenAt, hb, ih]
        · by_cases h9 : b = 9
          · subst h9; simp [wsTokenAt, hb, ih]
          · by_cases h10 : b = 10
            · subst h10; simp [wsTokenAt, hb, ih]
            · by_cases h13 : b = 13
              · subst h13; simp [wsTokenAt, hb, ih]
              · by_cases hc2 : b = 0xC2
                · subst hc2
                  simp only [wsTokenAt, hb]
                  by_cases ha0 : byteAt inp (pos + 1) = some 0xA0
                  · simp [ha0, ih]
                  · simp [ha0]
                · by_cases he2 : b = 0xE2
                  · subst he2
                    simp only [wsTokenAt, hb]
                    cases hb1 : byteAt inp (pos + 1) with
                    | none => simp
                    | some b1 =>
                      cases hb2 : byteAt inp (pos + 2) with
                      | none => simp
                      | some b2 =>
                          simp only []
                          by_cases hcond : b1 = 0x80 ∧ (b2 = 0xA8 ∨ b2 = 0xA9 ∨ (0x80 ≤ b2 ∧ b2 ≤ 0xAF))
                          · rw [if_pos hcond, if_pos (by omega), ih]
                          · rw [if_neg hcond, if_neg (by omega)]
                  · have htok : wsTokenAt inp pos = none := by
                      simp only [wsTokenAt, hb]
                      split
                      all_goals try rfl
                      all_goals (rename_i heq; exact absurd (Option.some.inj heq) (by omega))
                    rw [htok]
                    split
                    all_goals try rfl
                    all_goals (rename_i heq; exact absurd (Option.some.inj heq) (by omega))

theorem wsTokenAt_facts (inp : List Nat) (pos k : Nat) (h : wsTokenAt inp pos = some k) :
    1 ≤ k ∧ pos < inp.length := by
  cases hb : byteAt inp pos with
  | none => simp [wsTokenAt, hb] at h
  | some b =>
      have hlt := byteAt_some_lt inp pos b hb
      refine ⟨?_, hlt⟩
      simp only [wsTokenAt, hb] at h
      repeat' split at h
      all_goals cases h
      all_goals omega

/-- `wsTokenAt` is `none` at the position `skipWsBytes` stops at (with the
canonical, always-adequate fuel). -/
theorem skipWsBytes_stop (inp : List Nat) :
    ∀ fuel pos, inp.length < fuel + pos → wsTokenAt inp (skipWsBytes inp fuel pos) = none := by
  intro fuel
  induction fuel with
  | zero =>
      intro pos hf
      have : byteAt inp pos = none := by
        rw [byteAt, List.get?_eq_none.mpr (by omega)]
      simp [skipWsBytes, wsTokenAt, this]
  | succ fuel ih =>
      intro pos hf
      rw [skipWsBytes_eq_spec, specSkipBytes]
      cases ht : wsTokenAt inp pos with
      | none => simpa [wsTokenAt] using ht
      | some k =>
          simp only []
          rw [← skipWsBytes_eq_spec]
          obtain ⟨hk, hlt⟩ := wsTokenAt_facts inp pos k ht
          exact ih (pos + k) (by omega)

theorem skipWsBytes_ge (inp : List Nat) :
    ∀ fuel pos, pos ≤ skipWsBytes inp fuel pos := by
  intro fuel
  induction fuel with
  | zero => intro pos; exact le_refl _
  | succ fuel ih =>
      intro pos
      rw [skipWsBytes]
      repeat' split
      all_goals first
        | exact le_refl _
        | exact le_trans (by omega) (ih _)

theorem skipLineComment_spec (inp : List Nat) :
    ∀ fuel pos, inp.length < fuel + pos →
      pos ≤ skipLineComment inp fuel pos ∧
      (byteAt inp (skipLineComment inp fuel pos) = none ∨
        lineTermAt inp (skipLineComment inp fuel pos)) ∧
      (∀ i, pos ≤ i → i < skipLineComment inp fuel pos → ¬ lineTermAt inp i) := by
  intro fuel
  induction fuel with
  | zero =>
      intro pos hf
      have hz : skipLineComment inp 0 pos = pos := rfl
      rw [hz]
      refine ⟨le_refl _, Or.inl ?_, fun i h1 h2 => by omega⟩
      rw [byteAt, List.get?_eq_none.mpr (by omega)]
  | succ fuel ih =>
      intro pos hf
      have hstep : skipLineComment inp (fuel + 1) pos =
          (match byteAt inp pos with
           | none => pos
           | some b =>
               if b = 10 ∨ b = 13 then pos
               else if b = 0xE2 ∧ byteAt inp (pos + 1) = some 0x80 ∧
                   (byteAt inp (pos + 2) = some 0xA8 ∨ byteAt inp (pos + 2) = some 0xA9) then pos
               else skipLineComment inp fuel (pos + 1)) := rfl
      rw [hstep]
      cases hb : byteAt inp pos with
      | none =>
          simp only []
          exact ⟨le_refl _, Or.inl hb, fun i h1 h2 => by omega⟩
      | some b =>
        simp only []
        by_cases hnl : b = 10 ∨ b = 13
        · rw [if_pos hnl]
          refine ⟨le_refl _, Or.inr ?_, fun i h1 h2 => by omega⟩
          rcases hnl with h | h <;> subst h
          · exact Or.inl hb
          · exact Or.inr (Or.inl hb)
        · rw [if_neg hnl]
          by_cases hterm : b = 0xE2 ∧ byteAt inp (pos + 1) = some 0x80 ∧
              (byteAt inp (pos + 2) = some 0xA8 ∨ byteAt inp (pos + 2) = some 0xA9)
          · rw [if_pos hterm]
            refine ⟨le_refl _, Or.inr ?_, fun i h1 h2 => by omega⟩
            exact Or.inr (Or.inr ⟨by rw [hb, hterm.1], hterm.2.1, hterm.2.2⟩)
          · rw [if_neg hterm]
            have hlt : pos < inp.length := byteAt_some_lt inp pos b hb
            obtain ⟨g1, g2, g3⟩ := ih (pos + 1) (by omega)
            refine ⟨by omega, g2, ?_⟩
            intro i h1 h2
            by_cases hi : i = pos
            · subst hi
              intro hcontra
              rcases hcontra with h | h | h
              · rw [hb] at h; cases h; exact hnl (Or.inl rfl)
              · rw [hb] at h; cases h; exact hnl (Or.inr rfl)
              · rw [hb] at h
                refine hterm ⟨?_, h.2.1, h.2.2⟩
                exact Option.some.inj h.1
            · exact g3 i (by omega) h2

theorem skipBlockComment_spec (inp : List Nat) :
    ∀ fuel pos, inp.length < fuel + pos →
      pos ≤ skipBlockComment inp fuel pos ∧
      ((∃ r, skipBlockComment inp fuel pos = r + 2 ∧ byteAt inp r = some 42 ∧
          byteAt inp (r + 1) = some 47 ∧
          (∀ i, pos ≤ i → i < r → ¬(byteAt inp i = some 42 ∧ byteAt inp (i + 1) = some 47))) ∨
        (byteAt inp (skipBlockComment inp fuel pos) = none ∧
          (∀ i, pos ≤ i → i < skipBlockComment inp fuel pos →
            ¬(byteAt inp i = some 42 ∧ byteAt inp (i + 1) = some 47)))) := by
  intro fuel
  induction fuel with
  | zero =>
      intro pos hf
      have hz : skipBlockComment inp 0 pos = pos := rfl
      rw [hz]
      refine ⟨le_refl _, Or.inr ⟨?_, fun i h1 h2 => by omega⟩⟩
      rw [byteAt, List.get?_eq_none.mpr (by omega)]
  | succ fuel ih =>
      intro pos hf
      by_cases hss : byteAt inp pos = some 42 ∧ byteAt inp (pos + 1) = some 47
      · have hstep : skipBlockComment inp (fuel + 1) pos = pos + 2 := by
          rw [skipBlockComment, hss.1, hss.2]
        rw [hstep]
        exact ⟨by omega, Or.inl ⟨pos, rfl, hss.1, hss.2, fun i h1 h2 => by omega⟩⟩
      · cases hb : byteAt inp pos with
        | none =>
            have hstep : skipBlockComment inp (fuel + 1) pos = pos := by
              rw [skipBlockComment, hb]
            rw [hstep]
            refine ⟨le_refl _, Or.inr ⟨hb, fun i h1 h2 => by omega⟩⟩
        | some b =>
            have hstep : skipBlockComment inp (fuel + 1) pos = skipBlockComment inp fuel (pos + 1) := by
              rw [skipBlockComment, hb]
              rcases eq_or_ne b 42 with h42 | h42
              · subst h42
                cases h2 : byteAt inp (pos + 1) with
                | none => rfl
                | some c =>
                    rcases eq_or_ne c 47 with h47 | h47
                    · subst h47; exact absurd ⟨hb, h2⟩ hss
                    · split
                      · rename_i heq1 heq2
                        exact absurd (Option.some.inj heq2) h47
                      · rename_i heq1
                        cases heq1
                      · rfl
              · split
                · rename_i heq1 heq2
                  exact absurd (Option.some.inj heq1) h42
                · rename_i heq1
                  cases heq1
                · rfl
            rw [hstep]
            have hlt : pos < inp.length := byteAt_some_lt inp pos b hb
            obtain ⟨g1, g2⟩ := ih (pos + 1) (by omega)
            refine ⟨by omega, ?_⟩
            rcases g2 with ⟨r, hr, h42, h47, hnone⟩ | ⟨hnone, hall⟩
            · left
              refine ⟨r, hr, h42, h47, ?_⟩
              intro i h1 h2
              by_cases hi : i = pos
              · subst hi; exact hss
              · exact hnone i (by omega) h2
            · right
              refine ⟨hnone, ?_⟩
              intro i h1 h2
              by_cases hi : i = pos
              · subst hi; exact hss
              · exact hall i (by omega) h2

theorem skipLineComment_ge (inp : List Nat) :
    ∀ fuel pos, pos ≤ skipLineComment inp fuel pos := by
  intro fuel
  induction fuel with
  | zero => intro pos; exact le_refl _
  | succ fuel ih =>
      intro pos
      rw [skipLineComment]
      repeat' split
      all_goals first
        | exact le_refl _
        | exact le_trans (by omega) (ih _)

theorem skipBlockComment_ge (inp : List Nat) :
    ∀ fuel pos, pos ≤ skipBlockComment inp fuel pos := by
  intro fuel
  induction fuel with
  | zero => intro pos; exact le_refl _
  | succ fuel ih =>
      intro pos
      rw [skipBlockComment]
      repeat' split
      all_goals first
        | exact le_refl _
        | omega
        | exact le_trans (by omega) (ih _)

/-- The position `skip_whitespace_and_comments` stops at begins neither a
whitespace token nor a comment. -/
theorem skipWs_stop (inp : List Nat) :
    ∀ fuel pos, inp.length < fuel + pos →
      wsTokenAt inp (skipWs inp fuel pos) = none ∧
      ¬(byteAt inp (skipWs inp fuel pos) = some 47 ∧
        byteAt inp (skipWs inp fuel pos + 1) = some 47) ∧
      ¬(byteAt inp (skipWs inp fuel pos) = some 47 ∧
        byteAt inp (skipWs inp fuel pos + 1) = some 42) := by
  intro fuel
  induction fuel with
  | zero =>
      intro pos hf
      have hn : byteAt inp pos = none := by
        rw [byteAt, List.get?_eq_none.mpr (by omega)]
      have hz : skipWs inp 0 pos = pos := rfl
      rw [hz]
      refine ⟨by simp [wsTokenAt, hn], ?_, ?_⟩
      · intro h
        rw [hn] at h
        exact Option.noConfusion h.1
      · intro h
        rw [hn] at h
        exact Option.noConfusion h.1
  | succ fuel ih =>
      intro pos hf
      have hstop := skipWsBytes_stop inp (inp.length + 1) pos (by omega)
      have hge := skipWsBytes_ge inp (inp.length + 1) pos
      have hstep : skipWs inp (fuel + 1) pos =
          (match byteAt inp (skipWsBytes inp (inp.length + 1) pos),
                 byteAt inp (skipWsBytes inp (inp.length + 1) pos + 1) with
           | some 47, some 47 =>
               skipWs inp fuel (skipLineComment inp (inp.length + 1)
                 (skipWsBytes inp (inp.length + 1) pos + 2))
           | some 47, some 42 =>
               skipWs inp fuel (skipBlockComment inp (inp.length + 1)
                 (skipWsBytes inp (inp.length + 1) pos + 2))
           | _, _ => skipWsBytes inp (inp.length + 1) pos) := rfl
      rw [hstep]
      by_cases hcl : byteAt inp (skipWsBytes inp (inp.length + 1) pos) = some 47 ∧
          byteAt inp (skipWsBytes inp (inp.length + 1) pos + 1) = some 47
      · rw [hcl.1, hcl.2]
        simp only []
        have hq := byteAt_some_lt _ _ _ hcl.1
        have hlc := skipLineComment_ge inp (inp.length + 1)
          (skipWsBytes inp (inp.length + 1) pos + 2)
        exact ih _ (by omega)
      · by_cases hcb : byteAt inp (skipWsBytes inp (inp.length + 1) pos) = some 47 ∧
            byteAt inp (skipWsBytes inp (inp.length + 1) pos + 1) = some 42
        · rw [hcb.1, hcb.2]
          simp only []
          have hq := byteAt_some_lt _ _ _ hcb.1
          have hbc := skipBlockComment_ge inp (inp.length + 1)
            (skipWsBytes inp (inp.length + 1) pos + 2)
          exact ih _ (by omega)
        · have hmatch :
              (match byteAt inp (skipWsBytes inp (inp.length + 1) pos),
                     byteAt inp (skipWsBytes inp (inp.length + 1) pos + 1) with
               | some 47, some 47 =>
                   skipWs inp fuel (skipLineComment inp (inp.length + 1)
                     (skipWsBytes inp (inp.length + 1) pos + 2))
               | some 47, some 42 =>
                   skipWs inp fuel (skipBlockComment inp (inp.length + 1)
                     (skipWsBytes inp (inp.length + 1) pos + 2))
               | _, _ => skipWsBytes inp (inp.length + 1) pos) =
              skipWsBytes inp (inp.length + 1) pos := by
            split
            · rename_i heq1 heq2; exact absurd ⟨heq1, heq2⟩ hcl
            · rename_i heq1 heq2; exact absurd ⟨heq1, heq2⟩ hcb
            · rfl
          rw [hmatch]
          exact ⟨hstop, hcl, hcb⟩

/-- C8 counterexample: the claim says only U+00A0, U+2028 and U+2029 are
consumed beyond ASCII whitespace, but the scanner accepts every
`E2 80 xx` sequence with `0x80 ≤ xx ≤ 0xAF`: on the three bytes of
U+2001 (EM QUAD) it consumes all three and moves the cursor to 3. -/
theorem C8_counterexample :
    skip_whitespace_and_comments [0xE2, 0x80, 0x81] 0 = 3 ∧
    fromUtf8 [0xE2, 0x80, 0x81] = some ['\u2001'] := by
  exact ⟨rfl, rfl⟩

/-- C8 (amended): `skip_whitespace_and_comments` consumes exactly ASCII
whitespace (space, tab, `\n`, `\r`), U+00A0, the whole code point range
U+2000–U+202F (every byte sequence `E2 80 xx` with `0x80 ≤ xx ≤ 0xAF`,
which includes U+2028 and U+2029), `//`-line comments terminated by
`\n`, `\r` or U+2028/U+2029, and `/* */` block comments, an unterminated
block comment being consumed to end of input without error; it stops at
a position that starts neither a whitespace token nor a comment. -/
theorem C8_whitespace :
    (∀ (inp : List Nat) fuel pos, skipWsBytes inp fuel pos = specSkipBytes inp fuel pos) ∧
    (∀ (inp : List Nat) pos,
      wsTokenAt inp (skip_whitespace_and_comments inp pos) = none ∧
      ¬(byteAt inp (skip_whitespace_and_comments inp pos) = some 47 ∧
        byteAt inp (skip_whitespace_and_comments inp pos + 1) = some 47) ∧
      ¬(byteAt inp (skip_whitespace_and_comments inp pos) = some 47 ∧
        byteAt inp (skip_whitespace_and_comments inp pos + 1) = some 42)) ∧
    (∀ (inp : List Nat) fuel pos, inp.length < fuel + pos →
      pos ≤ skipLineComment inp fuel pos ∧
      (byteAt inp (skipLineComment inp fuel pos) = none ∨
        lineTermAt inp (skipLineComment inp fuel pos)) ∧
      (∀ i, pos ≤ i → i < skipLineComment inp fuel pos → ¬ lineTermAt inp i)) ∧
    (∀ (inp : List Nat) fuel pos, inp.length < fuel + pos →
      pos ≤ skipBlockComment inp fuel pos ∧
      ((∃ r, skipBlockComment inp fuel pos = r + 2 ∧ byteAt inp r = some 42 ∧
          byteAt inp (r + 1) = some 47 ∧
          (∀ i, pos ≤ i → i < r → ¬(byteAt inp i = some 42 ∧ byteAt inp (i + 1) = some 47))) ∨
        (byteAt inp (skipBlockComment inp fuel pos) = none ∧
          (∀ i, pos ≤ i → i < skipBlockComment inp fuel pos →
            ¬(byteAt inp i = some 42 ∧ byteAt inp (i + 1) = some 47))))) := by
  refine ⟨skipWsBytes_eq_spec, ?_, skipLineComment_spec, skipBlockComment_spec⟩
  intro inp pos
  exact skipWs_stop inp (inp.length + 1) pos (by omega)

/-- Witness for `C8_whitespace` at concrete inputs: a NBSP run, a line
comment stopped by a newline, and an unterminated block comment. -/
theorem C8_whitespace_witness :
    (skipWsBytes [0xC2, 0xA0, 53] 4 0 = specSkipBytes [0xC2, 0xA0, 53] 4 0) ∧
    (2 ≤ skipLineComment [47, 47, 97, 10] 5 2) ∧
    (2 ≤ skipBlockComment [47, 42, 97] 4 2) := by
  refine ⟨C8_whitespace.1 [0xC2, 0xA0, 53] 4 0, ?_, ?_⟩
  · exact (C8_whitespace.2.2.1 [47, 47, 97, 10] 5 2 (by decide)).1
  · exact (C8_whitespace.2.2.2 [47, 42, 97] 4 2 (by decide)).1

theorem bareNewline_fastScan_err (inp : List Nat) (quote : Nat) :
    ∀ fuel pos esc, bareNewlineBefore inp quote fuel pos = true →
      ∃ e, fastScan inp quote fuel pos esc = .error e := by
  intro fuel
  induction fuel with
  | zero => intro pos esc h; cases h
  | succ fuel ih =>
      intro pos esc h
      rw [bareNewlineBefore] at h
      rw [fastScan]
      cases hb : byteAt inp pos with
      | none => rw [hb] at h; cases h
      | some b =>
        rw [hb] at h
        simp only [] at h ⊢
        by_cases hq : b = quote
        · rw [if_pos hq] at h; cases h
        · rw [if_neg hq] at h
          rw [if_neg hq]
          by_cases hbs : b = 92
          · rw [if_pos hbs] at h
            rw [if_pos hbs]
            exact ih (pos + 2) true h
          · rw [if_neg hbs] at h
            rw [if_neg hbs]
            by_cases hnl : b = 10 ∨ b = 13
            · by_cases hq39 : quote = 39
              · rw [if_neg (by simp [hq39])]
                rw [if_pos (by rcases hnl with h | h <;> subst h <;> omega)]
                exact ⟨_, rfl⟩
              · rw [if_pos ⟨hnl, hq39⟩]
                exact ⟨_, rfl⟩
            · rw [if_neg hnl] at h
              by_cases hc : b < 0x20
              · rw [if_neg (by tauto), if_pos hc]
                exact ⟨_, rfl⟩
              · rw [if_neg (by tauto), if_neg hc]
                exact ih (pos + 1) esc h

/-- C3: an unescaped raw line terminator between the quotes makes the
string literal a parse error, for either quote kind.  For double quotes
the scanner's dedicated `\n`/`\r` arm fires; for single quotes that arm
is guarded out but the control-byte check (`b < 0x20`) rejects the same
byte.  Only a backslash-escaped line terminator is accepted, as a line
continuation contributing no characters to the parsed string. -/
theorem C3_line_terminators :
    (∀ (inp : List Nat) (quote pos : Nat),
      bareNewlineBefore inp quote (inp.length + 1) pos = true →
      (parse_string_contents inp quote pos).isOk = false) ∧
    parse_string_contents (strBytes "a\\\nb\"") 34 0 = .ok ("ab".toList, 5) ∧
    parse_string_contents (strBytes "a\\\nb'") 39 0 = .ok ("ab".toList, 5) ∧
    parse_string_contents (strBytes "a\nb\"") 34 0 = .error (.UnexpectedChar '\n' 1) ∧
    parse_string_contents (strBytes "a\nb'") 39 0 = .error (.UnexpectedChar '\n' 1) ∧
    parse_string_contents (strBytes "a\x0Db\"") 34 0 = .error (.UnexpectedChar '\n' 1) := by
  refine ⟨?_, by decide, by decide, by decide, by decide, by decide⟩
  intro inp quote pos h
  obtain ⟨e, he⟩ := bareNewline_fastScan_err inp quote (inp.length + 1) pos false h
  simp only [parse_string_contents, he]
  rfl

/-- Witness for `C3_line_terminators` at a concrete double-quoted input
with a raw newline. -/
theorem C3_line_terminators_witness :
    (parse_string_contents (strBytes "x\ny\"") 34 0).isOk = false := by
  exact C3_line_terminators.1 (strBytes "x\ny\"") 34 0 (by decide)

theorem char_toNat_ofNat (m : Nat) (h : m < 55296) : (Char.ofNat m).toNat = m := by
  simp only [Char.ofNat, Char.toNat]
  rw [dif_pos (Or.inl h)]
  simp [Char.ofNatAux, UInt32.toNat, UInt32.ofNatCore]

theorem natDigits_ne_nil (n : Nat) : natDigits n ≠ [] := by
  rw [natDigits]
  split
  · simp
  · simp [natDigits_ne_nil (n / 10)]
decreasing_by exact Nat.div_lt_self (by omega) (by omega)

theorem natDigits_digits (n : Nat) : ∀ c ∈ natDigits n, 48 ≤ c.toNat ∧ c.toNat ≤ 57 := by
  intro c hc
  induction n using Nat.strong_induction_on with
  | _ n ih =>
    rw [natDigits] at hc
    split at hc
    · rename_i h
      simp at hc
      subst hc
      rw [char_toNat_ofNat (48 + n) (by omega)]
      omega
    · rename_i h
      rcases List.mem_append.mp hc with h1 | h2
      · exact ih (n / 10) (Nat.div_lt_self (by omega) (by omega)) h1
      · simp at h2
        subst h2
        have : n % 10 < 10 := Nat.mod_lt _ (by omega)
        rw [char_toNat_ofNat (48 + n % 10) (by omega)]
        omega

theorem natDigits_head (n : Nat) (hn : 1 ≤ n) :
    ∃ c, (natDigits n).head? = some c ∧ 49 ≤ c.toNat ∧ c.toNat ≤ 57 := by
  induction n using Nat.strong_induction_on with
  | _ n ih =>
    rw [natDigits]
    split
    · rename_i h
      refine ⟨Char.ofNat (48 + n), rfl, ?_⟩
      rw [char_toNat_ofNat (48 + n) (by omega)]
      omega
    · rename_i h
      obtain ⟨c, hc, hrange⟩ := ih (n / 10) (Nat.div_lt_self (by omega) (by omega))
        (Nat.one_le_div_iff (by omega) |>.mpr (by omega))
      refine ⟨c, ?_, hrange⟩
      rw [List.head?_append_of_ne_nil]
      · exact hc
      · exact natDigits_ne_nil _

theorem foldl_step_natDigits (n : Nat) :
    ∀ acc, (natDigits n).foldl (fun a c => a * 10 + (c.toNat - 48)) acc =
      acc * 10 ^ (natDigits n).length + n := by
  induction n using Nat.strong_induction_on with
  | _ n ih =>
    intro acc
    rw [natDigits]
    split
    · rename_i h
      simp only [List.foldl_cons, List.foldl_nil, List.length_cons, List.length_nil]
      have hv : (Char.ofNat (48 + n)).toNat = 48 + n :=
        char_toNat_ofNat (48 + n) (by omega)
      rw [hv]
      ring_nf
      omega
    · rename_i h
      rw [List.foldl_append]
      rw [ih (n / 10) (Nat.div_lt_self (by omega) (by omega)) acc]
      simp only [List.foldl_cons, List.foldl_nil, List.length_append, List.length_cons,
        List.length_nil]
      have hv : (Char.ofNat (48 + n % 10)).toNat = 48 + n % 10 :=
        char_toNat_ofNat (48 + n % 10) (by omega)
      rw [hv]
      have hnm : n = 10 * (n / 10) + n % 10 := (Nat.div_add_mod n 10).symm
      ring_nf
      omega

theorem digitsVal_fold (cs : List Char) :
    ∀ acc, (∀ c ∈ cs, 48 ≤ c.toNat ∧ c.toNat ≤ 57) →
      digitsVal cs acc = some (cs.foldl (fun a c => a * 10 + (c.toNat - 48)) acc) := by
  induction cs with
  | nil => intro acc h; rfl
  | cons c rest ih =>
      intro acc h
      rw [digitsVal, if_pos (h c (by simp))]
      rw [List.foldl_cons]
      exact ih _ (fun c hc => h c (by simp [hc]))

theorem digitsVal_natDigits (n : Nat) : digitsVal (natDigits n) 0 = some n := by
  rw [digitsVal_fold _ _ (natDigits_digits n), foldl_step_natDigits n 0]
  simp

theorem digitsToNat_eq_fold (ds : List Char) :
    digitsToNat (ds.map (fun c => c.toNat - 48)) =
      ds.foldl (fun a c => a * 10 + (c.toNat - 48)) 0 := by
  rw [digitsToNat, List.foldl_map]

theorem digitsToNat_natDigits (n : Nat) :
    digitsToNat ((natDigits n).map (fun c => c.toNat - 48)) = n := by
  rw [digitsToNat_eq_fold, foldl_step_natDigits n 0]
  simp

theorem takeDigits_split (ds rest : List Char)
    (hds : ∀ c ∈ ds, 48 ≤ c.toNat ∧ c.toNat ≤ 57)
    (hrest : rest = [] ∨ ∃ c cs, rest = c :: cs ∧ ¬(48 ≤ c.toNat ∧ c.toNat ≤ 57)) :
    takeDigits (ds ++ rest) = (ds.map (fun c => c.toNat - 48), rest) := by
  induction ds with
  | nil =>
      simp only [List.nil_append, List.map_nil]
      rcases hrest with h | ⟨c, cs, hr, hc⟩
      · subst h; rfl
      · subst hr
        rw [takeDigits, if_neg hc]
  | cons c cs ih =>
      simp only [List.cons_append, List.map_cons]
      rw [takeDigits, if_pos (hds c (by simp))]
      rw [ih (fun c hc => hds c (by simp [hc]))]

/-! ## Byte-level helper lemmas for the parser proofs -/

theorem byteAt_none_iff (inp : List Nat) (i : Nat) :
    byteAt inp i = none ↔ inp.length ≤ i := by
  rw [byteAt, List.get?_eq_none]

theorem drop_of_get (l : List Nat) :
    ∀ a b, l.get? a = some b → l.drop a = b :: l.drop (a + 1) := by
  induction l with
  | nil => intro a b h; simp at h
  | cons x xs ih =>
      intro a b h
      cases a with
      | zero => simp at h; simp [h]
      | succ a =>
          simp only [List.get?_cons_succ] at h
          simpa [List.drop_succ_cons] using ih a b h

theorem listSlice_cons (inp : List Nat) (a c b : Nat)
    (hb : byteAt inp a = some b) (hac : a < c) :
    listSlice inp a c = b :: listSlice inp (a + 1) c := by
  rw [listSlice, listSlice, drop_of_get inp a b hb]
  have : c - a = (c - (a + 1)) + 1 := by omega
  rw [this, List.take_succ_cons]

theorem sliceEq_false_head (inp : List Nat) (a c b p0 : Nat) (pat : List Nat)
    (hb : byteAt inp a = some b) (hne : b ≠ p0) (hac : a < c) :
    sliceEq inp a c (p0 :: pat) = false := by
  rw [sliceEq, listSlice_cons inp a c b hb hac]
  simp [hne]

theorem wsTokenAt_none_of (inp : List Nat) (pos b : Nat)
    (hb : byteAt inp pos = some b)
    (h : b ≠ 32 ∧ b ≠ 9 ∧ b ≠ 10 ∧ b ≠ 13 ∧ b ≠ 194 ∧ b ≠ 226) :
    wsTokenAt inp pos = none := by
  simp only [wsTokenAt, hb]
  split
  all_goals try rfl
  all_goals (rename_i heq; exact absurd (Option.some.inj heq) (by omega))

theorem wsTokenAt_none_eof (inp : List Nat) (pos : Nat)
    (hb : byteAt inp pos = none) : wsTokenAt inp pos = none := by
  simp [wsTokenAt, hb]

theorem skipWsBytes_noop (inp : List Nat) (pos : Nat)
    (h : wsTokenAt inp pos = none) :
    ∀ fuel, skipWsBytes inp fuel pos = pos := by
  intro fuel
  cases fuel with
  | zero => rfl
  | succ fuel => rw [skipWsBytes_eq_spec, specSkipBytes, h]

theorem skipWs_noop (inp : List Nat) (pos : Nat)
    (h : wsTokenAt inp pos = none) (h47 : byteAt inp pos ≠ some 47) :
    ∀ fuel, skipWs inp fuel pos = pos := by
  intro fuel
  cases fuel with
  | zero => rfl
  | succ fuel =>
      rw [skipWs]
      simp only [skipWsBytes_noop inp pos h]
      split
      · rename_i heq _; exact absurd heq h47
      · rename_i heq _; exact absurd heq h47
      · rfl

theorem skip_noop (inp : List Nat) (pos : Nat)
    (h : wsTokenAt inp pos = none) (h47 : byteAt inp pos ≠ some 47) :
    skip_whitespace_and_comments inp pos = pos :=
  skipWs_noop inp pos h h47 _

theorem skipDigitsU_upto (inp : List Nat) (e : Nat) :
    ∀ fuel pos, pos ≤ e → e ≤ fuel + pos →
      (∀ i, pos ≤ i → i < e → ∃ b, byteAt inp i = some b ∧ ((48 ≤ b ∧ b ≤ 57) ∨ b = 95)) →
      (byteAt inp e = none ∨ ∃ b, byteAt inp e = some b ∧ ¬((48 ≤ b ∧ b ≤ 57) ∨ b = 95)) →
      skipDigitsU inp fuel pos = e := by
  intro fuel
  induction fuel with
  | zero =>
      intro pos h1 h2 _ _
      have he : pos = e := by omega
      subst he
      rfl
  | succ fuel ih =>
      intro pos h1 h2 hall hstop
      rw [skipDigitsU]
      by_cases hpe : pos = e
      · subst hpe
        rcases hstop with hs | ⟨b, hb, hnb⟩
        · rw [hs]
        · rw [hb]
          simp only []
          rw [if_neg hnb]
      · obtain ⟨b, hb, hdig⟩ := hall pos (le_refl _) (by omega)
        rw [hb]
        simp only []
        rw [if_pos hdig]
        exact ih (pos + 1) (by omega) (by omega) (fun i hi1 hi2 => hall i (by omega) hi2) hstop

theorem skipHexDigits_upto (inp : List Nat) (e : Nat) :
    ∀ fuel pos, pos ≤ e → e ≤ fuel + pos →
      (∀ i, pos ≤ i → i < e → ∃ b, byteAt inp i = some b ∧
        ((48 ≤ b ∧ b ≤ 57) ∨ (97 ≤ b ∧ b ≤ 102) ∨ (65 ≤ b ∧ b ≤ 70) ∨ b = 95)) →
      (byteAt inp e = none ∨ ∃ b, byteAt inp e = some b ∧
        ¬((48 ≤ b ∧ b ≤ 57) ∨ (97 ≤ b ∧ b ≤ 102) ∨ (65 ≤ b ∧ b ≤ 70) ∨ b = 95)) →
      skipHexDigits inp fuel pos = e := by
  intro fuel
  induction fuel with
  | zero =>
      intro pos h1 h2 _ _
      have he : pos = e := by omega
      subst he
      rfl
  | succ fuel ih =>
      intro pos h1 h2 hall hstop
      rw [skipHexDigits]
      by_cases hpe : pos = e
      · subst hpe
        rcases hstop with hs | ⟨b, hb, hnb⟩
        · rw [hs]
        · rw [hb]
          simp only []
          rw [if_neg hnb]
      · obtain ⟨b, hb, hdig⟩ := hall pos (le_refl _) (by omega)
        rw [hb]
        simp only []
        rw [if_pos hdig]
        exact ih (pos + 1) (by omega) (by omega) (fun i hi1 hi2 => hall i (by omega) hi2) hstop

theorem byteAt_mid (pre mid rest : List Nat) (i : Nat) (hi : i < mid.length) :
    byteAt (pre ++ mid ++ rest) (pre.length + i) = mid.get? i := by
  rw [byteAt, List.append_assoc, List.get?_append_right (by omega)]
  have : pre.length + i - pre.length = i := by omega
  rw [this, List.get?_append hi]

theorem byteAt_after (pre rest : List Nat) (i : Nat) :
    byteAt (pre ++ rest) (pre.length + i) = byteAt rest i := by
  rw [byteAt, byteAt, List.get?_append_right (by omega)]
  congr 1
  omega

theorem listSlice_mid (pre mid rest : List Nat) :
    listSlice (pre ++ mid ++ rest) pre.length (pre.length + mid.length) = mid := by
  rw [listSlice, List.append_assoc, List.drop_left]
  have : pre.length + mid.length - pre.length = mid.length := by omega
  rw [this, List.take_left]

/-! ## `natBytes` facts -/

theorem natBytes_ne_nil (n : Nat) : natBytes n ≠ [] := by
  rw [natBytes]
  simp [natDigits_ne_nil n]

theorem natBytes_length (n : Nat) : (natBytes n).length = (natDigits n).length :=
  List.length_map _ _

theorem natBytes_digits (n : Nat) : ∀ b ∈ natBytes n, 48 ≤ b ∧ b ≤ 57 := by
  intro b hb
  rw [natBytes] at hb
  obtain ⟨c, hc, hcb⟩ := List.mem_map.mp hb
  subst hcb
  exact natDigits_digits n c hc

theorem natBytes_get (n i : Nat) (hi : i < (natBytes n).length) :
    ∃ b, (natBytes n).get? i = some b ∧ 48 ≤ b ∧ b ≤ 57 := by
  cases hg : (natBytes n).get? i with
  | none => rw [List.get?_eq_none] at hg; omega
  | some b => exact ⟨b, rfl, natBytes_digits n b (List.get?_mem hg)⟩

theorem natBytes_head (n : Nat) :
    ∃ b, (natBytes n).get? 0 = some b ∧ 48 ≤ b ∧ b ≤ 57 ∧
      (1 ≤ n → 49 ≤ b) ∧ (n = 0 → b = 48) := by
  obtain ⟨c, cs, hcons⟩ := List.exists_cons_of_ne_nil (natDigits_ne_nil n)
  have hc := natDigits_digits n c (by rw [hcons]; simp)
  refine ⟨c.toNat, ?_, hc.1, hc.2, ?_, ?_⟩
  · rw [natBytes, hcons]; rfl
  · intro hn
    obtain ⟨c2, hc2, hr⟩ := natDigits_head n hn
    rw [hcons] at hc2
    simp at hc2
    subst hc2
    omega
  · intro hn
    subst hn
    have h0 : natDigits 0 = [Char.ofNat 48] := by rw [natDigits]; simp
    rw [h0] at hcons
    have hce : c = Char.ofNat 48 := by
      injection hcons with h1 _
      exact h1.symm
    subst hce
    exact char_toNat_ofNat 48 (by omega)

theorem natBytes_to_chars (n : Nat) :
    ((natBytes n).filter (fun b => b ≠ 95)).map Char.ofNat = natDigits n := by
  have hfil : (natBytes n).filter (fun b => b ≠ 95) = natBytes n := by
    rw [List.filter_eq_self]
    intro b hb
    have := natBytes_digits n b hb
    simp
    omega
  rw [hfil, natBytes, List.map_map]
  have hid : (Char.ofNat ∘ Char.toNat) = id := by
    funext c
    exact Char.ofNat_toNat c
  rw [hid, List.map_id]

/-! ## Rust numeric `str::parse` on canonical digit strings -/

theorem parse_u64_natDigits (n : Nat) :
    parse_u64 (natDigits n) = if n < 2 ^ 64 then some n else none := by
  obtain ⟨c, cs, hcons⟩ := List.exists_cons_of_ne_nil (natDigits_ne_nil n)
  have hc := natDigits_digits n c (by rw [hcons]; simp)
  simp only [parse_u64]
  have hs2 : (match natDigits n with | '+' :: rest => rest | _ => natDigits n) = natDigits n := by
    rw [hcons]
    split
    · rename_i heq
      injection heq with h1 _
      rw [h1] at hc
      exact absurd hc (by decide)
    · rfl
  rw [hs2, hcons]
  simp only []
  rw [← hcons, digitsVal_natDigits n]

theorem parse_i64_neg_natDigits (n : Nat) :
    parse_i64 ('-' :: natDigits n) = if n ≤ 2 ^ 63 then some (-(n : Int)) else none := by
  obtain ⟨c, cs, hcons⟩ := List.exists_cons_of_ne_nil (natDigits_ne_nil n)
  rw [parse_i64, hcons]
  rw [← hcons, digitsVal_natDigits n]
  intro h
  rw [hcons] at h
  exact absurd h (List.cons_ne_nil c cs)

set_option maxHeartbeats 1000000 in
theorem parse_f64_natDigits (n : Nat) :
    parse_f64 (natDigits n) = some (.finite (n : ℚ)) := by
  obtain ⟨c, cs, hcons⟩ := List.exists_cons_of_ne_nil (natDigits_ne_nil n)
  have hc := natDigits_digits n c (by rw [hcons]; simp)
  simp only [parse_f64]
  have hsgn : (match natDigits n with
      | '-' :: rest => (true, rest)
      | '+' :: rest => (false, rest)
      | _ => (false, natDigits n)) = (false, natDigits n) := by
    rw [hcons]
    split
    · rename_i heq
      injection heq with h1 _
      rw [h1] at hc
      exact absurd hc (by decide)
    · rename_i heq
      injection heq with h1 _
      rw [h1] at hc
      exact absurd hc (by decide)
    · rfl
  rw [hsgn]
  have htd : takeDigits (natDigits n) = ((natDigits n).map (fun c => c.toNat - 48), []) := by
    have := takeDigits_split (natDigits n) [] (natDigits_digits n) (Or.inl rfl)
    simpa using this
  simp only []
  rw [htd]
  simp only []
  have hne : ¬(((natDigits n).map (fun c => c.toNat - 48)).isEmpty = true ∧
      (List.isEmpty ([] : List Nat)) = true) := by
    intro ⟨h1, _⟩
    rw [hcons] at h1
    simp at h1
  rw [if_neg hne]
  rw [digitsToNat_natDigits]
  simp [digitsToNat]

theorem takeDigits_natDigits (n : Nat) :
    takeDigits (natDigits n) = ((natDigits n).map (fun c => c.toNat - 48), []) := by
  have := takeDigits_split (natDigits n) [] (natDigits_digits n) (Or.inl rfl)
  simpa using this

set_option maxHeartbeats 1000000 in
theorem parse_f64_frac (n m : Nat) :
    parse_f64 (natDigits n ++ '.' :: natDigits m) =
      some (.finite ((n : ℚ) + (m : ℚ) / (10 ^ (natDigits m).length : ℚ))) := by
  obtain ⟨c, cs, hcons⟩ := List.exists_cons_of_ne_nil (natDigits_ne_nil n)
  have hc := natDigits_digits n c (by rw [hcons]; simp)
  simp only [parse_f64]
  have hsgn : (match natDigits n ++ '.' :: natDigits m with
      | '-' :: rest => (true, rest)
      | '+' :: rest => (false, rest)
      | _ => (false, natDigits n ++ '.' :: natDigits m)) =
      (false, natDigits n ++ '.' :: natDigits m) := by
    rw [hcons]
    split
    · rename_i heq
      injection heq with h1 _
      rw [h1] at hc
      exact absurd hc (by decide)
    · rename_i heq
      injection heq with h1 _
      rw [h1] at hc
      exact absurd hc (by decide)
    · rfl
  rw [hsgn]
  have htd : takeDigits (natDigits n ++ '.' :: natDigits m) =
      ((natDigits n).map (fun c => c.toNat - 48), '.' :: natDigits m) :=
    takeDigits_split (natDigits n) ('.' :: natDigits m) (natDigits_digits n)
      (Or.inr ⟨'.', natDigits m, rfl, by decide⟩)
  simp only []
  rw [htd]
  simp only []
  rw [takeDigits_natDigits m]
  have hne : ¬(((natDigits n).map (fun c => c.toNat - 48)).isEmpty = true ∧
      ((natDigits m).map (fun c => c.toNat - 48)).isEmpty = true) := by
    intro ⟨h1, _⟩
    rw [hcons] at h1
    simp at h1
  rw [if_neg hne]
  rw [digitsToNat_natDigits, digitsToNat_natDigits]
  simp

set_option maxHeartbeats 1000000 in
theorem parse_f64_frac_neg (n m : Nat) :
    parse_f64 ('-' :: (natDigits n ++ '.' :: natDigits m)) =
      some (.finite (-((n : ℚ) + (m : ℚ) / (10 ^ (natDigits m).length : ℚ)))) := by
  obtain ⟨c, cs, hcons⟩ := List.exists_cons_of_ne_nil (natDigits_ne_nil n)
  simp only [parse_f64]
  have htd : takeDigits (natDigits n ++ '.' :: natDigits m) =
      ((natDigits n).map (fun c => c.toNat - 48), '.' :: natDigits m) :=
    takeDigits_split (natDigits n) ('.' :: natDigits m) (natDigits_digits n)
      (Or.inr ⟨'.', natDigits m, rfl, by decide⟩)
  rw [htd]
  simp only []
  rw [takeDigits_natDigits m]
  have hne : ¬(((natDigits n).map (fun c => c.toNat - 48)).isEmpty = true ∧
      ((natDigits m).map (fun c => c.toNat - 48)).isEmpty = true) := by
    intro ⟨h1, _⟩
    rw [hcons] at h1
    simp at h1
  rw [if_neg hne]
  rw [digitsToNat_natDigits, digitsToNat_natDigits]
  simp

set_option maxHeartbeats 1000000 in
theorem parse_f64_dotlead (m : Nat) :
    parse_f64 ('.' :: natDigits m) =
      some (.finite ((m : ℚ) / (10 ^ (natDigits m).length : ℚ))) := by
  obtain ⟨c, cs, hcons⟩ := List.exists_cons_of_ne_nil (natDigits_ne_nil m)
  simp only [parse_f64]
  have hsgn : (match '.' :: natDigits m with
      | '-' :: rest => (true, rest)
      | '+' :: rest => (false, rest)
      | _ => (false, '.' :: natDigits m)) = (false, '.' :: natDigits m) := rfl
  rw [hsgn]
  have htd : takeDigits ('.' :: natDigits m) = ([], '.' :: natDigits m) := by
    rw [takeDigits]
    rw [if_neg (by decide)]
  simp only []
  rw [htd]
  simp only []
  rw [takeDigits_natDigits m]
  have hne : ¬((List.isEmpty ([] : List Nat)) = true ∧
      ((natDigits m).map (fun c => c.toNat - 48)).isEmpty = true) := by
    intro ⟨_, h2⟩
    rw [hcons] at h2
    simp at h2
  rw [if_neg hne]
  rw [digitsToNat_natDigits]
  simp [digitsToNat]

set_option maxHeartbeats 1000000 in
theorem parse_f64_dottrail (n : Nat) :
    parse_f64 (natDigits n ++ ['.']) = some (.finite (n : ℚ)) := by
  obtain ⟨c, cs, hcons⟩ := List.exists_cons_of_ne_nil (natDigits_ne_nil n)
  have hc := natDigits_digits n c (by rw [hcons]; simp)
  simp only [parse_f64]
  have hsgn : (match natDigits n ++ ['.'] with
      | '-' :: rest => (true, rest)
      | '+' :: rest => (false, rest)
      | _ => (false, natDigits n ++ ['.'])) = (false, natDigits n ++ ['.']) := by
    rw [hcons]
    split
    · rename_i heq
      injection heq with h1 _
      rw [h1] at hc
      exact absurd hc (by decide)
    · rename_i heq
      injection heq with h1 _
      rw [h1] at hc
      exact absurd hc (by decide)
    · rfl
  rw [hsgn]
  have htd : takeDigits (natDigits n ++ ['.']) =
      ((natDigits n).map (fun c => c.toNat - 48), ['.']) :=
    takeDigits_split (natDigits n) ['.'] (natDigits_digits n)
      (Or.inr ⟨'.', [], rfl, by decide⟩)
  simp only []
  rw [htd]
  simp only []
  have hne : ¬(((natDigits n).map (fun c => c.toNat - 48)).isEmpty = true ∧
      (List.isEmpty (takeDigits ([] : List Char)).1) = true) := by
    intro ⟨h1, _⟩
    rw [hcons] at h1
    simp at h1
  rw [if_neg hne]
  rw [digitsToNat_natDigits]
  simp [takeDigits, digitsToNat]

set_option maxHeartbeats 1000000 in
theorem parse_f64_exp (n m : Nat) :
    parse_f64 (natDigits n ++ 'e' :: natDigits m) =
      some (.finite ((n : ℚ) * (10 ^ m : ℚ))) := by
  obtain ⟨c, cs, hcons⟩ := List.exists_cons_of_ne_nil (natDigits_ne_nil n)
  have hc := natDigits_digits n c (by rw [hcons]; simp)
  obtain ⟨d, ds, hm⟩ := List.exists_cons_of_ne_nil (natDigits_ne_nil m)
  have hd := natDigits_digits m d (by rw [hm]; simp)
  simp only [parse_f64]
  have hsgn : (match natDigits n ++ 'e' :: natDigits m with
      | '-' :: rest => (true, rest)
      | '+' :: rest => (false, rest)
      | _ => (false, natDigits n ++ 'e' :: natDigits m)) =
      (false, natDigits n ++ 'e' :: natDigits m) := by
    rw [hcons]
    split
    · rename_i heq
      injection heq with h1 _
      rw [h1] at hc
      exact absurd hc (by decide)
    · rename_i heq
      injection heq with h1 _
      rw [h1] at hc
      exact absurd hc (by decide)
    · rfl
  rw [hsgn]
  have htd : takeDigits (natDigits n ++ 'e' :: natDigits m) =
      ((natDigits n).map (fun c => c.toNat - 48), 'e' :: natDigits m) :=
    takeDigits_split (natDigits n) ('e' :: natDigits m) (natDigits_digits n)
      (Or.inr ⟨'e', natDigits m, rfl, by decide⟩)
  simp only []
  rw [htd]
  simp only []
  have hfr : (match 'e' :: natDigits m with
      | '.' :: rest => takeDigits rest
      | _ => ([], 'e' :: natDigits m)) = (([] : List Nat), 'e' :: natDigits m) := rfl
  rw [hfr]
  have hne : ¬(((natDigits n).map (fun c => c.toNat - 48)).isEmpty = true ∧
      (List.isEmpty ([] : List Nat)) = true) := by
    intro ⟨h1, _⟩
    rw [hcons] at h1
    simp at h1
  rw [if_neg hne]
  simp only []
  rw [if_pos (Or.inl trivial)]
  have hesgn : (match natDigits m with
      | '-' :: r => (true, r)
      | '+' :: r => (false, r)
      | _ => (false, natDigits m)) = (false, natDigits m) := by
    rw [hm]
    split
    · rename_i heq
      injection heq with h1 _
      rw [h1] at hd
      exact absurd hd (by decide)
    · rename_i heq
      injection heq with h1 _
      rw [h1] at hd
      exact absurd hd (by decide)
    · rfl
  rw [hesgn]
  simp only []
  rw [takeDigits_natDigits m]
  have hne2 : ¬(((natDigits m).map (fun c => c.toNat - 48)).isEmpty = true ∨
      ¬(List.isEmpty ([] : List Char)) = true) := by
    intro h
    rcases h with h1 | h2
    · rw [hm] at h1
      simp at h1
    · exact h2 rfl
  rw [if_neg hne2]
  rw [digitsToNat_natDigits, digitsToNat_natDigits]
  simp [digitsToNat]

/-! ## Symbolic evaluation of `parse_number` on canonical literals -/

theorem byteAt_of_slice (inp l : List Nat) (a : Nat)
    (hs : listSlice inp a (a + l.length) = l) (i : Nat) (hi : i < l.length) :
    byteAt inp (a + i) = l.get? i := by
  conv_rhs => rw [← hs]
  rw [listSlice]
  have h1 : a + l.length - a = l.length := by omega
  rw [h1, List.get?_take hi, List.get?_drop]
  rfl

theorem length_le_of_slice (inp l : List Nat) (a : Nat)
    (hs : listSlice inp a (a + l.length) = l) (hl : 1 ≤ l.length) :
    a + l.length ≤ inp.length := by
  have := congrArg List.length hs
  rw [listSlice, List.length_take, List.length_drop] at this
  omega

theorem map_ofNat_natBytes (n : Nat) : List.map Char.ofNat (natBytes n) = natDigits n := by
  rw [natBytes, List.map_map]
  have hid : (Char.ofNat ∘ Char.toNat) = id := by
    funext c
    exact Char.ofNat_toNat c
  rw [hid, List.map_id]

set_option maxHeartbeats 2000000 in
theorem parse_number_nonneg (inp : List Nat) (pos n : Nat)
    (hseg : listSlice inp pos (pos + (natBytes n).length) = natBytes n)
    (hstop : byteAt inp (pos + (natBytes n).length) = none ∨
      ∃ r, byteAt inp (pos + (natBytes n).length) = some r ∧
        ¬(48 ≤ r ∧ r ≤ 57) ∧ r ≠ 95 ∧ r ≠ 46 ∧ r ≠ 101 ∧ r ≠ 69 ∧ r ≠ 120 ∧ r ≠ 88) :
    parse_number inp pos = .ok (.Number
      (if n ≤ 2 ^ 63 - 1 then .Int (n : Int)
       else if n < 2 ^ 64 then .Uint n
       else .Float (.finite (n : ℚ))), pos + (natBytes n).length) := by
  obtain ⟨b0, hb0g, hb048, hb057, hb0one, hb0zero⟩ := natBytes_head n
  have hlen1 : 1 ≤ (natBytes n).length := by
    cases hnb : natBytes n with
    | nil => exact absurd hnb (natBytes_ne_nil n)
    | cons x xs => simp [hnb]
  have hb0 : byteAt inp pos = some b0 := by
    have h := byteAt_of_slice inp (natBytes n) pos hseg 0 (by omega)
    rw [Nat.add_zero] at h
    exact h.trans hb0g
  have hlen : pos + (natBytes n).length ≤ inp.length :=
    length_le_of_slice inp (natBytes n) pos hseg hlen1
  have hdig : ∀ i, pos ≤ i → i < pos + (natBytes n).length →
      ∃ b, byteAt inp i = some b ∧ ((48 ≤ b ∧ b ≤ 57) ∨ b = 95) := by
    intro i h1 h2
    obtain ⟨b, hbg, hbr⟩ := natBytes_get n (i - pos) (by omega)
    have h := byteAt_of_slice inp (natBytes n) pos hseg (i - pos) (by omega)
    have heq : pos + (i - pos) = i := by omega
    rw [heq] at h
    exact ⟨b, h.trans hbg, Or.inl hbr⟩
  have hstopne : ∀ v : Nat, v = 46 ∨ v = 101 ∨ v = 69 ∨ v = 120 ∨ v = 88 →
      ¬(byteAt inp (pos + (natBytes n).length) = some v) := by
    intro v hv h
    rcases hstop with hs | ⟨r, hr, h1, h2, h3, h4, h5, h6, h7⟩
    · rw [hs] at h; cases h
    · rw [hr] at h
      have := Option.some.inj h
      omega
  have hne46 := hstopne 46 (by omega)
  have hne101 := hstopne 101 (by omega)
  have hne69 := hstopne 69 (by omega)
  have hne120 := hstopne 120 (by omega)
  have hne88 := hstopne 88 (by omega)
  have hstop' : byteAt inp (pos + (natBytes n).length) = none ∨
      ∃ b, byteAt inp (pos + (natBytes n).length) = some b ∧
        ¬((48 ≤ b ∧ b ≤ 57) ∨ b = 95) := by
    rcases hstop with hs | ⟨r, hr, h1, h2, h3, h4, h5, h6, h7⟩
    · exact Or.inl hs
    · refine Or.inr ⟨r, hr, ?_⟩
      intro h
      rcases h with h | h
      · exact h1 h
      · exact h2 h
  have hfil : List.filter (fun b => !decide (b = 95)) (natBytes n) = natBytes n := by
    rw [List.filter_eq_self]
    intro b hb
    have := natBytes_digits n b hb
    simp
    omega
  have hmap := map_ofNat_natBytes n
  have hu64 := parse_u64_natDigits n
  have hf64 := parse_f64_natDigits n
  by_cases hn0 : n = 0
  · subst hn0
    have hnb : natBytes 0 = [48] := by
      rw [natBytes, natDigits]
      simp
    have hb0' : byteAt inp pos = some 48 := by rw [hb0, hb0zero rfl]
    rw [hnb] at hseg hne46 hne101 hne69 hne120 hne88 ⊢
    norm_num at hseg hne46 hne101 hne69 hne120 hne88 ⊢
    have hpu : parse_u64 [Char.ofNat 48] = some 0 := by
      rw [show [Char.ofNat 48] = natDigits 0 from by rw [natDigits]; norm_num, hu64]
      norm_num
    norm_num [parse_number, hb0', hne46, hne101, hne69, hne120, hne88, hseg, hpu]
  · have h49 : 49 ≤ b0 := hb0one (by omega)
    have hb45 : b0 ≠ 45 := by omega
    have hb43 : b0 ≠ 43 := by omega
    have hb48 : b0 ≠ 48 := by omega
    have hskip : skipDigitsU inp (inp.length + 1) pos = pos + (natBytes n).length :=
      skipDigitsU_upto inp (pos + (natBytes n).length) (inp.length + 1) pos (by omega)
        (by omega) hdig hstop'
    by_cases h64 : n < 2 ^ 64
    · have hpu : parse_u64 (natDigits n) = some n := by rw [hu64, if_pos h64]
      by_cases h63 : n ≤ 2 ^ 63 - 1
      · norm_num [parse_number, hb0, hb45, hb43, hb48, hskip, hne46, hne101, hne69,
          hne120, hne88, hseg, hfil, hmap, hpu,
          show n ≤ 9223372036854775807 by omega]
      · norm_num [parse_number, hb0, hb45, hb43, hb48, hskip, hne46, hne101, hne69,
          hne120, hne88, hseg, hfil, hmap, hpu,
          show ¬(n ≤ 9223372036854775807) by omega, show n < 18446744073709551616 by omega]
    · have hpu : parse_u64 (natDigits n) = none := by rw [hu64, if_neg h64]
      norm_num [parse_number, hb0, hb45, hb43, hb48, hskip, hne46, hne101, hne69,
        hne120, hne88, hseg, hfil, hmap, hpu, hf64,
        show ¬(n ≤ 9223372036854775807) by omega, show ¬(n < 18446744073709551616) by omega]

set_option maxHeartbeats 2000000 in
theorem parse_number_neg (inp : List Nat) (pos n : Nat)
    (hseg : listSlice inp pos (pos + (45 :: natBytes n).length) = 45 :: natBytes n)
    (hstop : byteAt inp (pos + (45 :: natBytes n).length) = none ∨
      ∃ r, byteAt inp (pos + (45 :: natBytes n).length) = some r ∧
        ¬(48 ≤ r ∧ r ≤ 57) ∧ r ≠ 95 ∧ r ≠ 46 ∧ r ≠ 101 ∧ r ≠ 69 ∧ r ≠ 120 ∧ r ≠ 88) :
    parse_number inp pos =
      (if n ≤ 2 ^ 63 then .ok (.Number (.Int (-(n : Int))), pos + (45 :: natBytes n).length)
       else .error (.InvalidNumber ('-' :: natDigits n))) := by
  obtain ⟨b0, hb0g, hb048, hb057, hb0one, hb0zero⟩ := natBytes_head n
  have hlen1 : 1 ≤ (natBytes n).length := by
    cases hnb : natBytes n with
    | nil => exact absurd hnb (natBytes_ne_nil n)
    | cons x xs => simp [hnb]
  have hsl : (45 :: natBytes n).length = 1 + (natBytes n).length := by
    simp
    omega
  have hb45 : byteAt inp pos = some 45 := by
    have h := byteAt_of_slice inp (45 :: natBytes n) pos hseg 0 (by simp)
    rw [Nat.add_zero] at h
    exact h
  have hb1 : byteAt inp (pos + 1) = some b0 := by
    have h := byteAt_of_slice inp (45 :: natBytes n) pos hseg 1 (by simp; omega)
    simpa using h.trans hb0g
  have hlen : pos + 1 + (natBytes n).length ≤ inp.length := by
    have := length_le_of_slice inp (45 :: natBytes n) pos hseg (by simp)
    omega
  have hdig : ∀ i, pos + 1 ≤ i → i < pos + 1 + (natBytes n).length →
      ∃ b, byteAt inp i = some b ∧ ((48 ≤ b ∧ b ≤ 57) ∨ b = 95) := by
    intro i h1 h2
    obtain ⟨b, hbg, hbr⟩ := natBytes_get n (i - (pos + 1)) (by omega)
    have h := byteAt_of_slice inp (45 :: natBytes n) pos hseg (i - pos) (by simp; omega)
    have heq : pos + (i - pos) = i := by omega
    rw [heq] at h
    have hg2 : (45 :: natBytes n).get? (i - pos) = (natBytes n).get? (i - (pos + 1)) := by
      have : i - pos = (i - (pos + 1)) + 1 := by omega
      rw [this]
      simp
    rw [hg2] at h
    exact ⟨b, h.trans hbg, Or.inl hbr⟩
  have hend : pos + (45 :: natBytes n).length = pos + 1 + (natBytes n).length := by
    simp
    omega
  rw [hend] at hstop ⊢
  have hstopne : ∀ v : Nat, v = 46 ∨ v = 101 ∨ v = 69 ∨ v = 120 ∨ v = 88 →
      ¬(byteAt inp (pos + 1 + (natBytes n).length) = some v) := by
    intro v hv h
    rcases hstop with hs | ⟨r, hr, h1, h2, h3, h4, h5, h6, h7⟩
    · rw [hs] at h; cases h
    · rw [hr] at h
      have := Option.some.inj h
      omega
  have hne46 := hstopne 46 (by omega)
  have hne101 := hstopne 101 (by omega)
  have hne69 := hstopne 69 (by omega)
  have hne120 := hstopne 120 (by omega)
  have hne88 := hstopne 88 (by omega)
  have hstop' : byteAt inp (pos + 1 + (natBytes n).length) = none ∨
      ∃ b, byteAt inp (pos + 1 + (natBytes n).length) = some b ∧
        ¬((48 ≤ b ∧ b ≤ 57) ∨ b = 95) := by
    rcases hstop with hs | ⟨r, hr, h1, h2, h3, h4, h5, h6, h7⟩
    · exact Or.inl hs
    · refine Or.inr ⟨r, hr, ?_⟩
      intro h
      rcases h with h | h
      · exact h1 h
      · exact h2 h
  have hfil : List.filter (fun b => !decide (b = 95)) (natBytes n) = natBytes n := by
    rw [List.filter_eq_self]
    intro b hb
    have := natBytes_digits n b hb
    simp
    omega
  have hmap := map_ofNat_natBytes n
  have hslice : listSlice inp pos (pos + 1 + (natBytes n).length) = 45 :: natBytes n := by
    rw [← hend]
    exact hseg
  have hi64 := parse_i64_neg_natDigits n
  have hpi : parse_i64 (Char.ofNat 45 :: natDigits n) =
      (if n ≤ 2 ^ 63 then some (-(n : Int)) else none) := by
    rw [show (Char.ofNat 45) = '-' from rfl, hi64]
  by_cases hn0 : n = 0
  · subst hn0
    have hnb : natBytes 0 = [48] := by
      rw [natBytes, natDigits]
      simp
    have hb1' : byteAt inp (pos + 1) = some 48 := by rw [hb1, hb0zero rfl]
    rw [hnb] at hslice hne46 hne101 hne69 hne120 hne88 ⊢
    norm_num at hslice hne46 hne101 hne69 hne120 hne88 ⊢
    have hnd0 : natDigits 0 = [Char.ofNat 48] := by rw [natDigits]; norm_num
    rw [hnd0] at hpi
    have hadd : pos + 1 + 1 = pos + 2 := by omega
    rw [hadd] at hne46 hne101 hne69 hne120 hne88
    norm_num [parse_number, hb45, hb1', hne46, hne101, hne69, hne120, hne88, hslice, hpi]
  · have h49 : 49 ≤ b0 := hb0one (by omega)
    have hskip : skipDigitsU inp (inp.length + 1) (pos + 1) = pos + 1 + (natBytes n).length :=
      skipDigitsU_upto inp (pos + 1 + (natBytes n).length) (inp.length + 1) (pos + 1)
        (by omega) (by omega) hdig hstop'
    by_cases h63 : n ≤ 2 ^ 63
    · norm_num [parse_number, hb45, hb1, hskip, hne46, hne101, hne69, hne120, hne88,
        hslice, hfil, hmap, hpi, h63,
        show b0 ≠ 48 by omega, show b0 ≠ 43 by omega, show b0 ≠ 45 by omega,
        show n ≤ 9223372036854775808 by omega]
    · norm_num [parse_number, hb45, hb1, hskip, hne46, hne101, hne69, hne120, hne88,
        hslice, hfil, hmap, hpi,
        show b0 ≠ 48 by omega, show b0 ≠ 43 by omega, show b0 ≠ 45 by omega,
        show ¬(n ≤ 9223372036854775808) by omega]

set_option maxHeartbeats 2000000 in
theorem parse_number_frac (inp : List Nat) (pos n m : Nat)
    (hseg : listSlice inp pos (pos + (natBytes n ++ 46 :: natBytes m).length) =
      natBytes n ++ 46 :: natBytes m)
    (hstop : byteAt inp (pos + (natBytes n ++ 46 :: natBytes m).length) = none ∨
      ∃ r, byteAt inp (pos + (natBytes n ++ 46 :: natBytes m).length) = some r ∧
        ¬(48 ≤ r ∧ r ≤ 57) ∧ r ≠ 95 ∧ r ≠ 46 ∧ r ≠ 101 ∧ r ≠ 69 ∧ r ≠ 120 ∧ r ≠ 88) :
    parse_number inp pos = .ok (.Number (.Float (.finite
      ((n : ℚ) + (m : ℚ) / (10 ^ (natDigits m).length : ℚ)))),
      pos + (natBytes n ++ 46 :: natBytes m).length) := by
  obtain ⟨b0, hb0g, hb048, hb057, hb0one, hb0zero⟩ := natBytes_head n
  have hlenn : 1 ≤ (natBytes n).length := by
    cases hnb : natBytes n with
    | nil => exact absurd hnb (natBytes_ne_nil n)
    | cons x xs => simp [hnb]
  have hlenm : 1 ≤ (natBytes m).length := by
    cases hnb : natBytes m with
    | nil => exact absurd hnb (natBytes_ne_nil m)
    | cons x xs => simp [hnb]
  have hend : pos + (natBytes n ++ 46 :: natBytes m).length =
      pos + (natBytes n).length + 1 + (natBytes m).length := by
    simp
    omega
  rw [hend] at hstop ⊢
  have hb0 : byteAt inp pos = some b0 := by
    have h := byteAt_of_slice inp (natBytes n ++ 46 :: natBytes m) pos hseg 0
      (by simp only [List.length_append, List.length_cons]; omega)
    rw [Nat.add_zero] at h
    rw [h, List.get?_append (by omega)]
    exact hb0g
  have hlen : pos + (natBytes n).length + 1 + (natBytes m).length ≤ inp.length := by
    have := length_le_of_slice inp (natBytes n ++ 46 :: natBytes m) pos hseg
      (by simp only [List.length_append, List.length_cons]; omega)
    simp at this
    omega
  have hbdot : byteAt inp (pos + (natBytes n).length) = some 46 := by
    have h := byteAt_of_slice inp (natBytes n ++ 46 :: natBytes m) pos hseg
      (natBytes n).length (by simp)
    rw [h, List.get?_append_right (le_refl _)]
    simp
  have hdig1 : ∀ i, pos ≤ i → i < pos + (natBytes n).length →
      ∃ b, byteAt inp i = some b ∧ ((48 ≤ b ∧ b ≤ 57) ∨ b = 95) := by
    intro i h1 h2
    obtain ⟨b, hbg, hbr⟩ := natBytes_get n (i - pos) (by omega)
    have h := byteAt_of_slice inp (natBytes n ++ 46 :: natBytes m) pos hseg (i - pos)
      (by simp only [List.length_append, List.length_cons]; omega)
    have heq : pos + (i - pos) = i := by omega
    rw [heq] at h
    rw [List.get?_append (by omega)] at h
    exact ⟨b, h.trans hbg, Or.inl hbr⟩
  have hdig2 : ∀ i, pos + (natBytes n).length + 1 ≤ i →
      i < pos + (natBytes n).length + 1 + (natBytes m).length →
      ∃ b, byteAt inp i = some b ∧ ((48 ≤ b ∧ b ≤ 57) ∨ b = 95) := by
    intro i h1 h2
    obtain ⟨b, hbg, hbr⟩ := natBytes_get m (i - (pos + (natBytes n).length + 1)) (by omega)
    have h := byteAt_of_slice inp (natBytes n ++ 46 :: natBytes m) pos hseg (i - pos)
      (by simp only [List.length_append, List.length_cons]; omega)
    have heq : pos + (i - pos) = i := by omega
    rw [heq] at h
    rw [List.get?_append_right (by omega)] at h
    have hg2 : (46 :: natBytes m).get? (i - pos - (natBytes n).length) =
        (natBytes m).get? (i - (pos + (natBytes n).length + 1)) := by
      have hx : i - pos - (natBytes n).length = (i - (pos + (natBytes n).length + 1)) + 1 := by
        omega
      rw [hx]
      simp
    rw [hg2] at h
    exact ⟨b, h.trans hbg, Or.inl hbr⟩
  have hstopne : ∀ v : Nat, v = 46 ∨ v = 101 ∨ v = 69 ∨ v = 120 ∨ v = 88 →
      ¬(byteAt inp (pos + (natBytes n).length + 1 + (natBytes m).length) = some v) := by
    intro v hv h
    rcases hstop with hs | ⟨r, hr, h1, h2, h3, h4, h5, h6, h7⟩
    · rw [hs] at h; cases h
    · rw [hr] at h
      have := Option.some.inj h
      omega
  have hne101 := hstopne 101 (by omega)
  have hne69 := hstopne 69 (by omega)
  have hstop2 : byteAt inp (pos + (natBytes n).length + 1 + (natBytes m).length) = none ∨
      ∃ b, byteAt inp (pos + (natBytes n).length + 1 + (natBytes m).length) = some b ∧
        ¬((48 ≤ b ∧ b ≤ 57) ∨ b = 95) := by
    rcases hstop with hs | ⟨r, hr, h1, h2, h3, h4, h5, h6, h7⟩
    · exact Or.inl hs
    · refine Or.inr ⟨r, hr, ?_⟩
      intro h
      rcases h with h | h
      · exact h1 h
      · exact h2 h
  have hstop1 : byteAt inp (pos + (natBytes n).length) = none ∨
      ∃ b, byteAt inp (pos + (natBytes n).length) = some b ∧
        ¬((48 ≤ b ∧ b ≤ 57) ∨ b = 95) :=
    Or.inr ⟨46, hbdot, by omega⟩
  have hskip2 : skipDigitsU inp (inp.length + 1) (pos + (natBytes n).length + 1) =
      pos + (natBytes n).length + 1 + (natBytes m).length :=
    skipDigitsU_upto inp (pos + (natBytes n).length + 1 + (natBytes m).length)
      (inp.length + 1) (pos + (natBytes n).length + 1) (by omega) (by omega) hdig2 hstop2
  have hfiln : List.filter (fun b => !decide (b = 95)) (natBytes n) = natBytes n := by
    rw [List.filter_eq_self]
    intro b hb
    have := natBytes_digits n b hb
    simp
    omega
  have hfilm : List.filter (fun b => !decide (b = 95)) (natBytes m) = natBytes m := by
    rw [List.filter_eq_self]
    intro b hb
    have := natBytes_digits m b hb
    simp
    omega
  have hs : List.map Char.ofNat
      (List.filter (fun b => !decide (b = 95)) (natBytes n ++ 46 :: natBytes m)) =
      natDigits n ++ '.' :: natDigits m := by
    rw [List.filter_append, hfiln, List.filter_cons]
    norm_num [hfilm, map_ofNat_natBytes]
  have hslice : listSlice inp pos (pos + (natBytes n).length + 1 + (natBytes m).length) =
      natBytes n ++ 46 :: natBytes m := by
    rw [← hend]
    exact hseg
  have hpf := parse_f64_frac n m
  by_cases hn0 : n = 0
  · subst hn0
    have hnb : natBytes 0 = [48] := by
      rw [natBytes, natDigits]
      simp
    have hb0' : byteAt inp pos = some 48 := by rw [hb0, hb0zero rfl]
    rw [hnb] at hslice hbdot hskip2 hne101 hne69 ⊢
    norm_num at hslice hbdot hskip2 hne101 hne69 ⊢
    norm_num [parse_number, hb0', hbdot, hskip2, hne101, hne69, hslice, hnb, hs, hpf,
      show pos + 1 + 1 = pos + 2 by omega]
    have hnd0 : natDigits 0 = [Char.ofNat 48] := by rw [natDigits]; norm_num
    rw [hnd0] at hpf
    norm_num at hpf
    simp [hfilm, map_ofNat_natBytes, hpf, show Char.ofNat 46 = '.' from rfl]
  · have h49 : 49 ≤ b0 := hb0one (by omega)
    have hskip1 : skipDigitsU inp (inp.length + 1) pos = pos + (natBytes n).length :=
      skipDigitsU_upto inp (pos + (natBytes n).length) (inp.length + 1) pos
        (by omega) (by omega) hdig1 hstop1
    norm_num [parse_number, hb0, hbdot, hskip1, hskip2, hne101, hne69, hslice, hs, hpf,
      show b0 ≠ 48 by omega, show b0 ≠ 43 by omega, show b0 ≠ 45 by omega]
    simp [hfiln, hfilm, map_ofNat_natBytes, hpf, show Char.ofNat 46 = '.' from rfl]

set_option maxHeartbeats 2000000 in
theorem parse_number_frac_neg (inp : List Nat) (pos n m : Nat)
    (hseg : listSlice inp pos (pos + (45 :: (natBytes n ++ 46 :: natBytes m)).length) =
      45 :: (natBytes n ++ 46 :: natBytes m))
    (hstop : byteAt inp (pos + (45 :: (natBytes n ++ 46 :: natBytes m)).length) = none ∨
      ∃ r, byteAt inp (pos + (45 :: (natBytes n ++ 46 :: natBytes m)).length) = some r ∧
        ¬(48 ≤ r ∧ r ≤ 57) ∧ r ≠ 95 ∧ r ≠ 46 ∧ r ≠ 101 ∧ r ≠ 69 ∧ r ≠ 120 ∧ r ≠ 88) :
    parse_number inp pos = .ok (.Number (.Float (.finite
      (-((n : ℚ) + (m : ℚ) / (10 ^ (natDigits m).length : ℚ))))),
      pos + (45 :: (natBytes n ++ 46 :: natBytes m)).length) := by
  obtain ⟨b0, hb0g, hb048, hb057, hb0one, hb0zero⟩ := natBytes_head n
  have hlenn : 1 ≤ (natBytes n).length := by
    cases hnb : natBytes n with
    | nil => exact absurd hnb (natBytes_ne_nil n)
    | cons x xs => simp [hnb]
  have hlenm : 1 ≤ (natBytes m).length := by
    cases hnb : natBytes m with
    | nil => exact absurd hnb (natBytes_ne_nil m)
    | cons x xs => simp [hnb]
  have hend : pos + (45 :: (natBytes n ++ 46 :: natBytes m)).length =
      pos + 1 + (natBytes n).length + 1 + (natBytes m).length := by
    simp only [List.length_cons, List.length_append]
    omega
  rw [hend] at hstop ⊢
  have hb45 : byteAt inp pos = some 45 := by
    have h := byteAt_of_slice inp (45 :: (natBytes n ++ 46 :: natBytes m)) pos hseg 0
      (by simp only [List.length_cons]; omega)
    rw [Nat.add_zero] at h
    exact h
  have hb1 : byteAt inp (pos + 1) = some b0 := by
    have h := byteAt_of_slice inp (45 :: (natBytes n ++ 46 :: natBytes m)) pos hseg 1
      (by simp only [List.length_cons, List.length_append]; omega)
    rw [h]
    simp only [List.get?_cons_succ]
    rw [List.get?_append (by omega)]
    exact hb0g
  have hlen : pos + 1 + (natBytes n).length + 1 + (natBytes m).length ≤ inp.length := by
    have := length_le_of_slice inp (45 :: (natBytes n ++ 46 :: natBytes m)) pos hseg
      (by simp only [List.length_cons, List.length_append]; omega)
    simp only [List.length_cons, List.length_append] at this
    omega
  have hbdot : byteAt inp (pos + 1 + (natBytes n).length) = some 46 := by
    have h := byteAt_of_slice inp (45 :: (natBytes n ++ 46 :: natBytes m)) pos hseg
      (1 + (natBytes n).length) (by simp only [List.length_cons, List.length_append]; omega)
    rw [show pos + (1 + (natBytes n).length) = pos + 1 + (natBytes n).length by omega] at h
    rw [h]
    have : (1 + (natBytes n).length) = (natBytes n).length + 1 := by omega
    rw [this]
    simp only [List.get?_cons_succ]
    rw [List.get?_append_right (le_refl _)]
    simp
  have hdig1 : ∀ i, pos + 1 ≤ i → i < pos + 1 + (natBytes n).length →
      ∃ b, byteAt inp i = some b ∧ ((48 ≤ b ∧ b ≤ 57) ∨ b = 95) := by
    intro i h1 h2
    obtain ⟨b, hbg, hbr⟩ := natBytes_get n (i - (pos + 1)) (by omega)
    have h := byteAt_of_slice inp (45 :: (natBytes n ++ 46 :: natBytes m)) pos hseg (i - pos)
      (by simp only [List.length_cons, List.length_append]; omega)
    have heq : pos + (i - pos) = i := by omega
    rw [heq] at h
    have hx : i - pos = (i - (pos + 1)) + 1 := by omega
    rw [hx] at h
    simp only [List.get?_cons_succ] at h
    rw [List.get?_append (by omega)] at h
    exact ⟨b, h.trans hbg, Or.inl hbr⟩
  have hdig2 : ∀ i, pos + 1 + (natBytes n).length + 1 ≤ i →
      i < pos + 1 + (natBytes n).length + 1 + (natBytes m).length →
      ∃ b, byteAt inp i = some b ∧ ((48 ≤ b ∧ b ≤ 57) ∨ b = 95) := by
    intro i h1 h2
    obtain ⟨b, hbg, hbr⟩ := natBytes_get m (i - (pos + 1 + (natBytes n).length + 1)) (by omega)
    have h := byteAt_of_slice inp (45 :: (natBytes n ++ 46 :: natBytes m)) pos hseg (i - pos)
      (by simp only [List.length_cons, List.length_append]; omega)
    have heq : pos + (i - pos) = i := by omega
    rw [heq] at h
    have hx : i - pos = (i - (pos + 1)) + 1 := by omega
    rw [hx] at h
    simp only [List.get?_cons_succ] at h
    rw [List.get?_append_right (by omega)] at h
    have hg2 : (46 :: natBytes m).get? (i - (pos + 1) - (natBytes n).length) =
        (natBytes m).get? (i - (pos + 1 + (natBytes n).length + 1)) := by
      have hx2 : i - (pos + 1) - (natBytes n).length =
          (i - (pos + 1 + (natBytes n).length + 1)) + 1 := by omega
      rw [hx2]
      simp
    rw [hg2] at h
    exact ⟨b, h.trans hbg, Or.inl hbr⟩
  have hstopne : ∀ v : Nat, v = 46 ∨ v = 101 ∨ v = 69 ∨ v = 120 ∨ v = 88 →
      ¬(byteAt inp (pos + 1 + (natBytes n).length + 1 + (natBytes m).length) = some v) := by
    intro v hv h
    rcases hstop with hs | ⟨r, hr, h1, h2, h3, h4, h5, h6, h7⟩
    · rw [hs] at h; cases h
    · rw [hr] at h
      have := Option.some.inj h
      omega
  have hne101 := hstopne 101 (by omega)
  have hne69 := hstopne 69 (by omega)
  have hstop2 : byteAt inp (pos + 1 + (natBytes n).length + 1 + (natBytes m).length) = none ∨
      ∃ b, byteAt inp (pos + 1 + (natBytes n).length + 1 + (natBytes m).length) = some b ∧
        ¬((48 ≤ b ∧ b ≤ 57) ∨ b = 95) := by
    rcases hstop with hs | ⟨r, hr, h1, h2, h3, h4, h5, h6, h7⟩
    · exact Or.inl hs
    · refine Or.inr ⟨r, hr, ?_⟩
      intro h
      rcases h with h | h
      · exact h1 h
      · exact h2 h
  have hstop1 : byteAt inp (pos + 1 + (natBytes n).length) = none ∨
      ∃ b, byteAt inp (pos + 1 + (natBytes n).length) = some b ∧
        ¬((48 ≤ b ∧ b ≤ 57) ∨ b = 95) :=
    Or.inr ⟨46, hbdot, by omega⟩
  have hskip2 : skipDigitsU inp (inp.length + 1) (pos + 1 + (natBytes n).length + 1) =
      pos + 1 + (natBytes n).length + 1 + (natBytes m).length :=
    skipDigitsU_upto inp (pos + 1 + (natBytes n).length + 1 + (natBytes m).length)
      (inp.length + 1) (pos + 1 + (natBytes n).length + 1) (by omega) (by omega) hdig2 hstop2
  have hfiln : List.filter (fun b => !decide (b = 95)) (natBytes n) = natBytes n := by
    rw [List.filter_eq_self]
    intro b hb
    have := natBytes_digits n b hb
    simp
    omega
  have hfilm : List.filter (fun b => !decide (b = 95)) (natBytes m) = natBytes m := by
    rw [List.filter_eq_self]
    intro b hb
    have := natBytes_digits m b hb
    simp
    omega
  have hslice : listSlice inp pos (pos + 1 + (natBytes n).length + 1 + (natBytes m).length) =
      45 :: (natBytes n ++ 46 :: natBytes m) := by
    rw [← hend]
    exact hseg
  have hpf := parse_f64_frac_neg n m
  have hch45 : Char.ofNat 45 = '-' := rfl
  have hch46 : Char.ofNat 46 = '.' := rfl
  by_cases hn0 : n = 0
  · subst hn0
    have hnb : natBytes 0 = [48] := by
      rw [natBytes, natDigits]
      simp
    have hb1' : byteAt inp (pos + 1) = some 48 := by rw [hb1, hb0zero rfl]
    rw [hnb] at hslice hbdot hskip2 hne101 hne69 ⊢
    norm_num at hslice hbdot hskip2 hne101 hne69 ⊢
    have hnd0 : natDigits 0 = [Char.ofNat 48] := by rw [natDigits]; norm_num
    rw [hnd0] at hpf
    norm_num at hpf
    norm_num [parse_number, hb45, hb1', hbdot, hskip2, hne101, hne69, hslice,
      show pos + 1 + 1 = pos + 2 by omega, show pos + 2 + 1 = pos + 3 by omega]
    simp [hfilm, map_ofNat_natBytes, hpf, hch46]
  · have h49 : 49 ≤ b0 := hb0one (by omega)
    have hskip1 : skipDigitsU inp (inp.length + 1) (pos + 1) = pos + 1 + (natBytes n).length :=
      skipDigitsU_upto inp (pos + 1 + (natBytes n).length) (inp.length + 1) (pos + 1)
        (by omega) (by omega) hdig1 hstop1
    norm_num [parse_number, hb45, hb1, hbdot, hskip1, hskip2, hne101, hne69, hslice,
      show b0 ≠ 48 by omega, show b0 ≠ 43 by omega, show b0 ≠ 45 by omega]
    simp [hfiln, hfilm, map_ofNat_natBytes, hpf, hch45, hch46]

set_option maxHeartbeats 2000000 in
theorem parse_number_dotlead (inp : List Nat) (pos m : Nat)
    (hseg : listSlice inp pos (pos + (46 :: natBytes m).length) = 46 :: natBytes m)
    (hstop : byteAt inp (pos + (46 :: natBytes m).length) = none ∨
      ∃ r, byteAt inp (pos + (46 :: natBytes m).length) = some r ∧
        ¬(48 ≤ r ∧ r ≤ 57) ∧ r ≠ 95 ∧ r ≠ 46 ∧ r ≠ 101 ∧ r ≠ 69 ∧ r ≠ 120 ∧ r ≠ 88) :
    parse_number inp pos = .ok (.Number (.Float (.finite
      ((m : ℚ) / (10 ^ (natDigits m).length : ℚ)))),
      pos + (46 :: natBytes m).length) := by
  have hlenm : 1 ≤ (natBytes m).length := by
    cases hnb : natBytes m with
    | nil => exact absurd hnb (natBytes_ne_nil m)
    | cons x xs => simp [hnb]
  have hend : pos + (46 :: natBytes m).length = pos + 1 + (natBytes m).length := by
    simp only [List.length_cons]
    omega
  rw [hend] at hstop ⊢
  have hb46 : byteAt inp pos = some 46 := by
    have h := byteAt_of_slice inp (46 :: natBytes m) pos hseg 0
      (by simp only [List.length_cons]; omega)
    rw [Nat.add_zero] at h
    exact h
  have hlen : pos + 1 + (natBytes m).length ≤ inp.length := by
    have := length_le_of_slice inp (46 :: natBytes m) pos hseg
      (by simp only [List.length_cons]; omega)
    simp only [List.length_cons] at this
    omega
  have hdig2 : ∀ i, pos + 1 ≤ i → i < pos + 1 + (natBytes m).length →
      ∃ b, byteAt inp i = some b ∧ ((48 ≤ b ∧ b ≤ 57) ∨ b = 95) := by
    intro i h1 h2
    obtain ⟨b, hbg, hbr⟩ := natBytes_get m (i - (pos + 1)) (by omega)
    have h := byteAt_of_slice inp (46 :: natBytes m) pos hseg (i - pos)
      (by simp only [List.length_cons]; omega)
    have heq : pos + (i - pos) = i := by omega
    rw [heq] at h
    have hx : i - pos = (i - (pos + 1)) + 1 := by omega
    rw [hx] at h
    simp only [List.get?_cons_succ] at h
    exact ⟨b, h.trans hbg, Or.inl hbr⟩
  have hstopne : ∀ v : Nat, v = 46 ∨ v = 101 ∨ v = 69 ∨ v = 120 ∨ v = 88 →
      ¬(byteAt inp (pos + 1 + (natBytes m).length) = some v) := by
    intro v hv h
    rcases hstop with hs | ⟨r, hr, h1, h2, h3, h4, h5, h6, h7⟩
    · rw [hs] at h; cases h
    · rw [hr] at h
      have := Option.some.inj h
      omega
  have hne101 := hstopne 101 (by omega)
  have hne69 := hstopne 69 (by omega)
  have hstop2 : byteAt inp (pos + 1 + (natBytes m).length) = none ∨
      ∃ b, byteAt inp (pos + 1 + (natBytes m).length) = some b ∧
        ¬((48 ≤ b ∧ b ≤ 57) ∨ b = 95) := by
    rcases hstop with hs | ⟨r, hr, h1, h2, h3, h4, h5, h6, h7⟩
    · exact Or.inl hs
    · refine Or.inr ⟨r, hr, ?_⟩
      intro h
      rcases h with h | h
      · exact h1 h
      · exact h2 h
  have hskip0 : skipDigitsU inp (inp.length + 1) pos = pos :=
    skipDigitsU_upto inp pos (inp.length + 1) pos (le_refl _) (by omega)
      (fun i h1 h2 => absurd (lt_of_le_of_lt h1 h2) (lt_irrefl _))
      (Or.inr ⟨46, hb46, by omega⟩)
  have hskip2 : skipDigitsU inp (inp.length + 1) (pos + 1) =
      pos + 1 + (natBytes m).length :=
    skipDigitsU_upto inp (pos + 1 + (natBytes m).length)
      (inp.length + 1) (pos + 1) (by omega) (by omega) hdig2 hstop2
  have hfilm : List.filter (fun b => !decide (b = 95)) (natBytes m) = natBytes m := by
    rw [List.filter_eq_self]
    intro b hb
    have := natBytes_digits m b hb
    simp
    omega
  have hslice : listSlice inp pos (pos + 1 + (natBytes m).length) = 46 :: natBytes m := by
    rw [← hend]
    exact hseg
  have hpf := parse_f64_dotlead m
  have hch46 : Char.ofNat 46 = '.' := rfl
  norm_num [parse_number, hb46, hskip0, hskip2, hne101, hne69, hslice]
  simp [hfilm, map_ofNat_natBytes, hpf, hch46]

set_option maxHeartbeats 2000000 in
theorem parse_number_dottrail (inp : List Nat) (pos n : Nat)
    (hseg : listSlice inp pos (pos + (natBytes n ++ [46]).length) = natBytes n ++ [46])
    (hstop : byteAt inp (pos + (natBytes n ++ [46]).length) = none ∨
      ∃ r, byteAt inp (pos + (natBytes n ++ [46]).length) = some r ∧
        ¬(48 ≤ r ∧ r ≤ 57) ∧ r ≠ 95 ∧ r ≠ 46 ∧ r ≠ 101 ∧ r ≠ 69 ∧ r ≠ 120 ∧ r ≠ 88) :
    parse_number inp pos = .ok (.Number (.Float (.finite (n : ℚ))),
      pos + (natBytes n ++ [46]).length) := by
  obtain ⟨b0, hb0g, hb048, hb057, hb0one, hb0zero⟩ := natBytes_head n
  have hlenn : 1 ≤ (natBytes n).length := by
    cases hnb : natBytes n with
    | nil => exact absurd hnb (natBytes_ne_nil n)
    | cons x xs => simp [hnb]
  have hend : pos + (natBytes n ++ [46]).length = pos + (natBytes n).length + 1 := by
    simp only [List.length_append, List.length_cons, List.length_nil]
    omega
  rw [hend] at hstop ⊢
  have hb0 : byteAt inp pos = some b0 := by
    have h := byteAt_of_slice inp (natBytes n ++ [46]) pos hseg 0
      (by simp only [List.length_append, List.length_cons]; omega)
    rw [Nat.add_zero] at h
    rw [h, List.get?_append (by omega)]
    exact hb0g
  have hlen : pos + (natBytes n).length + 1 ≤ inp.length := by
    have := length_le_of_slice inp (natBytes n ++ [46]) pos hseg
      (by simp only [List.length_append, List.length_cons]; omega)
    simp only [List.length_append, List.length_cons, List.length_nil] at this
    omega
  have hbdot : byteAt inp (pos + (natBytes n).length) = some 46 := by
    have h := byteAt_of_slice inp (natBytes n ++ [46]) pos hseg
      (natBytes n).length (by simp only [List.length_append, List.length_cons]; omega)
    rw [h, List.get?_append_right (le_refl _)]
    simp
  have hdig1 : ∀ i, pos ≤ i → i < pos + (natBytes n).length →
      ∃ b, byteAt inp i = some b ∧ ((48 ≤ b ∧ b ≤ 57) ∨ b = 95) := by
    intro i h1 h2
    obtain ⟨b, hbg, hbr⟩ := natBytes_get n (i - pos) (by omega)
    have h := byteAt_of_slice inp (natBytes n ++ [46]) pos hseg (i - pos)
      (by simp only [List.length_append, List.length_cons]; omega)
    have heq : pos + (i - pos) = i := by omega
    rw [heq] at h
    rw [List.get?_append (by omega)] at h
    exact ⟨b, h.trans hbg, Or.inl hbr⟩
  have hstopne : ∀ v : Nat, v = 46 ∨ v = 101 ∨ v = 69 ∨ v = 120 ∨ v = 88 →
      ¬(byteAt inp (pos + (natBytes n).length + 1) = some v) := by
    intro v hv h
    rcases hstop with hs | ⟨r, hr, h1, h2, h3, h4, h5, h6, h7⟩
    · rw [hs] at h; cases h
    · rw [hr] at h
      have := Option.some.inj h
      omega
  have hne101 := hstopne 101 (by omega)
  have hne69 := hstopne 69 (by omega)
  have hstop2 : byteAt inp (pos + (natBytes n).length + 1) = none ∨
      ∃ b, byteAt inp (pos + (natBytes n).length + 1) = some b ∧
        ¬((48 ≤ b ∧ b ≤ 57) ∨ b = 95) := by
    rcases hstop with hs | ⟨r, hr, h1, h2, h3, h4, h5, h6, h7⟩
    · exact Or.inl hs
    · refine Or.inr ⟨r, hr, ?_⟩
      intro h
      rcases h with h | h
      · exact h1 h
      · exact h2 h
  have hstop1 : byteAt inp (pos + (natBytes n).length) = none ∨
      ∃ b, byteAt inp (pos + (natBytes n).length) = some b ∧
        ¬((48 ≤ b ∧ b ≤ 57) ∨ b = 95) :=
    Or.inr ⟨46, hbdot, by omega⟩
  have hskip2 : skipDigitsU inp (inp.length + 1) (pos + (natBytes n).length + 1) =
      pos + (natBytes n).length + 1 :=
    skipDigitsU_upto inp (pos + (natBytes n).length + 1) (inp.length + 1)
      (pos + (natBytes n).length + 1) (le_refl _) (by omega)
      (fun i h1 h2 => absurd (lt_of_le_of_lt h1 h2) (lt_irrefl _)) hstop2
  have hfiln : List.filter (fun b => !decide (b = 95)) (natBytes n) = natBytes n := by
    rw [List.filter_eq_self]
    intro b hb
    have := natBytes_digits n b hb
    simp
    omega
  have hslice : listSlice inp pos (pos + (natBytes n).length + 1) = natBytes n ++ [46] := by
    rw [← hend]
    exact hseg
  have hpf := parse_f64_dottrail n
  have hch46 : Char.ofNat 46 = '.' := rfl
  by_cases hn0 : n = 0
  · subst hn0
    have hnb : natBytes 0 = [48] := by
      rw [natBytes, natDigits]
      simp
    have hb0' : byteAt inp pos = some 48 := by rw [hb0, hb0zero rfl]
    rw [hnb] at hslice hbdot hskip2 hne101 hne69 ⊢
    norm_num at hslice hbdot hskip2 hne101 hne69 ⊢
    have hnd0 : natDigits 0 = [Char.ofNat 48] := by rw [natDigits]; norm_num
    rw [hnd0] at hpf
    norm_num at hpf
    norm_num [parse_number, hb0', hbdot, hskip2, hne101, hne69, hslice,
      show pos + 1 + 1 = pos + 2 by omega]
    simp [hpf, hch46]
  · have h49 : 49 ≤ b0 := hb0one (by omega)
    have hskip1 : skipDigitsU inp (inp.length + 1) pos = pos + (natBytes n).length :=
      skipDigitsU_upto inp (pos + (natBytes n).length) (inp.length + 1) pos
        (by omega) (by omega) hdig1 hstop1
    norm_num [parse_number, hb0, hbdot, hskip1, hskip2, hne101, hne69, hslice,
      show b0 ≠ 48 by omega, show b0 ≠ 43 by omega, show b0 ≠ 45 by omega]
    simp [hfiln, map_ofNat_natBytes, hpf, hch46]

set_option maxHeartbeats 2000000 in
theorem parse_number_exp (inp : List Nat) (pos n m : Nat)
    (hseg : listSlice inp pos (pos + (natBytes n ++ 101 :: natBytes m).length) =
      natBytes n ++ 101 :: natBytes m)
    (hstop : byteAt inp (pos + (natBytes n ++ 101 :: natBytes m).length) = none ∨
      ∃ r, byteAt inp (pos + (natBytes n ++ 101 :: natBytes m).length) = some r ∧
        ¬(48 ≤ r ∧ r ≤ 57) ∧ r ≠ 95 ∧ r ≠ 46 ∧ r ≠ 101 ∧ r ≠ 69 ∧ r ≠ 120 ∧ r ≠ 88) :
    parse_number inp pos = .ok (.Number (.Float (.finite ((n : ℚ) * (10 ^ m : ℚ)))),
      pos + (natBytes n ++ 101 :: natBytes m).length) := by
  obtain ⟨b0, hb0g, hb048, hb057, hb0one, hb0zero⟩ := natBytes_head n
  obtain ⟨d0, hd0g, hd048, hd057, hd0one, hd0zero⟩ := natBytes_head m
  have hlenn : 1 ≤ (natBytes n).length := by
    cases hnb : natBytes n with
    | nil => exact absurd hnb (natBytes_ne_nil n)
    | cons x xs => simp [hnb]
  have hlenm : 1 ≤ (natBytes m).length := by
    cases hnb : natBytes m with
    | nil => exact absurd hnb (natBytes_ne_nil m)
    | cons x xs => simp [hnb]
  have hend : pos + (natBytes n ++ 101 :: natBytes m).length =
      pos + (natBytes n).length + 1 + (natBytes m).length := by
    simp only [List.length_append, List.length_cons]
    omega
  rw [hend] at hstop ⊢
  have hb0 : byteAt inp pos = some b0 := by
    have h := byteAt_of_slice inp (natBytes n ++ 101 :: natBytes m) pos hseg 0
      (by simp only [List.length_append, List.length_cons]; omega)
    rw [Nat.add_zero] at h
    rw [h, List.get?_append (by omega)]
    exact hb0g
  have hlen : pos + (natBytes n).length + 1 + (natBytes m).length ≤ inp.length := by
    have := length_le_of_slice inp (natBytes n ++ 101 :: natBytes m) pos hseg
      (by simp only [List.length_append, List.length_cons]; omega)
    simp only [List.length_append, List.length_cons] at this
    omega
  have hbe : byteAt inp (pos + (natBytes n).length) = some 101 := by
    have h := byteAt_of_slice inp (natBytes n ++ 101 :: natBytes m) pos hseg
      (natBytes n).length (by simp only [List.length_append, List.length_cons]; omega)
    rw [h, List.get?_append_right (le_refl _)]
    simp
  have hd1 : byteAt inp (pos + (natBytes n).length + 1) = some d0 := by
    have h := byteAt_of_slice inp (natBytes n ++ 101 :: natBytes m) pos hseg
      ((natBytes n).length + 1) (by simp only [List.length_append, List.length_cons]; omega)
    rw [show pos + ((natBytes n).length + 1) = pos + (natBytes n).length + 1 by omega] at h
    rw [h, List.get?_append_right (by omega)]
    have : (natBytes n).length + 1 - (natBytes n).length = 1 := by omega
    rw [this]
    simp only [List.get?_cons_succ]
    exact hd0g
  have hdig1 : ∀ i, pos ≤ i → i < pos + (natBytes n).length →
      ∃ b, byteAt inp i = some b ∧ ((48 ≤ b ∧ b ≤ 57) ∨ b = 95) := by
    intro i h1 h2
    obtain ⟨b, hbg, hbr⟩ := natBytes_get n (i - pos) (by omega)
    have h := byteAt_of_slice inp (natBytes n ++ 101 :: natBytes m) pos hseg (i - pos)
      (by simp only [List.length_append, List.length_cons]; omega)
    have heq : pos + (i - pos) = i := by omega
    rw [heq] at h
    rw [List.get?_append (by omega)] at h
    exact ⟨b, h.trans hbg, Or.inl hbr⟩
  have hdig2 : ∀ i, pos + (natBytes n).length + 1 ≤ i →
      i < pos + (natBytes n).length + 1 + (natBytes m).length →
      ∃ b, byteAt inp i = some b ∧ ((48 ≤ b ∧ b ≤ 57) ∨ b = 95) := by
    intro i h1 h2
    obtain ⟨b, hbg, hbr⟩ := natBytes_get m (i - (pos + (natBytes n).length + 1)) (by omega)
    have h := byteAt_of_slice inp (natBytes n ++ 101 :: natBytes m) pos hseg (i - pos)
      (by simp only [List.length_append, List.length_cons]; omega)
    have heq : pos + (i - pos) = i := by omega
    rw [heq] at h
    rw [List.get?_append_right (by omega)] at h
    have hg2 : (101 :: natBytes m).get? (i - pos - (natBytes n).length) =
        (natBytes m).get? (i - (pos + (natBytes n).length + 1)) := by
      have hx : i - pos - (natBytes n).length =
          (i - (pos + (natBytes n).length + 1)) + 1 := by omega
      rw [hx]
      simp
    rw [hg2] at h
    exact ⟨b, h.trans hbg, Or.inl hbr⟩
  have hstopne : ∀ v : Nat, v = 46 ∨ v = 101 ∨ v = 69 ∨ v = 120 ∨ v = 88 →
      ¬(byteAt inp (pos + (natBytes n).length + 1 + (natBytes m).length) = some v) := by
    intro v hv h
    rcases hstop with hs | ⟨r, hr, h1, h2, h3, h4, h5, h6, h7⟩
    · rw [hs] at h; cases h
    · rw [hr] at h
      have := Option.some.inj h
      omega
  have hstop2 : byteAt inp (pos + (natBytes n).length + 1 + (natBytes m).length) = none ∨
      ∃ b, byteAt inp (pos + (natBytes n).length + 1 + (natBytes m).length) = some b ∧
        ¬((48 ≤ b ∧ b ≤ 57) ∨ b = 95) := by
    rcases hstop with hs | ⟨r, hr, h1, h2, h3, h4, h5, h6, h7⟩
    · exact Or.inl hs
    · refine Or.inr ⟨r, hr, ?_⟩
      intro h
      rcases h with h | h
      · exact h1 h
      · exact h2 h
  have hstop1 : byteAt inp (pos + (natBytes n).length) = none ∨
      ∃ b, byteAt inp (pos + (natBytes n).length) = some b ∧
        ¬((48 ≤ b ∧ b ≤ 57) ∨ b = 95) :=
    Or.inr ⟨101, hbe, by omega⟩
  have hskip2 : skipDigitsU inp (inp.length + 1) (pos + (natBytes n).length + 1) =
      pos + (natBytes n).length + 1 + (natBytes m).length :=
    skipDigitsU_upto inp (pos + (natBytes n).length + 1 + (natBytes m).length)
      (inp.length + 1) (pos + (natBytes n).length + 1) (by omega) (by omega) hdig2 hstop2
  have hfiln : List.filter (fun b => !decide (b = 95)) (natBytes n) = natBytes n := by
    rw [List.filter_eq_self]
    intro b hb
    have := natBytes_digits n b hb
    simp
    omega
  have hfilm : List.filter (fun b => !decide (b = 95)) (natBytes m) = natBytes m := by
    rw [List.filter_eq_self]
    intro b hb
    have := natBytes_digits m b hb
    simp
    omega
  have hslice : listSlice inp pos (pos + (natBytes n).length + 1 + (natBytes m).length) =
      natBytes n ++ 101 :: natBytes m := by
    rw [← hend]
    exact hseg
  have hpf := parse_f64_exp n m
  have hch101 : Char.ofNat 101 = 'e' := rfl
  by_cases hn0 : n = 0
  · subst hn0
    have hnb : natBytes 0 = [48] := by
      rw [natBytes, natDigits]
      simp
    have hb0' : byteAt inp pos = some 48 := by rw [hb0, hb0zero rfl]
    rw [hnb] at hslice hbe hd1 hskip2 ⊢
    norm_num at hslice hbe hd1 hskip2 ⊢
    have hnd0 : natDigits 0 = [Char.ofNat 48] := by rw [natDigits]; norm_num
    rw [hnd0] at hpf
    norm_num at hpf
    norm_num [parse_number, hb0', hbe, hd1, hskip2, hslice,
      show d0 ≠ 43 by omega, show d0 ≠ 45 by omega,
      show pos + 1 + 1 = pos + 2 by omega]
    simp [hfilm, map_ofNat_natBytes, hpf, hch101]
  · have h49 : 49 ≤ b0 := hb0one (by omega)
    have hskip1 : skipDigitsU inp (inp.length + 1) pos = pos + (natBytes n).length :=
      skipDigitsU_upto inp (pos + (natBytes n).length) (inp.length + 1) pos
        (by omega) (by omega) hdig1 hstop1
    norm_num [parse_number, hb0, hbe, hd1, hskip1, hskip2, hslice,
      show b0 ≠ 48 by omega, show b0 ≠ 43 by omega, show b0 ≠ 45 by omega,
      show d0 ≠ 43 by omega, show d0 ≠ 45 by omega]
    simp [hfiln, hfilm, map_ofNat_natBytes, hpf, hch101]

set_option maxHeartbeats 2000000 in
theorem parse_number_hex (inp : List Nat) (pos v : Nat) (hb : List Nat)
    (hne : hb ≠ []) (hhex : ∀ b ∈ hb, isHexByte b)
    (hval : hexVal (hb.map Char.ofNat) 0 = some v) (hv64 : v < 2 ^ 64)
    (hseg : listSlice inp pos (pos + (48 :: 120 :: hb).length) = 48 :: 120 :: hb)
    (hstop : byteAt inp (pos + (48 :: 120 :: hb).length) = none ∨
      ∃ r, byteAt inp (pos + (48 :: 120 :: hb).length) = some r ∧ ¬isHexByte r ∧ r ≠ 95) :
    parse_number inp pos = .ok (.Number (.Uint v), pos + (48 :: 120 :: hb).length) := by
  have hend : pos + (48 :: 120 :: hb).length = pos + 2 + hb.length := by
    simp only [List.length_cons]
    omega
  rw [hend] at hstop ⊢
  have hb48 : byteAt inp pos = some 48 := by
    have h := byteAt_of_slice inp (48 :: 120 :: hb) pos hseg 0
      (by simp only [List.length_cons]; omega)
    rw [Nat.add_zero] at h
    exact h
  have hb120 : byteAt inp (pos + 1) = some 120 := by
    have h := byteAt_of_slice inp (48 :: 120 :: hb) pos hseg 1
      (by simp only [List.length_cons]; omega)
    exact h
  have hdig : ∀ i, pos + 2 ≤ i → i < pos + 2 + hb.length →
      ∃ b, byteAt inp i = some b ∧
        ((48 ≤ b ∧ b ≤ 57) ∨ (97 ≤ b ∧ b ≤ 102) ∨ (65 ≤ b ∧ b ≤ 70) ∨ b = 95) := by
    intro i h1 h2
    have h := byteAt_of_slice inp (48 :: 120 :: hb) pos hseg (i - pos)
      (by simp only [List.length_cons]; omega)
    have heq : pos + (i - pos) = i := by omega
    rw [heq] at h
    have hx : i - pos = (i - (pos + 2)) + 2 := by omega
    rw [hx] at h
    simp only [List.get?_cons_succ] at h
    cases hg : hb.get? (i - (pos + 2)) with
    | none =>
        rw [List.get?_eq_none] at hg
        omega
    | some b =>
        rw [hg] at h
        have := hhex b (List.get?_mem hg)
        rw [isHexByte] at this
        exact ⟨b, h, by tauto⟩
  have hstop2 : byteAt inp (pos + 2 + hb.length) = none ∨
      ∃ b, byteAt inp (pos + 2 + hb.length) = some b ∧
        ¬((48 ≤ b ∧ b ≤ 57) ∨ (97 ≤ b ∧ b ≤ 102) ∨ (65 ≤ b ∧ b ≤ 70) ∨ b = 95) := by
    rcases hstop with hs | ⟨r, hr, h1, h2⟩
    · exact Or.inl hs
    · refine Or.inr ⟨r, hr, ?_⟩
      rw [isHexByte] at h1
      tauto
  have hlen : pos + 2 + hb.length ≤ inp.length := by
    have := length_le_of_slice inp (48 :: 120 :: hb) pos hseg
      (by simp only [List.length_cons]; omega)
    simp only [List.length_cons] at this
    omega
  have hskip : skipHexDigits inp (inp.length + 1) (pos + 2) = pos + 2 + hb.length :=
    skipHexDigits_upto inp (pos + 2 + hb.length) (inp.length + 1) (pos + 2)
      (by omega) (by omega) hdig hstop2
  have hfil : List.filter (fun b => !decide (b = 95)) hb = hb := by
    rw [List.filter_eq_self]
    intro b hbm
    have := hhex b hbm
    rw [isHexByte] at this
    simp
    omega
  have hslice : listSlice inp (pos + 2) (pos + 2 + hb.length) = hb := by
    have h := hseg
    rw [listSlice] at h ⊢
    have hx : pos + 2 + hb.length - (pos + 2) = hb.length := by omega
    rw [hx]
    have hy : pos + (48 :: 120 :: hb).length - pos = hb.length + 2 := by
      simp only [List.length_cons]
      omega
    rw [hy] at h
    have h2 := congrArg (List.drop 2) h
    rw [List.drop_take] at h2
    simp at h2
    exact h2
  have hphex : parse_hex_u64 (hb.map Char.ofNat) = some v := by
    obtain ⟨c, cs, hcons⟩ := List.exists_cons_of_ne_nil hne
    have h1 : parse_hex_u64 (hb.map Char.ofNat) =
        (match hexVal (hb.map Char.ofNat) 0 with
         | none => none
         | some n => if n < 2 ^ 64 then some n else none) := by
      rw [hcons]
      rfl
    rw [h1, hval]
    exact if_pos hv64
  norm_num [parse_number, hb48, hb120, hskip, hslice, hfil, hphex]

set_option maxHeartbeats 2000000 in
theorem parse_number_hex_neg (inp : List Nat) (pos v : Nat) (hb : List Nat)
    (hne : hb ≠ []) (hhex : ∀ b ∈ hb, isHexByte b)
    (hval : hexVal (hb.map Char.ofNat) 0 = some v) (hv64 : v < 2 ^ 64)
    (hseg : listSlice inp pos (pos + (45 :: 48 :: 120 :: hb).length) = 45 :: 48 :: 120 :: hb)
    (hstop : byteAt inp (pos + (45 :: 48 :: 120 :: hb).length) = none ∨
      ∃ r, byteAt inp (pos + (45 :: 48 :: 120 :: hb).length) = some r ∧ ¬isHexByte r ∧ r ≠ 95) :
    parse_number inp pos = .ok (.Number (.Int (i64Neg v)), pos + (45 :: 48 :: 120 :: hb).length) := by
  have hend : pos + (45 :: 48 :: 120 :: hb).length = pos + 3 + hb.length := by
    simp only [List.length_cons]
    omega
  rw [hend] at hstop ⊢
  have hb45 : byteAt inp pos = some 45 := by
    have h := byteAt_of_slice inp (45 :: 48 :: 120 :: hb) pos hseg 0
      (by simp only [List.length_cons]; omega)
    rw [Nat.add_zero] at h
    exact h
  have hb48 : byteAt inp (pos + 1) = some 48 := by
    have h := byteAt_of_slice inp (45 :: 48 :: 120 :: hb) pos hseg 1
      (by simp only [List.length_cons]; omega)
    exact h
  have hb120 : byteAt inp (pos + 2) = some 120 := by
    have h := byteAt_of_slice inp (45 :: 48 :: 120 :: hb) pos hseg 2
      (by simp only [List.length_cons]; omega)
    exact h
  have hdig : ∀ i, pos + 3 ≤ i → i < pos + 3 + hb.length →
      ∃ b, byteAt inp i = some b ∧
        ((48 ≤ b ∧ b ≤ 57) ∨ (97 ≤ b ∧ b ≤ 102) ∨ (65 ≤ b ∧ b ≤ 70) ∨ b = 95) := by
    intro i h1 h2
    have h := byteAt_of_slice inp (45 :: 48 :: 120 :: hb) pos hseg (i - pos)
      (by simp only [List.length_cons]; omega)
    have heq : pos + (i - pos) = i := by omega
    rw [heq] at h
    have hx : i - pos = (i - (pos + 3)) + 3 := by omega
    rw [hx] at h
    simp only [List.get?_cons_succ] at h
    cases hg : hb.get? (i - (pos + 3)) with
    | none =>
        rw [List.get?_eq_none] at hg
        omega
    | some b =>
        rw [hg] at h
        have := hhex b (List.get?_mem hg)
        rw [isHexByte] at this
        exact ⟨b, h, by tauto⟩
  have hstop2 : byteAt inp (pos + 3 + hb.length) = none ∨
      ∃ b, byteAt inp (pos + 3 + hb.length) = some b ∧
        ¬((48 ≤ b ∧ b ≤ 57) ∨ (97 ≤ b ∧ b ≤ 102) ∨ (65 ≤ b ∧ b ≤ 70) ∨ b = 95) := by
    rcases hstop with hs | ⟨r, hr, h1, h2⟩
    · exact Or.inl hs
    · refine Or.inr ⟨r, hr, ?_⟩
      rw [isHexByte] at h1
      tauto
  have hlen : pos + 3 + hb.length ≤ inp.length := by
    have := length_le_of_slice inp (45 :: 48 :: 120 :: hb) pos hseg
      (by simp only [List.length_cons]; omega)
    simp only [List.length_cons] at this
    omega
  have hskip : skipHexDigits inp (inp.length + 1) (pos + 3) = pos + 3 + hb.length :=
    skipHexDigits_upto inp (pos + 3 + hb.length) (inp.length + 1) (pos + 3)
      (by omega) (by omega) hdig hstop2
  have hfil : List.filter (fun b => !decide (b = 95)) hb = hb := by
    rw [List.filter_eq_self]
    intro b hbm
    have := hhex b hbm
    rw [isHexByte] at this
    simp
    omega
  have hslice : listSlice inp (pos + 3) (pos + 3 + hb.length) = hb := by
    have h := hseg
    rw [listSlice] at h ⊢
    have hx : pos + 3 + hb.length - (pos + 3) = hb.length := by omega
    rw [hx]
    have hy : pos + (45 :: 48 :: 120 :: hb).length - pos = hb.length + 3 := by
      simp only [List.length_cons]
      omega
    rw [hy] at h
    have h2 := congrArg (List.drop 3) h
    rw [List.drop_take] at h2
    simp at h2
    exact h2
  have hphex : parse_hex_u64 (hb.map Char.ofNat) = some v := by
    obtain ⟨c, cs, hcons⟩ := List.exists_cons_of_ne_nil hne
    have h1 : parse_hex_u64 (hb.map Char.ofNat) =
        (match hexVal (hb.map Char.ofNat) 0 with
         | none => none
         | some n => if n < 2 ^ 64 then some n else none) := by
      rw [hcons]
      rfl
    rw [h1, hval]
    exact if_pos hv64
  norm_num [parse_number, hb45, hb48, hb120, hskip, hslice, hfil, hphex,
    show pos + 1 + 1 = pos + 2 by omega, show pos + 2 + 1 = pos + 3 by omega]

/-! ## Dispatch of `parse_value` into `parse_number`, and C6 -/

theorem listSlice_self (l : List Nat) : listSlice l 0 (0 + l.length) = l := by
  rw [listSlice]
  simp

set_option maxHeartbeats 1000000 in
theorem parse_value_eq_parse_number (inp : List Nat) (fuel pos b0 : Nat)
    (hb0 : byteAt inp pos = some b0) (hd : (48 ≤ b0 ∧ b0 ≤ 57) ∨ b0 = 46)
    (hskip : skip_whitespace_and_comments inp pos = pos) :
    parse_value inp (fuel + 1) pos = parse_number inp pos := by
  norm_num [parse_value, hskip, hb0, hd,
    show b0 ≠ 110 by omega, show b0 ≠ 116 by omega, show b0 ≠ 102 by omega,
    show b0 ≠ 34 by omega, show b0 ≠ 39 by omega, show b0 ≠ 91 by omega,
    show b0 ≠ 123 by omega, show b0 ≠ 45 by omega, show b0 ≠ 43 by omega,
    show b0 ≠ 73 by omega, show b0 ≠ 78 by omega]

set_option maxHeartbeats 1000000 in
theorem parse_value_minus_number (inp : List Nat) (fuel pos : Nat)
    (hb0 : byteAt inp pos = some 45)
    (hsl : sliceEq inp (pos + 1) (pos + 9) (strBytes "Infinity") = false)
    (hskip : skip_whitespace_and_comments inp pos = pos) :
    parse_value inp (fuel + 1) pos = parse_number inp pos := by
  norm_num [parse_value, hskip, hb0, hsl]

theorem parse_value_top_of_ok_end (inp : List Nat) (v : Value)
    (h : parse_value inp (inp.length + 1) 0 = .ok (v, inp.length)) :
    parse_value_top inp = .ok v := by
  have hb : byteAt inp inp.length = none := by
    rw [byteAt_none_iff]
  have hskip := skip_noop inp inp.length (wsTokenAt_none_eof _ _ hb)
    (by rw [hb]; exact fun hx => Option.noConfusion hx)
  simp only [parse_value_top, h]
  rw [hskip]
  simp

theorem parse_value_top_of_err (inp : List Nat) (e : Err)
    (h : parse_value inp (inp.length + 1) 0 = .error e) :
    parse_value_top inp = .error e := by
  simp only [parse_value_top, h]

/-- whitespace skipping is the identity at a byte that starts a number
literal (digit, `.`, `-`, `+`) or a keyword letter. -/
theorem skip_noop_at (inp : List Nat) (pos b0 : Nat)
    (hb0 : byteAt inp pos = some b0)
    (h : b0 ≠ 32 ∧ b0 ≠ 9 ∧ b0 ≠ 10 ∧ b0 ≠ 13 ∧ b0 ≠ 194 ∧ b0 ≠ 226 ∧ b0 ≠ 47) :
    skip_whitespace_and_comments inp pos = pos :=
  skip_noop inp pos (wsTokenAt_none_of inp pos b0 hb0 (by tauto))
    (by rw [hb0]; intro hx; exact absurd (Option.some.inj hx) (by omega))

set_option maxHeartbeats 1000000 in
theorem parse_top_nat (n : Nat) :
    parse_value_top (natBytes n) =
      .ok (.Number (if n ≤ 2 ^ 63 - 1 then .Int (n : Int)
        else if n < 2 ^ 64 then .Uint n else .Float (.finite (n : ℚ)))) := by
  obtain ⟨b0, hb0g, hb048, hb057, h1, h2⟩ := natBytes_head n
  have hb0 : byteAt (natBytes n) 0 = some b0 := hb0g
  have hskip := skip_noop_at (natBytes n) 0 b0 hb0 (by omega)
  have hseg : listSlice (natBytes n) 0 (0 + (natBytes n).length) = natBytes n :=
    listSlice_self _
  have hstop : byteAt (natBytes n) (0 + (natBytes n).length) = none := by
    rw [byteAt_none_iff]
    omega
  have hnum := parse_number_nonneg (natBytes n) 0 n hseg (Or.inl hstop)
  have hpv := parse_value_eq_parse_number (natBytes n) (natBytes n).length 0 b0 hb0
    (Or.inl ⟨hb048, hb057⟩) hskip
  apply parse_value_top_of_ok_end
  rw [hpv, hnum]
  norm_num

set_option maxHeartbeats 1000000 in
theorem parse_top_neg (n : Nat) :
    parse_value_top (45 :: natBytes n) =
      (if n ≤ 2 ^ 63 then .ok (.Number (.Int (-(n : Int))))
       else .error (.InvalidNumber ('-' :: natDigits n))) := by
  obtain ⟨b0, hb0g, hb048, hb057, h1, h2⟩ := natBytes_head n
  have hb0 : byteAt (45 :: natBytes n) 0 = some 45 := rfl
  have hb1 : byteAt (45 :: natBytes n) 1 = some b0 := hb0g
  have hskip := skip_noop_at (45 :: natBytes n) 0 45 hb0 (by omega)
  have hseg : listSlice (45 :: natBytes n) 0 (0 + (45 :: natBytes n).length) =
      45 :: natBytes n := listSlice_self _
  have hstop : byteAt (45 :: natBytes n) (0 + (45 :: natBytes n).length) = none := by
    rw [byteAt_none_iff]
    omega
  have hnum := parse_number_neg (45 :: natBytes n) 0 n hseg (Or.inl hstop)
  have hsl : sliceEq (45 :: natBytes n) (0 + 1) (0 + 9) (strBytes "Infinity") = false := by
    rw [show strBytes "Infinity" = 73 :: [110, 102, 105, 110, 105, 116, 121] from rfl]
    exact sliceEq_false_head (45 :: natBytes n) 1 9 b0 73 _ hb1 (by omega) (by omega)
  have hpv := parse_value_minus_number (45 :: natBytes n) (45 :: natBytes n).length 0
    hb0 (by simpa using hsl) hskip
  by_cases h63 : n ≤ 2 ^ 63
  · rw [if_pos h63]
    apply parse_value_top_of_ok_end
    rw [hpv, hnum, if_pos h63]
    norm_num
  · rw [if_neg h63]
    apply parse_value_top_of_err
    rw [hpv, hnum, if_neg h63]

set_option maxHeartbeats 1000000 in
theorem parse_top_frac (n m : Nat) :
    parse_value_top (natBytes n ++ 46 :: natBytes m) =
      .ok (.Number (.Float (.finite
        ((n : ℚ) + (m : ℚ) / (10 ^ (natDigits m).length : ℚ))))) := by
  obtain ⟨b0, hb0g, hb048, hb057, h1, h2⟩ := natBytes_head n
  have hlenn : 1 ≤ (natBytes n).length := by
    cases hnb : natBytes n with
    | nil => exact absurd hnb (natBytes_ne_nil n)
    | cons x xs => simp [hnb]
  have hb0 : byteAt (natBytes n ++ 46 :: natBytes m) 0 = some b0 := by
    rw [byteAt, List.get?_append (by omega)]
    exact hb0g
  have hskip := skip_noop_at (natBytes n ++ 46 :: natBytes m) 0 b0 hb0 (by omega)
  have hseg := listSlice_self (natBytes n ++ 46 :: natBytes m)
  have hstop : byteAt (natBytes n ++ 46 :: natBytes m)
      (0 + (natBytes n ++ 46 :: natBytes m).length) = none := by
    rw [byteAt_none_iff]
    omega
  have hnum := parse_number_frac (natBytes n ++ 46 :: natBytes m) 0 n m hseg (Or.inl hstop)
  have hpv := parse_value_eq_parse_number (natBytes n ++ 46 :: natBytes m)
    (natBytes n ++ 46 :: natBytes m).length 0 b0 hb0 (Or.inl ⟨hb048, hb057⟩) hskip
  apply parse_value_top_of_ok_end
  rw [hpv, hnum]
  norm_num

set_option maxHeartbeats 1000000 in
theorem parse_top_frac_neg (n m : Nat) :
    parse_value_top (45 :: (natBytes n ++ 46 :: natBytes m)) =
      .ok (.Number (.Float (.finite
        (-((n : ℚ) + (m : ℚ) / (10 ^ (natDigits m).length : ℚ)))))) := by
  obtain ⟨b0, hb0g, hb048, hb057, h1, h2⟩ := natBytes_head n
  have hlenn : 1 ≤ (natBytes n).length := by
    cases hnb : natBytes n with
    | nil => exact absurd hnb (natBytes_ne_nil n)
    | cons x xs => simp [hnb]
  have hb0 : byteAt (45 :: (natBytes n ++ 46 :: natBytes m)) 0 = some 45 := rfl
  have hb1 : byteAt (45 :: (natBytes n ++ 46 :: natBytes m)) 1 = some b0 := by
    rw [byteAt, List.get?_cons_succ, List.get?_append (by omega)]
    exact hb0g
  have hskip := skip_noop_at (45 :: (natBytes n ++ 46 :: natBytes m)) 0 45 hb0 (by omega)
  have hseg := listSlice_self (45 :: (natBytes n ++ 46 :: natBytes m))
  have hstop : byteAt (45 :: (natBytes n ++ 46 :: natBytes m))
      (0 + (45 :: (natBytes n ++ 46 :: natBytes m)).length) = none := by
    rw [byteAt_none_iff]
    omega
  have hnum := parse_number_frac_neg (45 :: (natBytes n ++ 46 :: natBytes m)) 0 n m hseg
    (Or.inl hstop)
  have hsl : sliceEq (45 :: (natBytes n ++ 46 :: natBytes m)) (0 + 1) (0 + 9)
      (strBytes "Infinity") = false := by
    rw [show strBytes "Infinity" = 73 :: [110, 102, 105, 110, 105, 116, 121] from rfl]
    exact sliceEq_false_head _ 1 9 b0 73 _ hb1 (by omega) (by omega)
  have hpv := parse_value_minus_number (45 :: (natBytes n ++ 46 :: natBytes m))
    (45 :: (natBytes n ++ 46 :: natBytes m)).length 0 hb0 (by simpa using hsl) hskip
  apply parse_value_top_of_ok_end
  rw [hpv, hnum]
  norm_num

set_option maxHeartbeats 1000000 in
theorem parse_top_dotlead (m : Nat) :
    parse_value_top (46 :: natBytes m) =
      .ok (.Number (.Float (.finite ((m : ℚ) / (10 ^ (natDigits m).length : ℚ))))) := by
  have hb0 : byteAt (46 :: natBytes m) 0 = some 46 := rfl
  have hskip := skip_noop_at (46 :: natBytes m) 0 46 hb0 (by omega)
  have hseg := listSlice_self (46 :: natBytes m)
  have hstop : byteAt (46 :: natBytes m) (0 + (46 :: natBytes m).length) = none := by
    rw [byteAt_none_iff]
    omega
  have hnum := parse_number_dotlead (46 :: natBytes m) 0 m hseg (Or.inl hstop)
  have hpv := parse_value_eq_parse_number (46 :: natBytes m)
    (46 :: natBytes m).length 0 46 hb0 (Or.inr rfl) hskip
  apply parse_value_top_of_ok_end
  rw [hpv, hnum]
  norm_num

set_option maxHeartbeats 1000000 in
theorem parse_top_dottrail (n : Nat) :
    parse_value_top (natBytes n ++ [46]) =
      .ok (.Number (.Float (.finite (n : ℚ)))) := by
  obtain ⟨b0, hb0g, hb048, hb057, h1, h2⟩ := natBytes_head n
  have hlenn : 1 ≤ (natBytes n).length := by
    cases hnb : natBytes n with
    | nil => exact absurd hnb (natBytes_ne_nil n)
    | cons x xs => simp [hnb]
  have hb0 : byteAt (natBytes n ++ [46]) 0 = some b0 := by
    rw [byteAt, List.get?_append (by omega)]
    exact hb0g
  have hskip := skip_noop_at (natBytes n ++ [46]) 0 b0 hb0 (by omega)
  have hseg := listSlice_self (natBytes n ++ [46])
  have hstop : byteAt (natBytes n ++ [46]) (0 + (natBytes n ++ [46]).length) = none := by
    rw [byteAt_none_iff]
    omega
  have hnum := parse_number_dottrail (natBytes n ++ [46]) 0 n hseg (Or.inl hstop)
  have hpv := parse_value_eq_parse_number (natBytes n ++ [46])
    (natBytes n ++ [46]).length 0 b0 hb0 (Or.inl ⟨hb048, hb057⟩) hskip
  apply parse_value_top_of_ok_end
  rw [hpv, hnum]
  norm_num

set_option maxHeartbeats 1000000 in
theorem parse_top_exp (n m : Nat) :
    parse_value_top (natBytes n ++ 101 :: natBytes m) =
      .ok (.Number (.Float (.finite ((n : ℚ) * (10 ^ m : ℚ))))) := by
  obtain ⟨b0, hb0g, hb048, hb057, h1, h2⟩ := natBytes_head n
  have hlenn : 1 ≤ (natBytes n).length := by
    cases hnb : natBytes n with
    | nil => exact absurd hnb (natBytes_ne_nil n)
    | cons x xs => simp [hnb]
  have hb0 : byteAt (natBytes n ++ 101 :: natBytes m) 0 = some b0 := by
    rw [byteAt, List.get?_append (by omega)]
    exact hb0g
  have hskip := skip_noop_at (natBytes n ++ 101 :: natBytes m) 0 b0 hb0 (by omega)
  have hseg := listSlice_self (natBytes n ++ 101 :: natBytes m)
  have hstop : byteAt (natBytes n ++ 101 :: natBytes m)
      (0 + (natBytes n ++ 101 :: natBytes m).length) = none := by
    rw [byteAt_none_iff]
    omega
  have hnum := parse_number_exp (natBytes n ++ 101 :: natBytes m) 0 n m hseg (Or.inl hstop)
  have hpv := parse_value_eq_parse_number (natBytes n ++ 101 :: natBytes m)
    (natBytes n ++ 101 :: natBytes m).length 0 b0 hb0 (Or.inl ⟨hb048, hb057⟩) hskip
  apply parse_value_top_of_ok_end
  rw [hpv, hnum]
  norm_num

set_option maxHeartbeats 1000000 in
theorem parse_top_hex (v : Nat) (hb : List Nat)
    (hne : hb ≠ []) (hhex : ∀ b ∈ hb, isHexByte b)
    (hval : hexVal (hb.map Char.ofNat) 0 = some v) (hv64 : v < 2 ^ 64) :
    parse_value_top (48 :: 120 :: hb) = .ok (.Number (.Uint v)) := by
  have hb0 : byteAt (48 :: 120 :: hb) 0 = some 48 := rfl
  have hskip := skip_noop_at (48 :: 120 :: hb) 0 48 hb0 (by omega)
  have hseg := listSlice_self (48 :: 120 :: hb)
  have hstop : byteAt (48 :: 120 :: hb) (0 + (48 :: 120 :: hb).length) = none := by
    rw [byteAt_none_iff]
    omega
  have hnum := parse_number_hex (48 :: 120 :: hb) 0 v hb hne hhex hval hv64 hseg
    (Or.inl hstop)
  have hpv := parse_value_eq_parse_number (48 :: 120 :: hb)
    (48 :: 120 :: hb).length 0 48 hb0 (Or.inl (by omega)) hskip
  apply parse_value_top_of_ok_end
  rw [hpv, hnum]
  norm_num

set_option maxHeartbeats 1000000 in
theorem parse_top_hex_neg (v : Nat) (hb : List Nat)
    (hne : hb ≠ []) (hhex : ∀ b ∈ hb, isHexByte b)
    (hval : hexVal (hb.map Char.ofNat) 0 = some v) (hv64 : v < 2 ^ 64) :
    parse_value_top (45 :: 48 :: 120 :: hb) = .ok (.Number (.Int (i64Neg v))) := by
  have hb0 : byteAt (45 :: 48 :: 120 :: hb) 0 = some 45 := rfl
  have hb1 : byteAt (45 :: 48 :: 120 :: hb) 1 = some 48 := rfl
  have hskip := skip_noop_at (45 :: 48 :: 120 :: hb) 0 45 hb0 (by omega)
  have hseg := listSlice_self (45 :: 48 :: 120 :: hb)
  have hstop : byteAt (45 :: 48 :: 120 :: hb) (0 + (45 :: 48 :: 120 :: hb).length) = none := by
    rw [byteAt_none_iff]
    omega
  have hnum := parse_number_hex_neg (45 :: 48 :: 120 :: hb) 0 v hb hne hhex hval hv64 hseg
    (Or.inl hstop)
  have hsl : sliceEq (45 :: 48 :: 120 :: hb) (0 + 1) (0 + 9) (strBytes "Infinity") = false := by
    rw [show strBytes "Infinity" = 73 :: [110, 102, 105, 110, 105, 116, 121] from rfl]
    exact sliceEq_false_head _ 1 9 48 73 _ hb1 (by omega) (by omega)
  have hpv := parse_value_minus_number (45 :: 48 :: 120 :: hb)
    (45 :: 48 :: 120 :: hb).length 0 hb0 (by simpa using hsl) hskip
  apply parse_value_top_of_ok_end
  rw [hpv, hnum]
  norm_num

/-- C6 counterexample: `+Infinity` parses to the `Infinity` variant, which
re-encodes as `"Infinity"`, not the original literal text `"+Infinity"`;
moreover a negative integral literal below `i64::MIN` is an
`InvalidNumber` error, not an `Int` (no float fallback for negatives). -/
theorem C6_counterexample :
    parse_value_top (strBytes "+Infinity") = .ok (.Number .Infinity) ∧
    encode_compact (.Number .Infinity) = .ok ("Infinity".toList) ∧
    "Infinity".toList ≠ "+Infinity".toList ∧
    parse_value_top (strBytes "-9223372036854775809") =
      .error (.InvalidNumber ("-9223372036854775809".toList)) :=
  ⟨rfl, rfl, by decide, rfl⟩

/-- C6: number-literal classification of `parse_number` (through the
`parse_value` dispatch): hex gives `Uint` (resp. `Int` of the wrapping
negation under a minus sign); a fractional part or exponent gives `Float`
with the exact decimal value; a non-negative integral literal gives `Int`
when it fits `i64`, `Uint` when it fits only `u64`, and falls back to
`Float` beyond that; a negative integral literal gives `Int` when its
magnitude fits, else an `InvalidNumber` error; and the named literals
`0xFF`, `-0x10`, `.5`, `5.`, `NaN`, `Infinity`, `+Infinity`, `-Infinity`
parse and re-encode as stated. -/
theorem C6_classification :
    (∀ v (hb : List Nat), hb ≠ [] → (∀ b ∈ hb, isHexByte b) →
      hexVal (hb.map Char.ofNat) 0 = some v → v < 2 ^ 64 →
      parse_value_top (48 :: 120 :: hb) = .ok (.Number (.Uint v)) ∧
      parse_value_top (45 :: 48 :: 120 :: hb) = .ok (.Number (.Int (i64Neg v)))) ∧
    (∀ n m : Nat, parse_value_top (natBytes n ++ 46 :: natBytes m) =
        .ok (.Number (.Float (.finite ((n : ℚ) + (m : ℚ) / (10 ^ (natDigits m).length : ℚ))))) ∧
      parse_value_top (45 :: (natBytes n ++ 46 :: natBytes m)) =
        .ok (.Number (.Float (.finite (-((n : ℚ) + (m : ℚ) / (10 ^ (natDigits m).length : ℚ)))))) ∧
      parse_value_top (46 :: natBytes m) =
        .ok (.Number (.Float (.finite ((m : ℚ) / (10 ^ (natDigits m).length : ℚ))))) ∧
      parse_value_top (natBytes n ++ [46]) = .ok (.Number (.Float (.finite (n : ℚ))))) ∧
    (∀ n m : Nat, parse_value_top (natBytes n ++ 101 :: natBytes m) =
      .ok (.Number (.Float (.finite ((n : ℚ) * (10 ^ m : ℚ)))))) ∧
    (∀ n : Nat, parse_value_top (natBytes n) =
      .ok (.Number (if n ≤ 2 ^ 63 - 1 then .Int (n : Int)
        else if n < 2 ^ 64 then .Uint n else .Float (.finite (n : ℚ))))) ∧
    (∀ n : Nat, parse_value_top (45 :: natBytes n) =
      (if n ≤ 2 ^ 63 then .ok (.Number (.Int (-(n : Int))))
       else .error (.InvalidNumber ('-' :: natDigits n)))) ∧
    parse_value_top (strBytes "0xFF") = .ok (.Number (.Uint 255)) ∧
    parse_value_top (strBytes "-0x10") = .ok (.Number (.Int (-16))) ∧
    parse_value_top (strBytes ".5") = .ok (.Number (.Float (.finite (1 / 2)))) ∧
    parse_value_top (strBytes "5.") = .ok (.Number (.Float (.finite (5 : ℚ)))) ∧
    parse_value_top (strBytes "NaN") = .ok (.Number .NaN) ∧
    parse_value_top (strBytes "Infinity") = .ok (.Number .Infinity) ∧
    parse_value_top (strBytes "+Infinity") = .ok (.Number .Infinity) ∧
    parse_value_top (strBytes "-Infinity") = .ok (.Number .NegInfinity) ∧
    encode_compact (.Number .NaN) = .ok ("NaN".toList) ∧
    encode_compact (.Number .Infinity) = .ok ("Infinity".toList) ∧
    encode_compact (.Number .NegInfinity) = .ok ("-Infinity".toList) := by
  have h5 : natBytes 5 = [53] := by
    rw [natBytes, natDigits]
    simp
  have hl5 : (natDigits 5).length = 1 := by
    rw [natDigits]
    simp
  refine ⟨fun v hb h1 h2 h3 h4 => ⟨parse_top_hex v hb h1 h2 h3 h4,
      parse_top_hex_neg v hb h1 h2 h3 h4⟩,
    fun n m => ⟨parse_top_frac n m, parse_top_frac_neg n m, parse_top_dotlead m,
      parse_top_dottrail n⟩,
    parse_top_exp, parse_top_nat, parse_top_neg, rfl, rfl, ?_, ?_,
    rfl, rfl, rfl, rfl, rfl, rfl, rfl⟩
  · have h := parse_top_dotlead 5
    rw [h5, hl5] at h
    rw [show strBytes ".5" = [46, 53] from rfl]
    rw [h]
    norm_num
  · have h := parse_top_dottrail 5
    rw [h5] at h
    rw [show strBytes "5." = [53, 46] from rfl]
    exact h

/-- Witness: the classification at concrete literals `0xF`, `12`, `-7`, `1.5`. -/
theorem C6_classification_witness :
    parse_value_top [48, 120, 70] = .ok (.Number (.Uint 15)) ∧
    parse_value_top [49, 50] = .ok (.Number (.Int 12)) ∧
    parse_value_top [45, 55] = .ok (.Number (.Int (-7))) ∧
    parse_value_top [49, 46, 53] = .ok (.Number (.Float (.finite (3 / 2)))) := by
  obtain ⟨hhex, hfrac, hexp, hnat, hneg, hrest⟩ := C6_classification
  have h12 : natBytes 12 = [49, 50] := by
    rw [natBytes]
    rw [natDigits]
    norm_num
    rw [natDigits]
    simp
  have h7 : natBytes 7 = [55] := by
    rw [natBytes, natDigits]
    simp
  have h1 : natBytes 1 = [49] := by
    rw [natBytes, natDigits]
    simp
  have h5 : natBytes 5 = [53] := by
    rw [natBytes, natDigits]
    simp
  have hl5 : (natDigits 5).length = 1 := by
    rw [natDigits]
    simp
  refine ⟨?_, ?_, ?_, ?_⟩
  · have h := (hhex 15 [70] (by decide)
      (by intro b hbm; simp at hbm; subst hbm; rw [isHexByte]; omega) rfl (by decide)).1
    exact h
  · have h := hnat 12
    rw [h12] at h
    rw [h]
    norm_num
  · have h := hneg 7
    rw [h7] at h
    rw [h]
    norm_num
  · have h := (hfrac 1 5).1
    rw [h1, h5, hl5] at h
    rw [show ([49, 46, 53] : List Nat) = [49] ++ 46 :: [53] from rfl]
    rw [h]
    norm_num

/-! ## UTF-8 encode/decode agreement -/

theorem char_toNat_valid (c : Char) :
    c.toNat < 0xD800 ∨ (0xE000 ≤ c.toNat ∧ c.toNat < 0x110000) := by
  have h := c.valid
  rcases h with h | ⟨h1, h2⟩
  · left
    exact h
  · right
    exact ⟨h1, h2⟩

theorem charFromU32_toNat (c : Char) : charFromU32 c.toNat = some c := by
  rw [charFromU32, if_pos (char_toNat_valid c), Char.ofNat_toNat]

theorem or_of_lt (i a b : Nat) (h : b < 2 ^ i) : 2 ^ i * a + b = 2 ^ i * a ||| b :=
  Nat.mul_add_lt_is_or h a

theorem or_shift6 (q r : Nat) (hr : r < 64) : (q <<< 6) ||| r = q * 64 + r := by
  rw [Nat.shiftLeft_eq]
  have h := or_of_lt 6 q r (by omega)
  rw [show q * 2 ^ 6 = 2 ^ 6 * q by ring, ← h]
  ring

theorem or_shift_12_6 (x y z : Nat) (hy : y < 64) (hz : z < 64) :
    (x <<< 12) ||| (y <<< 6) ||| z = x * 4096 + y * 64 + z := by
  rw [Nat.shiftLeft_eq, Nat.shiftLeft_eq]
  have h1 : x * 2 ^ 12 ||| y * 2 ^ 6 = x * 4096 + y * 64 := by
    have h := or_of_lt 12 x (y * 2 ^ 6) (by omega)
    rw [show x * 2 ^ 12 = 2 ^ 12 * x by ring, ← h]
    ring
  rw [h1]
  have h2 : x * 4096 + y * 64 ||| z = x * 4096 + y * 64 + z := by
    have h := or_of_lt 6 (x * 64 + y) z (by omega)
    rw [show x * 4096 + y * 64 = 2 ^ 6 * (x * 64 + y) by ring, ← h]
  rw [h2]

theorem or_shift_18_12_6 (w x y z : Nat) (hx : x < 64) (hy : y < 64) (hz : z < 64) :
    (w <<< 18) ||| (x <<< 12) ||| (y <<< 6) ||| z =
      w * 262144 + x * 4096 + y * 64 + z := by
  rw [Nat.shiftLeft_eq, Nat.shiftLeft_eq, Nat.shiftLeft_eq]
  have h1 : w * 2 ^ 18 ||| x * 2 ^ 12 = w * 262144 + x * 4096 := by
    have h := or_of_lt 18 w (x * 2 ^ 12) (by omega)
    rw [show w * 2 ^ 18 = 2 ^ 18 * w by ring, ← h]
    ring
  rw [h1]
  have h2 : w * 262144 + x * 4096 ||| y * 2 ^ 6 = w * 262144 + x * 4096 + y * 64 := by
    have h := or_of_lt 12 (w * 64 + x) (y * 2 ^ 6) (by omega)
    rw [show w * 262144 + x * 4096 = 2 ^ 12 * (w * 64 + x) by ring, ← h]
    ring
  rw [h2]
  have h3 : w * 262144 + x * 4096 + y * 64 ||| z =
      w * 262144 + x * 4096 + y * 64 + z := by
    have h := or_of_lt 6 (w * 4096 + x * 64 + y) z (by omega)
    rw [show w * 262144 + x * 4096 + y * 64 = 2 ^ 6 * (w * 4096 + x * 64 + y) by ring, ← h]
  rw [h3]

theorem and_C0_1F (q : Nat) (h : q < 32) : (0xC0 + q) &&& 0x1F = q := by
  interval_cases q <;> rfl

theorem and_C0_E0 (q : Nat) (h : q < 32) : (0xC0 + q) &&& 0xE0 = 0xC0 := by
  interval_cases q <;> rfl

theorem and_80_3F (r : Nat) (h : r < 64) : (0x80 + r) &&& 0x3F = r := by
  interval_cases r <;> rfl

theorem and_E0_0F (x : Nat) (h : x < 16) : (0xE0 + x) &&& 0x0F = x := by
  interval_cases x <;> rfl

theorem and_E0_E0 (x : Nat) (h : x < 16) : (0xE0 + x) &&& 0xE0 = 0xE0 := by
  interval_cases x <;> rfl

theorem and_E0_F0 (x : Nat) (h : x < 16) : (0xE0 + x) &&& 0xF0 = 0xE0 := by
  interval_cases x <;> rfl

theorem and_F0_07 (x : Nat) (h : x < 8) : (0xF0 + x) &&& 0x07 = x := by
  interval_cases x <;> rfl

theorem and_F0_E0 (x : Nat) (h : x < 8) : (0xF0 + x) &&& 0xE0 = 0xE0 := by
  interval_cases x <;> rfl

theorem and_F0_F0 (x : Nat) (h : x < 8) : (0xF0 + x) &&& 0xF0 = 0xF0 := by
  interval_cases x <;> rfl

theorem utf8EncodeChar_length_pos (c : Char) : 1 ≤ (utf8EncodeChar c).length := by
  rw [utf8EncodeChar]
  repeat' split
  all_goals simp

set_option maxHeartbeats 2000000 in
theorem decode_utf8_char_encode (inp : List Nat) (pos : Nat) (c : Char)
    (hseg : listSlice inp pos (pos + (utf8EncodeChar c).length) = utf8EncodeChar c) :
    decode_utf8_char inp pos = .ok (c, pos + (utf8EncodeChar c).length) := by
  have hvalid := char_toNat_valid c
  have hcf := charFromU32_toNat c
  by_cases h1 : c.toNat < 0x80
  · have henc : utf8EncodeChar c = [c.toNat] := by
      rw [utf8EncodeChar, if_pos h1]
    rw [henc] at hseg ⊢
    have hb0 : byteAt inp pos = some c.toNat := by
      have h := byteAt_of_slice inp [c.toNat] pos hseg 0 (by simp)
      rw [Nat.add_zero] at h
      exact h
    rw [decode_utf8_char, hb0]
    simp only [List.length_cons, List.length_nil]
    rw [if_pos h1, Char.ofNat_toNat]
  · by_cases h2 : c.toNat < 0x800
    · have henc : utf8EncodeChar c = [0xC0 + c.toNat / 64, 0x80 + c.toNat % 64] := by
        rw [utf8EncodeChar, if_neg h1, if_pos h2]
      rw [henc] at hseg ⊢
      have hb0 : byteAt inp pos = some (0xC0 + c.toNat / 64) := by
        have h := byteAt_of_slice inp _ pos hseg 0 (by simp)
        rw [Nat.add_zero] at h
        exact h
      have hb1 : byteAt inp (pos + 1) = some (0x80 + c.toNat % 64) := by
        exact byteAt_of_slice inp _ pos hseg 1 (by simp)
      have hq : c.toNat / 64 < 32 := by omega
      have hr : c.toNat % 64 < 64 := by omega
      rw [decode_utf8_char, hb0]
      simp only [List.length_cons, List.length_nil]
      rw [if_neg (by omega), if_pos (by rw [and_C0_E0 _ hq]), hb1]
      simp only []
      rw [and_C0_1F _ hq, and_80_3F _ hr, or_shift6 _ _ hr]
      rw [show c.toNat / 64 * 64 + c.toNat % 64 = c.toNat by omega, hcf]
    · by_cases h3 : c.toNat < 0x10000
      · have henc : utf8EncodeChar c =
            [0xE0 + c.toNat / 4096, 0x80 + c.toNat / 64 % 64, 0x80 + c.toNat % 64] := by
          rw [utf8EncodeChar, if_neg h1, if_neg h2, if_pos h3]
        rw [henc] at hseg ⊢
        have hb0 : byteAt inp pos = some (0xE0 + c.toNat / 4096) := by
          have h := byteAt_of_slice inp _ pos hseg 0 (by simp)
          rw [Nat.add_zero] at h
          exact h
        have hb1 : byteAt inp (pos + 1) = some (0x80 + c.toNat / 64 % 64) :=
          byteAt_of_slice inp _ pos hseg 1 (by simp)
        have hb2 : byteAt inp (pos + 2) = some (0x80 + c.toNat % 64) :=
          byteAt_of_slice inp _ pos hseg 2 (by simp)
        have hx : c.toNat / 4096 < 16 := by omega
        have hy : c.toNat / 64 % 64 < 64 := by omega
        have hz : c.toNat % 64 < 64 := by omega
        rw [decode_utf8_char, hb0]
        simp only [List.length_cons, List.length_nil]
        rw [if_neg (by omega), if_neg (by rw [and_E0_E0 _ hx]; omega),
          if_pos (by rw [and_E0_F0 _ hx]), hb1, hb2]
        simp only []
        rw [and_E0_0F _ hx, and_80_3F _ hy, and_80_3F _ hz, or_shift_12_6 _ _ _ hy hz]
        rw [show c.toNat / 4096 * 4096 + c.toNat / 64 % 64 * 64 + c.toNat % 64 = c.toNat by
          omega, hcf]
      · have henc : utf8EncodeChar c =
            [0xF0 + c.toNat / 262144, 0x80 + c.toNat / 4096 % 64,
             0x80 + c.toNat / 64 % 64, 0x80 + c.toNat % 64] := by
          rw [utf8EncodeChar, if_neg h1, if_neg h2, if_neg h3]
        rw [henc] at hseg ⊢
        have hb0 : byteAt inp pos = some (0xF0 + c.toNat / 262144) := by
          have h := byteAt_of_slice inp _ pos hseg 0 (by simp)
          rw [Nat.add_zero] at h
          exact h
        have hb1 : byteAt inp (pos + 1) = some (0x80 + c.toNat / 4096 % 64) :=
          byteAt_of_slice inp _ pos hseg 1 (by simp)
        have hb2 : byteAt inp (pos + 2) = some (0x80 + c.toNat / 64 % 64) :=
          byteAt_of_slice inp _ pos hseg 2 (by simp)
        have hb3 : byteAt inp (pos + 3) = some (0x80 + c.toNat % 64) :=
          byteAt_of_slice inp _ pos hseg 3 (by simp)
        have hw : c.toNat / 262144 < 8 := by omega
        have hx : c.toNat / 4096 % 64 < 64 := by omega
        have hy : c.toNat / 64 % 64 < 64 := by omega
        have hz : c.toNat % 64 < 64 := by omega
        rw [decode_utf8_char, hb0]
        simp only [List.length_cons, List.length_nil]
        rw [if_neg (by omega), if_neg (by rw [and_F0_E0 _ hw]; omega),
          if_neg (by rw [and_F0_F0 _ hw]; omega), hb1, hb2, hb3]
        simp only []
        rw [and_F0_07 _ hw, and_80_3F _ hx, and_80_3F _ hy, and_80_3F _ hz,
          or_shift_18_12_6 _ _ _ _ hx hy hz]
        rw [show c.toNat / 262144 * 262144 + c.toNat / 4096 % 64 * 4096 +
          c.toNat / 64 % 64 * 64 + c.toNat % 64 = c.toNat by omega, hcf]

set_option maxHeartbeats 2000000 in
theorem fromUtf8_encodeChar (c : Char) (rest : List Nat) :
    fromUtf8 (utf8EncodeChar c ++ rest) = (fromUtf8 rest).map (fun s => c :: s) := by
  have hvalid := char_toNat_valid c
  by_cases h1 : c.toNat < 0x80
  · rw [show utf8EncodeChar c = [c.toNat] from by rw [utf8EncodeChar, if_pos h1]]
    rw [List.cons_append, List.nil_append, fromUtf8, if_pos h1, Char.ofNat_toNat]
  · by_cases h2 : c.toNat < 0x800
    · rw [show utf8EncodeChar c = [0xC0 + c.toNat / 64, 0x80 + c.toNat % 64] from by
        rw [utf8EncodeChar, if_neg h1, if_pos h2]]
      simp only [List.cons_append, List.nil_append]
      rw [fromUtf8]
      rw [if_neg (by omega), if_pos (by omega)]
      rw [utf8Cont2]
      rw [if_pos (by omega)]
      rw [show 0xC0 + c.toNat / 64 - 0xC0 = c.toNat / 64 by omega]
      rw [show 0x80 + c.toNat % 64 - 0x80 = c.toNat % 64 by omega]
      rw [show c.toNat / 64 * 64 + c.toNat % 64 = c.toNat by omega]
      rw [Char.ofNat_toNat]
    · by_cases h3 : c.toNat < 0x10000
      · rw [show utf8EncodeChar c =
            [0xE0 + c.toNat / 4096, 0x80 + c.toNat / 64 % 64, 0x80 + c.toNat % 64] from by
          rw [utf8EncodeChar, if_neg h1, if_neg h2, if_pos h3]]
        simp only [List.cons_append, List.nil_append]
        have hcond : ((if 0xE0 + c.toNat / 4096 = 0xE0 then 0xA0 else 0x80) ≤
              0x80 + c.toNat / 64 % 64 ∧
            0x80 + c.toNat / 64 % 64 ≤ (if 0xE0 + c.toNat / 4096 = 0xED then 0x9F else 0xBF)) ∧
            (0x80 ≤ 0x80 + c.toNat % 64 ∧ 0x80 + c.toNat % 64 ≤ 0xBF) := by
          refine ⟨⟨?_, ?_⟩, by omega, by omega⟩
          · split
            · rename_i hsp
              omega
            · omega
          · split
            · rename_i hsp
              omega
            · omega
        rw [fromUtf8]
        rw [if_neg (by omega), if_neg (by omega), if_pos (by omega)]
        rw [utf8Cont3]
        rw [if_pos hcond]
        rw [show 0xE0 + c.toNat / 4096 - 0xE0 = c.toNat / 4096 by omega]
        rw [show 0x80 + c.toNat / 64 % 64 - 0x80 = c.toNat / 64 % 64 by omega]
        rw [show 0x80 + c.toNat % 64 - 0x80 = c.toNat % 64 by omega]
        rw [show c.toNat / 4096 * 4096 + c.toNat / 64 % 64 * 64 + c.toNat % 64 =
          c.toNat by omega]
        rw [Char.ofNat_toNat]
      · rw [show utf8EncodeChar c =
            [0xF0 + c.toNat / 262144, 0x80 + c.toNat / 4096 % 64,
             0x80 + c.toNat / 64 % 64, 0x80 + c.toNat % 64] from by
          rw [utf8EncodeChar, if_neg h1, if_neg h2, if_neg h3]]
        simp only [List.cons_append, List.nil_append]
        have hcond : ((if 0xF0 + c.toNat / 262144 = 0xF0 then 0x90 else 0x80) ≤
              0x80 + c.toNat / 4096 % 64 ∧
            0x80 + c.toNat / 4096 % 64 ≤
              (if 0xF0 + c.toNat / 262144 = 0xF4 then 0x8F else 0xBF)) ∧
            (0x80 ≤ 0x80 + c.toNat / 64 % 64 ∧ 0x80 + c.toNat / 64 % 64 ≤ 0xBF) ∧
            (0x80 ≤ 0x80 + c.toNat % 64 ∧ 0x80 + c.toNat % 64 ≤ 0xBF) := by
          refine ⟨⟨?_, ?_⟩, ⟨by omega, by omega⟩, by omega, by omega⟩
          · split
            · rename_i hsp
              omega
            · omega
          · split
            · rename_i hsp
              omega
            · omega
        rw [fromUtf8]
        rw [if_neg (by omega), if_neg (by omega), if_neg (by omega), if_pos (by omega)]
        rw [utf8Cont4]
        rw [if_pos hcond]
        rw [show 0xF0 + c.toNat / 262144 - 0xF0 = c.toNat / 262144 by omega]
        rw [show 0x80 + c.toNat / 4096 % 64 - 0x80 = c.toNat / 4096 % 64 by omega]
        rw [show 0x80 + c.toNat / 64 % 64 - 0x80 = c.toNat / 64 % 64 by omega]
        rw [show 0x80 + c.toNat % 64 - 0x80 = c.toNat % 64 by omega]
        rw [show c.toNat / 262144 * 262144 + c.toNat / 4096 % 64 * 4096 +
          c.toNat / 64 % 64 * 64 + c.toNat % 64 = c.toNat by omega]
        rw [Char.ofNat_toNat]

theorem fromUtf8_encode_append (s : List Char) (rest : List Nat) :
    fromUtf8 (utf8Encode s ++ rest) = (fromUtf8 rest).map (fun t => s ++ t) := by
  induction s with
  | nil =>
      rw [utf8Encode]
      simp only [List.map_nil, List.flatten_nil, List.nil_append]
      cases fromUtf8 rest <;> simp
  | cons c cs ih =>
      have he : utf8Encode (c :: cs) = utf8EncodeChar c ++ utf8Encode cs := by
        rw [utf8Encode, utf8Encode]
        simp
      rw [he, List.append_assoc, fromUtf8_encodeChar, ih]
      cases fromUtf8 rest <;> simp

theorem fromUtf8_encode (s : List Char) : fromUtf8 (utf8Encode s) = some s := by
  have h := fromUtf8_encode_append s []
  rw [show fromUtf8 ([] : List Nat) = some [] from rfl] at h
  simpa using h

theorem listSlice_prefix (seg rest : List Nat) :
    listSlice (seg ++ rest) 0 seg.length = seg := by
  rw [listSlice]
  simp [List.take_left]

theorem fastScan_plain (inp : List Nat) (quote e : Nat)
    (hq : byteAt inp e = some quote) :
    ∀ fuel pos esc, pos ≤ e → e < fuel + pos →
      (∀ i, pos ≤ i → i < e → ∃ b, byteAt inp i = some b ∧ b ≠ quote ∧ b ≠ 92 ∧ 0x20 ≤ b) →
      fastScan inp quote fuel pos esc = .ok (e, esc) := by
  intro fuel
  induction fuel with
  | zero =>
      intro pos esc h1 h2 _
      omega
  | succ fuel ih =>
      intro pos esc h1 h2 hall
      rw [fastScan]
      by_cases hpe : pos = e
      · subst hpe
        rw [hq]
        simp only []
        rw [if_pos trivial]
      · obtain ⟨b, hb, hbq, hb92, hb20⟩ := hall pos (le_refl _) (by omega)
        rw [hb]
        simp only []
        rw [if_neg hbq, if_neg hb92, if_neg (by omega), if_neg (by omega)]
        exact ih (pos + 1) esc (by omega) (by omega) (fun i hi1 hi2 => hall i (by omega) hi2)

theorem utf8EncodeChar_head (c : Char) :
    ∃ b0 t, utf8EncodeChar c = b0 :: t ∧ (b0 = c.toNat ∨ 0xC2 ≤ b0) := by
  have hvalid := char_toNat_valid c
  rw [utf8EncodeChar]
  by_cases h1 : c.toNat < 0x80
  · rw [if_pos h1]
    exact ⟨c.toNat, [], rfl, Or.inl rfl⟩
  · rw [if_neg h1]
    by_cases h2 : c.toNat < 0x800
    · rw [if_pos h2]
      exact ⟨_, _, rfl, Or.inr (by omega)⟩
    · rw [if_neg h2]
      by_cases h3 : c.toNat < 0x10000
      · rw [if_pos h3]
        exact ⟨_, _, rfl, Or.inr (by omega)⟩
      · rw [if_neg h3]
        exact ⟨_, _, rfl, Or.inr (by omega)⟩

theorem utf8EncodeChar_bytes (c : Char) :
    ∀ b ∈ utf8EncodeChar c, b = c.toNat ∨ 0x80 ≤ b := by
  intro b hb
  rw [utf8EncodeChar] at hb
  by_cases h1 : c.toNat < 0x80
  · rw [if_pos h1] at hb
    simp at hb
    exact Or.inl hb
  · rw [if_neg h1] at hb
    by_cases h2 : c.toNat < 0x800
    · rw [if_pos h2] at hb
      simp at hb
      rcases hb with hb | hb <;> omega
    · rw [if_neg h2] at hb
      by_cases h3 : c.toNat < 0x10000
      · rw [if_pos h3] at hb
        simp at hb
        rcases hb with hb | hb | hb <;> omega
      · rw [if_neg h3] at hb
        simp at hb
        rcases hb with hb | hb | hb | hb <;> omega

theorem utf8Encode_bytes_plain (quote : Nat) (hquote : quote < 0x80) (s : List Char)
    (hs : ∀ c ∈ s, plainChar quote c) :
    ∀ b ∈ utf8Encode s, b ≠ quote ∧ b ≠ 92 ∧ 0x20 ≤ b := by
  intro b hb
  rw [utf8Encode] at hb
  rw [List.mem_flatten] at hb
  obtain ⟨l, hl, hbl⟩ := hb
  rw [List.mem_map] at hl
  obtain ⟨c, hc, hcl⟩ := hl
  subst hcl
  obtain ⟨hp1, hp2, hp3⟩ := hs c hc
  rcases utf8EncodeChar_bytes c b hbl with hbv | hbv
  · subst hbv
    exact ⟨hp2, hp3, hp1⟩
  · refine ⟨by omega, by omega, by omega⟩

set_option maxHeartbeats 1000000 in
theorem slowRebuild_encode (quote : Nat) (hquote : quote < 0x80) (rest : List Nat) :
    ∀ (s : List Char) (pre : List Nat) (out : List Char) (fuel : Nat),
      (utf8Encode s).length + 1 ≤ fuel →
      (∀ c ∈ s, plainChar quote c) →
      slowRebuild (pre ++ utf8Encode s ++ quote :: rest) quote fuel pre.length out =
        .ok (out ++ s, pre.length + (utf8Encode s).length + 1) := by
  intro s
  induction s with
  | nil =>
      intro pre out fuel hfuel _
      cases fuel with
      | zero => omega
      | succ fuel =>
          rw [slowRebuild]
          have hb : byteAt (pre ++ utf8Encode [] ++ quote :: rest) pre.length = some quote := by
            rw [utf8Encode]
            simp only [List.map_nil, List.flatten_nil, List.append_nil]
            have h := byteAt_after pre (quote :: rest) 0
            rw [Nat.add_zero] at h
            exact h
          rw [hb]
          simp only []
          rw [if_pos trivial]
          simp [utf8Encode]
  | cons c cs ih =>
      intro pre out fuel hfuel hall
      have hk1 := utf8EncodeChar_length_pos c
      have hel : utf8Encode (c :: cs) = utf8EncodeChar c ++ utf8Encode cs := by
        rw [utf8Encode, utf8Encode]
        simp
      cases fuel with
      | zero =>
          rw [hel] at hfuel
          simp only [List.length_append] at hfuel
          omega
      | succ fuel =>
          obtain ⟨b0, t, hcons, hb0v⟩ := utf8EncodeChar_head c
          obtain ⟨hp1, hp2, hp3⟩ := hall c (by simp)
          have hinp : pre ++ utf8Encode (c :: cs) ++ quote :: rest =
              pre ++ utf8EncodeChar c ++ (utf8Encode cs ++ quote :: rest) := by
            rw [hel]
            simp
          have hseg : listSlice (pre ++ utf8Encode (c :: cs) ++ quote :: rest) pre.length
              (pre.length + (utf8EncodeChar c).length) = utf8EncodeChar c := by
            rw [hinp]
            exact listSlice_mid pre (utf8EncodeChar c) (utf8Encode cs ++ quote :: rest)
          have hb0 : byteAt (pre ++ utf8Encode (c :: cs) ++ quote :: rest) pre.length =
              some b0 := by
            have h := byteAt_of_slice _ (utf8EncodeChar c) pre.length hseg 0 (by omega)
            rw [Nat.add_zero, hcons] at h
            exact h
          have hdec := decode_utf8_char_encode _ pre.length c hseg
          rw [slowRebuild, hb0]
          simp only []
          rw [if_neg (by omega), if_neg (by omega)]
          rw [hdec]
          simp only []
          rw [if_neg (by
            intro hc
            rcases hc with hc | hc <;> (subst hc; revert hp1; decide))]
          have hih := ih (pre ++ utf8EncodeChar c) (out ++ [c]) fuel
            (by rw [hel] at hfuel; simp at hfuel ⊢; omega)
            (fun x hx => hall x (by simp [hx]))
          rw [show (pre ++ utf8EncodeChar c).length = pre.length + (utf8EncodeChar c).length
            from by simp] at hih
          rw [hinp, ← List.append_assoc, hih]
          rw [hel]
          simp
          omega

/-- C7 counterexample: on byte-identical string-literal input, the fast
path and the forced slow path genuinely disagree.  A control byte `0x01`
between single quotes: the fast scan rejects it, the slow rebuild
accepts it as the character U+0001.  An overlong two-byte sequence
`C0 AF`: std UTF-8 validation on the zero-copy path rejects it, the slow
path's permissive decoder accepts it as `/`. -/
theorem C7_counterexample :
    parse_string [39, 1, 39] 0 = .error (.UnexpectedChar '\x01' 1) ∧
    slowRebuild [39, 1, 39] 39 4 1 [] = .ok (['\x01'], 3) ∧
    parse_string [39, 0xC0, 0xAF, 39] 0 = .error (.Custom "Invalid UTF-8 in string") ∧
    slowRebuild [39, 0xC0, 0xAF, 39] 39 5 1 [] = .ok (['/'], 4) :=
  ⟨rfl, rfl, rfl, rfl⟩

/-- C7 (amended): on escape-free contents that are valid UTF-8 without
control bytes, quote or backslash bytes, the zero-copy fast path (which
`parse_string_contents` takes) and the forced slow rebuild produce the
same string and the same final position. -/
theorem C7_path_equivalence (quote : Nat) (hquote : quote = 34 ∨ quote = 39)
    (s : List Char) (hs : ∀ c ∈ s, plainChar quote c) (rest : List Nat) :
    parse_string_contents (utf8Encode s ++ quote :: rest) quote 0 =
      .ok (s, (utf8Encode s).length + 1) ∧
    slowRebuild (utf8Encode s ++ quote :: rest) quote
        ((utf8Encode s ++ quote :: rest).length + 1) 0 [] =
      .ok (s, (utf8Encode s).length + 1) := by
  have hq80 : quote < 0x80 := by omega
  have hq : byteAt (utf8Encode s ++ quote :: rest) (utf8Encode s).length = some quote := by
    have h := byteAt_after (utf8Encode s) (quote :: rest) 0
    rw [Nat.add_zero] at h
    exact h
  have hplain := utf8Encode_bytes_plain quote hq80 s hs
  have hall : ∀ i, 0 ≤ i → i < (utf8Encode s).length →
      ∃ b, byteAt (utf8Encode s ++ quote :: rest) i = some b ∧
        b ≠ quote ∧ b ≠ 92 ∧ 0x20 ≤ b := by
    intro i h0 hi
    cases hg : (utf8Encode s).get? i with
    | none =>
        rw [List.get?_eq_none] at hg
        omega
    | some b =>
        refine ⟨b, ?_, hplain b (List.get?_mem hg)⟩
        rw [byteAt, List.get?_append (by omega)]
        exact hg
  have hfast := fastScan_plain (utf8Encode s ++ quote :: rest) quote
    (utf8Encode s).length hq ((utf8Encode s ++ quote :: rest).length + 1) 0 false
    (by omega) (by simp only [List.length_append, List.length_cons]; omega) hall
  have hslow := slowRebuild_encode quote hq80 rest s [] []
    ((utf8Encode s ++ quote :: rest).length + 1)
    (by simp only [List.length_append, List.length_cons]; omega) hs
  simp only [List.nil_append, List.length_nil, Nat.zero_add] at hslow
  constructor
  · rw [parse_string_contents, hfast]
    simp only []
    rw [show listSlice (utf8Encode s ++ quote :: rest) 0 (utf8Encode s).length =
      utf8Encode s from listSlice_prefix _ _]
    rw [fromUtf8_encode]
    simp
  · exact hslow

/-- Witness: both paths on the single-quoted contents `ab.` -/
theorem C7_path_equivalence_witness :
    parse_string_contents [97, 98, 39] 39 0 = .ok (['a', 'b'], 3) ∧
    slowRebuild [97, 98, 39] 39 4 0 [] = .ok (['a', 'b'], 3) := by
  have h := C7_path_equivalence 39 (Or.inr rfl) ['a', 'b']
    (by intro c hc; simp at hc; rcases hc with hc | hc <;>
      (subst hc; exact ⟨by decide, by decide, by decide⟩)) []
  rw [show utf8Encode ['a', 'b'] = [97, 98] from rfl] at h
  simpa using h

theorem keyAbsent_append (k : List Char) (a b : List (List Char × Value)) :
    keyAbsent k (a ++ b) = (keyAbsent k a && keyAbsent k b) := by
  induction a with
  | nil => simp [keyAbsent]
  | cons p rest ih =>
      obtain ⟨k', v⟩ := p
      rw [List.cons_append, keyAbsent, keyAbsent, ih]
      rw [Bool.and_assoc]

theorem mapInsert_of_absent (k : List Char) (v : Value) (m : List (List Char × Value))
    (h : keyAbsent k m = true) : mapInsert k v m = m ++ [(k, v)] := by
  rw [mapInsert, if_neg]
  intro hany
  rw [List.any_eq_true] at hany
  obtain ⟨p, hmem, hk⟩ := hany
  have hne := keyAbsent_ne k m h p hmem
  simp at hk
  exact hne hk

theorem reserAux (N : Nat) :
    ∀ v, sizeOf v ≤ N → valueGood v = true → valueReser v = v := by
  induction N with
  | zero =>
      intro v hsz
      exact absurd (value_sizeOf_pos v) (by omega)
  | succ N ih =>
    intro v hsz hg
    cases v with
    | Null => rfl
    | Bool b => rfl
    | String s => rfl
    | Number n =>
        cases n with
        | Int i => rfl
        | Uint u => rfl
        | NaN => simp [valueGood, numberGood] at hg
        | Infinity => rfl
        | NegInfinity => rfl
        | Float f =>
            cases f with
            | finite q => rfl
            | inf => simp [valueGood, numberGood] at hg
            | neginf => simp [valueGood, numberGood] at hg
            | nan => simp [valueGood, numberGood] at hg
    | Array a =>
        have hszc : ∀ c ∈ a, sizeOf c ≤ N := by
          intro c hc
          have h1 := List.sizeOf_lt_of_mem hc
          simp only [Value.Array.sizeOf_spec] at hsz
          omega
        have hgl : valueGoodList a = true := by
          rw [valueGood] at hg
          exact hg
        rw [valueReser]
        have hlist : ∀ l, (∀ c ∈ l, sizeOf c ≤ N) → valueGoodList l = true →
            valueReserList l = l := by
          intro l hl
          induction l with
          | nil => intro _; rfl
          | cons x xs ihl =>
              intro hgl2
              rw [valueGoodList, Bool.and_eq_true] at hgl2
              rw [valueReserList, ih x (hl x (by simp)) hgl2.1,
                ihl (fun c hc => hl c (by simp [hc])) hgl2.2]
        rw [hlist a hszc hgl]
    | Object o =>
        have hszp : ∀ p ∈ o, sizeOf p.2 ≤ N := by
          intro p hp
          have h1 := List.sizeOf_lt_of_mem hp
          have h2 : sizeOf p.2 < sizeOf p := by
            obtain ⟨a, b⟩ := p
            simp [Prod.mk.sizeOf_spec]
          simp only [Value.Object.sizeOf_spec] at hsz
          omega
        have hgp : valueGoodPairs o = true := by
          rw [valueGood] at hg
          exact hg
        rw [valueReser]
        have haux : ∀ l, (∀ p ∈ l, sizeOf p.2 ≤ N) → valueGoodPairs l = true →
            ∀ acc, (∀ p ∈ l, keyAbsent p.1 acc = true) →
            valueReserPairs l acc = acc ++ l := by
          intro l hl
          induction l with
          | nil =>
              intro _ acc _
              rw [valueReserPairs]
              simp
          | cons p rest ihl =>
              intro hgl acc hacc
              obtain ⟨k, w⟩ := p
              rw [valueGoodPairs] at hgl
              simp only [Bool.and_eq_true] at hgl
              obtain ⟨⟨hw, habs⟩, hrest⟩ := hgl
              rw [valueReserPairs]
              rw [ih w (hl (k, w) (by simp)) hw]
              rw [mapInsert_of_absent k w acc (hacc (k, w) (by simp))]
              rw [ihl (fun p hp => hl p (by simp [hp])) hrest (acc ++ [(k, w)]) ?_]
              · simp
              · intro p hp
                rw [keyAbsent_append, Bool.and_eq_true]
                refine ⟨hacc p (by simp [hp]), ?_⟩
                have hne := keyAbsent_ne k rest habs p hp
                rw [keyAbsent, keyAbsent]
                simp
                intro hcontra
                exact hne hcontra.symm
        have h0 : ∀ p ∈ o, keyAbsent p.1 ([] : List (List Char × Value)) = true := by
          intro p _
          rfl
        rw [haux o hszp hgp [] h0]
        simp

theorem valueReser_good (v : Value) (hg : valueGood v = true) : valueReser v = v :=
  reserAux (sizeOf v) v (le_refl _) hg

theorem utf8Encode_append (a b : List Char) :
    utf8Encode (a ++ b) = utf8Encode a ++ utf8Encode b := by
  rw [utf8Encode, utf8Encode, utf8Encode]
  simp

theorem utf8Encode_cons (c : Char) (s : List Char) :
    utf8Encode (c :: s) = utf8EncodeChar c ++ utf8Encode s := by
  rw [utf8Encode, utf8Encode]
  simp

theorem utf8EncodeChar_ascii (c : Char) (h : c.toNat < 0x80) :
    utf8EncodeChar c = [c.toNat] := by
  rw [utf8EncodeChar, if_pos h]

theorem utf8Encode_ascii (s : List Char) (h : ∀ c ∈ s, c.toNat < 0x80) :
    utf8Encode s = s.map Char.toNat := by
  induction s with
  | nil => rfl
  | cons c cs ih =>
      rw [utf8Encode_cons, utf8EncodeChar_ascii c (h c (by simp)),
        ih (fun c hc => h c (by simp [hc])), List.map_cons]
      rfl

theorem utf8Encode_natDigits (n : Nat) : utf8Encode (natDigits n) = natBytes n := by
  rw [utf8Encode_ascii, natBytes]
  intro c hc
  have := natDigits_digits n c hc
  omega

theorem sliceEq_of_seg (inp : List Nat) (pos : Nat) (pat : List Nat)
    (hseg : listSlice inp pos (pos + pat.length) = pat)
    (hlen : pos + pat.length ≤ inp.length) :
    sliceEq inp pos (pos + pat.length) pat = true := by
  rw [sliceEq, hseg]
  simp
  omega

theorem numStop_of_restOk (pre rest : List Nat) (e : Nat) (he : e = pre.length)
    (h : restOk rest) :
    byteAt (pre ++ rest) e = none ∨
      ∃ r, byteAt (pre ++ rest) e = some r ∧
        ¬(48 ≤ r ∧ r ≤ 57) ∧ r ≠ 95 ∧ r ≠ 46 ∧ r ≠ 101 ∧ r ≠ 69 ∧ r ≠ 120 ∧ r ≠ 88 := by
  subst he
  have hb := byteAt_after pre rest 0
  rw [Nat.add_zero] at hb
  rcases h with h | ⟨b, rs, hr, hb44⟩
  · subst h
    left
    rw [hb]
    rfl
  · subst hr
    right
    refine ⟨b, ?_, by omega, by omega, by omega, by omega, by omega, by omega, by omega⟩
    rw [hb]
    rfl

theorem inp_length_ctx (pre seg rest : List Nat) :
    (pre ++ seg ++ rest).length = pre.length + seg.length + rest.length := by
  simp
  omega

set_option maxHeartbeats 1000000 in
theorem pv_null (inp pre rest : List Nat) (fuel : Nat)
    (hinp : inp = pre ++ strBytes "null" ++ rest) :
    parse_value inp (fuel + 1) pre.length = .ok (.Null, pre.length + 4) := by
  have hb0 : byteAt inp pre.length = some 110 := by
    rw [hinp]
    have h := byteAt_mid pre (strBytes "null") rest 0 (by decide)
    rw [Nat.add_zero] at h
    exact h
  have hskip := skip_noop_at inp pre.length 110 hb0 (by omega)
  have hsl : sliceEq inp pre.length (pre.length + 4) (strBytes "null") = true := by
    rw [hinp]
    have h := sliceEq_of_seg _ pre.length (strBytes "null")
      (listSlice_mid pre (strBytes "null") rest)
      (by rw [inp_length_ctx]; omega)
    simpa using h
  norm_num [parse_value, hskip, hb0, parse_null, hsl]

set_option maxHeartbeats 1000000 in
theorem pv_true (inp pre rest : List Nat) (fuel : Nat)
    (hinp : inp = pre ++ strBytes "true" ++ rest) :
    parse_value inp (fuel + 1) pre.length = .ok (.Bool true, pre.length + 4) := by
  have hb0 : byteAt inp pre.length = some 116 := by
    rw [hinp]
    have h := byteAt_mid pre (strBytes "true") rest 0 (by decide)
    rw [Nat.add_zero] at h
    exact h
  have hskip := skip_noop_at inp pre.length 116 hb0 (by omega)
  have hsl : sliceEq inp pre.length (pre.length + 4) (strBytes "true") = true := by
    rw [hinp]
    have h := sliceEq_of_seg _ pre.length (strBytes "true")
      (listSlice_mid pre (strBytes "true") rest)
      (by rw [inp_length_ctx]; omega)
    simpa using h
  norm_num [parse_value, hskip, hb0, parse_bool, hsl]

set_option maxHeartbeats 1000000 in
theorem pv_false (inp pre rest : List Nat) (fuel : Nat)
    (hinp : inp = pre ++ strBytes "false" ++ rest) :
    parse_value inp (fuel + 1) pre.length = .ok (.Bool false, pre.length + 5) := by
  have hb0 : byteAt inp pre.length = some 102 := by
    rw [hinp]
    have h := byteAt_mid pre (strBytes "false") rest 0 (by decide)
    rw [Nat.add_zero] at h
    exact h
  have hskip := skip_noop_at inp pre.length 102 hb0 (by omega)
  have hsl : sliceEq inp pre.length (pre.length + 5) (strBytes "false") = true := by
    rw [hinp]
    have h := sliceEq_of_seg _ pre.length (strBytes "false")
      (listSlice_mid pre (strBytes "false") rest)
      (by rw [inp_length_ctx]; omega)
    simpa using h
  have hsl2 : sliceEq inp pre.length (pre.length + 4) (strBytes "true") = false :=
    sliceEq_false_head inp pre.length (pre.length + 4) 102 116 _ hb0 (by omega) (by omega)
  norm_num [parse_value, hskip, hb0, parse_bool, hsl, hsl2]

set_option maxHeartbeats 1000000 in
theorem pv_infinity (inp pre rest : List Nat) (fuel : Nat)
    (hinp : inp = pre ++ strBytes "Infinity" ++ rest) :
    parse_value inp (fuel + 1) pre.length =
      .ok (.Number .Infinity, pre.length + 8) := by
  have hb0 : byteAt inp pre.length = some 73 := by
    rw [hinp]
    have h := byteAt_mid pre (strBytes "Infinity") rest 0 (by decide)
    rw [Nat.add_zero] at h
    exact h
  have hskip := skip_noop_at inp pre.length 73 hb0 (by omega)
  have hsl : sliceEq inp pre.length (pre.length + 8) (strBytes "Infinity") = true := by
    rw [hinp]
    have h := sliceEq_of_seg _ pre.length (strBytes "Infinity")
      (listSlice_mid pre (strBytes "Infinity") rest)
      (by rw [inp_length_ctx]; omega)
    simpa using h
  norm_num [parse_value, hskip, hb0, hsl]

set_option maxHeartbeats 1000000 in
theorem pv_neginfinity (inp pre rest : List Nat) (fuel : Nat)
    (hinp : inp = pre ++ strBytes "-Infinity" ++ rest) :
    parse_value inp (fuel + 1) pre.length =
      .ok (.Number .NegInfinity, pre.length + 9) := by
  have hb0 : byteAt inp pre.length = some 45 := by
    rw [hinp]
    have h := byteAt_mid pre (strBytes "-Infinity") rest 0 (by decide)
    rw [Nat.add_zero] at h
    exact h
  have hskip := skip_noop_at inp pre.length 45 hb0 (by omega)
  have hinp2 : inp = (pre ++ [45]) ++ strBytes "Infinity" ++ rest := by
    rw [hinp, show strBytes "-Infinity" = 45 :: strBytes "Infinity" from rfl]
    simp
  have hsl : sliceEq inp (pre.length + 1) (pre.length + 9) (strBytes "Infinity") = true := by
    rw [hinp2]
    have h := sliceEq_of_seg _ (pre ++ [45]).length (strBytes "Infinity")
      (listSlice_mid (pre ++ [45]) (strBytes "Infinity") rest)
      (by rw [inp_length_ctx]; simp)
    simpa [show (pre ++ [45]).length = pre.length + 1 from by simp,
      show pre.length + 1 + 8 = pre.length + 9 from by omega] using h
  norm_num [parse_value, hskip, hb0, hsl]

theorem hseg_ctx (inp pre seg rest : List Nat) (hinp : inp = pre ++ seg ++ rest) :
    listSlice inp pre.length (pre.length + seg.length) = seg := by
  rw [hinp]
  exact listSlice_mid pre seg rest

theorem byteAt_head_ctx (inp pre rest : List Nat) (b : Nat) (t : List Nat)
    (hinp : inp = pre ++ (b :: t) ++ rest) :
    byteAt inp pre.length = some b := by
  rw [hinp]
  have h := byteAt_mid pre (b :: t) rest 0 (by simp)
  rw [Nat.add_zero] at h
  exact h

theorem numStop_ctx (inp pre seg rest : List Nat) (hinp : inp = pre ++ seg ++ rest)
    (h : restOk rest) :
    byteAt inp (pre.length + seg.length) = none ∨
      ∃ r, byteAt inp (pre.length + seg.length) = some r ∧
        ¬(48 ≤ r ∧ r ≤ 57) ∧ r ≠ 95 ∧ r ≠ 46 ∧ r ≠ 101 ∧ r ≠ 69 ∧ r ≠ 120 ∧ r ≠ 88 := by
  have h2 := numStop_of_restOk (pre ++ seg) rest (pre.length + seg.length) (by simp) h
  rw [show (pre ++ seg) ++ rest = inp from hinp.symm] at h2
  exact h2

theorem goodChar_plainChar (c : Char) (h : goodChar c = true) : plainChar 34 c := by
  rw [goodChar] at h
  simp only [Bool.and_eq_true, decide_eq_true_eq] at h
  exact ⟨h.1.1, h.1.2, h.2⟩

/-- `parse_string` in an arbitrary surrounding context, on a double-quoted
escape-free literal of printable characters. -/
theorem ps_ctx (inp pre rest : List Nat) (s : List Char)
    (hinp : inp = pre ++ (34 :: utf8Encode s ++ [34]) ++ rest)
    (hs : ∀ c ∈ s, goodChar c = true) :
    parse_string inp pre.length =
      .ok (s, pre.length + (utf8Encode s).length + 2) := by
  have hsp : ∀ c ∈ s, plainChar 34 c := fun c hc => goodChar_plainChar c (hs c hc)
  have hb0 : byteAt inp pre.length = some 34 := by
    rw [hinp]
    have h := byteAt_mid pre (34 :: utf8Encode s ++ [34]) rest 0 (by simp)
    rw [Nat.add_zero] at h
    exact h
  have hinp2 : inp = (pre ++ [34]) ++ utf8Encode s ++ 34 :: rest := by
    rw [hinp]
    simp
  have hlen1 : (pre ++ [34]).length = pre.length + 1 := by simp
  have hlen2 : (pre ++ [34] ++ utf8Encode s).length =
      pre.length + 1 + (utf8Encode s).length := by
    simp only [List.length_append, List.length_cons, List.length_nil]
  have he : byteAt inp (pre.length + 1 + (utf8Encode s).length) = some 34 := by
    have h2 := byteAt_after (pre ++ [34] ++ utf8Encode s) (34 :: rest) 0
    rw [Nat.add_zero, hlen2] at h2
    rw [hinp2]
    exact h2
  have hplain := utf8Encode_bytes_plain 34 (by omega) s hsp
  have hall : ∀ i, pre.length + 1 ≤ i → i < pre.length + 1 + (utf8Encode s).length →
      ∃ b, byteAt inp i = some b ∧ b ≠ 34 ∧ b ≠ 92 ∧ 0x20 ≤ b := by
    intro i h1 h2
    obtain ⟨j, hj⟩ : ∃ j, i = (pre ++ [34]).length + j :=
      ⟨i - (pre.length + 1), by rw [hlen1]; omega⟩
    have hjlt : j < (utf8Encode s).length := by
      rw [hlen1] at hj
      omega
    have hb := byteAt_mid (pre ++ [34]) (utf8Encode s) (34 :: rest) j hjlt
    cases hg : (utf8Encode s).get? j with
    | none =>
        rw [List.get?_eq_none] at hg
        omega
    | some b =>
        refine ⟨b, ?_, hplain b (List.get?_mem hg)⟩
        rw [hinp2, hj, hb, hg]
  have hfast := fastScan_plain inp 34 (pre.length + 1 + (utf8Encode s).length) he
    (inp.length + 1) (pre.length + 1) false (by omega)
    (by rw [hinp2]; simp only [List.length_append, List.length_cons]; omega) hall
  have hslice : listSlice inp (pre.length + 1) (pre.length + 1 + (utf8Encode s).length) =
      utf8Encode s := by
    have h := listSlice_mid (pre ++ [34]) (utf8Encode s) (34 :: rest)
    rw [hlen1] at h
    rw [hinp2]
    exact h
  rw [parse_string, hb0]
  simp only [parse_string_contents, hfast]
  rw [if_neg (by simp)]
  rw [hslice, fromUtf8_encode]
  simp only []
  rw [show pre.length + 1 + (utf8Encode s).length + 1 =
    pre.length + (utf8Encode s).length + 2 from by omega]

set_option maxHeartbeats 1000000 in
theorem pv_string (inp pre rest : List Nat) (fuel : Nat) (s : List Char)
    (hinp : inp = pre ++ (34 :: utf8Encode s ++ [34]) ++ rest)
    (hs : ∀ c ∈ s, goodChar c = true) :
    parse_value inp (fuel + 1) pre.length =
      .ok (.String s, pre.length + (utf8Encode s).length + 2) := by
  have hb0 : byteAt inp pre.length = some 34 := by
    rw [hinp]
    have h := byteAt_mid pre (34 :: utf8Encode s ++ [34]) rest 0 (by simp)
    rw [Nat.add_zero] at h
    exact h
  have hskip := skip_noop_at inp pre.length 34 hb0 (by omega)
  have hps := ps_ctx inp pre rest s hinp hs
  norm_num [parse_value, hskip, hb0, hps]

theorem natBytes_zero : natBytes 0 = [48] := by
  rw [natBytes, natDigits]
  simp

theorem natDigits_zero_length : (natDigits 0).length = 1 := by
  rw [natDigits]
  simp

set_option maxHeartbeats 1000000 in
theorem pvn_nat (inp pre rest : List Nat) (fuel n : Nat)
    (hinp : inp = pre ++ natBytes n ++ rest) (hrest : restOk rest) :
    parse_value inp (fuel + 1) pre.length = .ok (.Number
      (if n ≤ 2 ^ 63 - 1 then .Int (n : Int)
       else if n < 2 ^ 64 then .Uint n
       else .Float (.finite (n : ℚ))), pre.length + (natBytes n).length) := by
  cases hnb : natBytes n with
  | nil => exact absurd hnb (natBytes_ne_nil n)
  | cons b0 t =>
      obtain ⟨h48, h57⟩ : 48 ≤ b0 ∧ b0 ≤ 57 :=
        natBytes_digits n b0 (by rw [hnb]; simp)
      have hb0 : byteAt inp pre.length = some b0 :=
        byteAt_head_ctx inp pre rest b0 t (by rw [hinp, hnb])
      have hskip := skip_noop_at inp pre.length b0 hb0 (by omega)
      have hpv := parse_value_eq_parse_number inp fuel pre.length b0 hb0
        (Or.inl ⟨h48, h57⟩) hskip
      rw [hpv, parse_number_nonneg inp pre.length n
        (hseg_ctx inp pre (natBytes n) rest hinp)
        (numStop_ctx inp pre (natBytes n) rest hinp hrest)]
      rw [hnb]

set_option maxHeartbeats 1000000 in
theorem pvn_neg (inp pre rest : List Nat) (fuel n : Nat)
    (hinp : inp = pre ++ (45 :: natBytes n) ++ rest) (hrest : restOk rest)
    (hn : n ≤ 2 ^ 63) :
    parse_value inp (fuel + 1) pre.length =
      .ok (.Number (.Int (-(n : Int))), pre.length + (45 :: natBytes n).length) := by
  cases hnb : natBytes n with
  | nil => exact absurd hnb (natBytes_ne_nil n)
  | cons b0 t =>
      obtain ⟨h48, h57⟩ : 48 ≤ b0 ∧ b0 ≤ 57 :=
        natBytes_digits n b0 (by rw [hnb]; simp)
      have hb0 : byteAt inp pre.length = some 45 :=
        byteAt_head_ctx inp pre rest 45 (natBytes n) hinp
      have hb1 : byteAt inp (pre.length + 1) = some b0 := by
        rw [hinp, hnb]
        exact byteAt_mid pre (45 :: b0 :: t) rest 1 (by simp)
      have hskip := skip_noop_at inp pre.length 45 hb0 (by omega)
      have hsl : sliceEq inp (pre.length + 1) (pre.length + 9) (strBytes "Infinity") = false :=
        sliceEq_false_head inp (pre.length + 1) (pre.length + 9) b0 73 _ hb1
          (by omega) (by omega)
      have hpv := parse_value_minus_number inp fuel pre.length hb0 hsl hskip
      rw [hpv, parse_number_neg inp pre.length n
        (hseg_ctx inp pre (45 :: natBytes n) rest hinp)
        (numStop_ctx inp pre (45 :: natBytes n) rest hinp hrest)]
      rw [if_pos hn, hnb]

set_option maxHeartbeats 1000000 in
theorem pvn_frac (inp pre rest : List Nat) (fuel n m : Nat)
    (hinp : inp = pre ++ (natBytes n ++ 46 :: natBytes m) ++ rest) (hrest : restOk rest) :
    parse_value inp (fuel + 1) pre.length = .ok (.Number (.Float (.finite
      ((n : ℚ) + (m : ℚ) / (10 ^ (natDigits m).length : ℚ)))),
      pre.length + (natBytes n ++ 46 :: natBytes m).length) := by
  cases hnb : natBytes n with
  | nil => exact absurd hnb (natBytes_ne_nil n)
  | cons b0 t =>
      obtain ⟨h48, h57⟩ : 48 ≤ b0 ∧ b0 ≤ 57 :=
        natBytes_digits n b0 (by rw [hnb]; simp)
      have hb0 : byteAt inp pre.length = some b0 :=
        byteAt_head_ctx inp pre rest b0 (t ++ 46 :: natBytes m)
          (by rw [hinp, hnb]; simp)
      have hskip := skip_noop_at inp pre.length b0 hb0 (by omega)
      have hpv := parse_value_eq_parse_number inp fuel pre.length b0 hb0
        (Or.inl ⟨h48, h57⟩) hskip
      rw [hpv, parse_number_frac inp pre.length n m
        (hseg_ctx inp pre (natBytes n ++ 46 :: natBytes m) rest hinp)
        (numStop_ctx inp pre (natBytes n ++ 46 :: natBytes m) rest hinp hrest)]
      rw [hnb]

set_option maxHeartbeats 1000000 in
theorem pvn_frac_neg (inp pre rest : List Nat) (fuel n m : Nat)
    (hinp : inp = pre ++ (45 :: (natBytes n ++ 46 :: natBytes m)) ++ rest)
    (hrest : restOk rest) :
    parse_value inp (fuel + 1) pre.length = .ok (.Number (.Float (.finite
      (-((n : ℚ) + (m : ℚ) / (10 ^ (natDigits m).length : ℚ))))),
      pre.length + (45 :: (natBytes n ++ 46 :: natBytes m)).length) := by
  cases hnb : natBytes n with
  | nil => exact absurd hnb (natBytes_ne_nil n)
  | cons b0 t =>
      obtain ⟨h48, h57⟩ : 48 ≤ b0 ∧ b0 ≤ 57 :=
        natBytes_digits n b0 (by rw [hnb]; simp)
      have hb0 : byteAt inp pre.length = some 45 :=
        byteAt_head_ctx inp pre rest 45 (natBytes n ++ 46 :: natBytes m) hinp
      have hb1 : byteAt inp (pre.length + 1) = some b0 := by
        rw [hinp, hnb]
        exact byteAt_mid pre (45 :: (b0 :: t ++ 46 :: natBytes m)) rest 1 (by simp)
      have hskip := skip_noop_at inp pre.length 45 hb0 (by omega)
      have hsl : sliceEq inp (pre.length + 1) (pre.length + 9) (strBytes "Infinity") = false :=
        sliceEq_false_head inp (pre.length + 1) (pre.length + 9) b0 73 _ hb1
          (by omega) (by omega)
      have hpv := parse_value_minus_number inp fuel pre.length hb0 hsl hskip
      rw [hpv, parse_number_frac_neg inp pre.length n m
        (hseg_ctx inp pre (45 :: (natBytes n ++ 46 :: natBytes m)) rest hinp)
        (numStop_ctx inp pre (45 :: (natBytes n ++ 46 :: natBytes m)) rest hinp hrest)]
      rw [hnb]

theorem rat_eq_num (q : ℚ) (hden : q.den = 1) : ((q.num : ℚ)) = q := by
  rw [← Rat.num_div_den q, hden]
  simp

theorem ratTrunc_den_one (q : ℚ) (hden : q.den = 1) : ratTrunc q = q.num := by
  rw [ratTrunc, hden]
  simp

set_option maxHeartbeats 1000000 in
theorem pv_number (inp pre rest : List Nat) (fuel : Nat) (n : Number)
    (hinp : inp = pre ++ utf8Encode n.display ++ rest) (hrest : restOk rest)
    (hg : numberGood n = true) :
    parse_value inp (fuel + 1) pre.length =
      .ok (.Number n, pre.length + (utf8Encode n.display).length) := by
  cases n with
  | Int i =>
      rw [numberGood, Bool.and_eq_true, decide_eq_true_eq, decide_eq_true_eq] at hg
      obtain ⟨hge, hle⟩ := hg
      by_cases hi : i < 0
      · have hdisp : (Number.Int i).display = '-' :: natDigits (-i).toNat := by
          rw [Number.display, intDigits, if_pos hi]
        have henc : utf8Encode (Number.Int i).display = 45 :: natBytes (-i).toNat := by
          rw [hdisp, utf8Encode_cons, utf8Encode_natDigits]
          rfl
        have h := pvn_neg inp pre rest fuel (-i).toNat (by rw [hinp, henc]) hrest
          (by omega)
        rw [h, henc]
        have hcast : -(((-i).toNat : Int)) = i := by omega
        rw [hcast]
      · have hdisp : (Number.Int i).display = natDigits i.toNat := by
          rw [Number.display, intDigits, if_neg hi]
        have henc : utf8Encode (Number.Int i).display = natBytes i.toNat := by
          rw [hdisp, utf8Encode_natDigits]
        have h := pvn_nat inp pre rest fuel i.toNat (by rw [hinp, henc]) hrest
        rw [h, henc, if_pos (by omega)]
        have hcast : ((i.toNat : Int)) = i := by omega
        rw [hcast]
  | Uint u =>
      rw [numberGood, Bool.and_eq_true, decide_eq_true_eq, decide_eq_true_eq] at hg
      obtain ⟨hlt, hu⟩ := hg
      have henc : utf8Encode (Number.Uint u).display = natBytes u := by
        rw [Number.display, utf8Encode_natDigits]
      have h := pvn_nat inp pre rest fuel u (by rw [hinp, henc]) hrest
      rw [h, henc, if_neg (by omega), if_pos hu]
  | Float f =>
      cases f with
      | finite q =>
          rw [numberGood, decide_eq_true_eq] at hg
          have hdisp : (Number.Float (.finite q)).display =
              intDigits q.num ++ ['.', '0'] := by
            rw [Number.display]
            rw [if_pos (by rw [F64.isWholeFinite]; exact decide_eq_true hg)]
            rw [ratTrunc_den_one q hg]
          by_cases hq0 : q.num < 0
          · have henc : utf8Encode (Number.Float (.finite q)).display =
                45 :: (natBytes (-q.num).toNat ++ 46 :: natBytes 0) := by
              rw [hdisp, intDigits, if_pos hq0, natBytes_zero]
              rw [show ('-' :: natDigits (-q.num).toNat) ++ ['.', '0'] =
                '-' :: (natDigits (-q.num).toNat ++ ['.', '0']) from rfl]
              rw [utf8Encode_cons, utf8Encode_append, utf8Encode_natDigits]
              rfl
            have h := pvn_frac_neg inp pre rest fuel (-q.num).toNat 0
              (by rw [hinp, henc]) hrest
            rw [h, henc, natDigits_zero_length]
            norm_num
            rw [show (((-q.num).toNat : ℚ)) = ((-q.num : Int) : ℚ) from by
              exact_mod_cast Int.toNat_of_nonneg (show (0 : Int) ≤ -q.num by omega)]
            push_cast
            rw [neg_neg]
            exact rat_eq_num q hg
          · have henc : utf8Encode (Number.Float (.finite q)).display =
                natBytes q.num.toNat ++ 46 :: natBytes 0 := by
              rw [hdisp, intDigits, if_neg hq0, natBytes_zero]
              rw [utf8Encode_append, utf8Encode_natDigits]
              rfl
            have h := pvn_frac inp pre rest fuel q.num.toNat 0
              (by rw [hinp, henc]) hrest
            rw [h, henc, natDigits_zero_length]
            norm_num
            rw [show ((q.num.toNat : ℚ)) = ((q.num : Int) : ℚ) from by
              exact_mod_cast Int.toNat_of_nonneg (show (0 : Int) ≤ q.num by omega)]
            exact rat_eq_num q hg
      | inf => exact absurd hg (by decide)
      | neginf => exact absurd hg (by decide)
      | nan => exact absurd hg (by decide)
  | NaN => exact absurd hg (by decide)
  | Infinity =>
      have henc : utf8Encode (Number.Infinity).display = strBytes "Infinity" := by
        rfl
      have h := pv_infinity inp pre rest fuel (by rw [hinp, henc])
      rw [h, henc]
      rfl
  | NegInfinity =>
      have henc : utf8Encode (Number.NegInfinity).display = strBytes "-Infinity" := by
        rfl
      have h := pv_neginfinity inp pre rest fuel (by rw [hinp, henc])
      rw [h, henc]
      rfl

theorem isAlpha_toNat (c : Char) (h : c.isAlpha = true) :
    (65 ≤ c.toNat ∧ c.toNat ≤ 90) ∨ (97 ≤ c.toNat ∧ c.toNat ≤ 122) := by
  rw [Char.isAlpha, Char.isUpper, Char.isLower] at h
  simp only [Bool.or_eq_true, Bool.and_eq_true, decide_eq_true_eq, ge_iff_le] at h
  rcases h with ⟨h1, h2⟩ | ⟨h1, h2⟩
  · exact Or.inl ⟨by exact_mod_cast h1, by exact_mod_cast h2⟩
  · exact Or.inr ⟨by exact_mod_cast h1, by exact_mod_cast h2⟩

theorem isDigit_toNat (c : Char) (h : c.isDigit = true) :
    48 ≤ c.toNat ∧ c.toNat ≤ 57 := by
  rw [Char.isDigit] at h
  simp only [Bool.and_eq_true, decide_eq_true_eq, ge_iff_le] at h
  exact ⟨by exact_mod_cast h.1, by exact_mod_cast h.2⟩

theorem idStart_byte (c : Char) (h : (c.isAlpha || c = '_' || c = '$') = true) :
    is_id_start c.toNat = true ∧ c.toNat < 0x80 := by
  simp only [Bool.or_eq_true, decide_eq_true_eq] at h
  rcases h with (ha | h95) | h36
  · rcases isAlpha_toNat c ha with ⟨h1, h2⟩ | ⟨h1, h2⟩ <;>
      exact ⟨by rw [is_id_start]; simp; omega, by omega⟩
  · subst h95
    exact ⟨by decide, by decide⟩
  · subst h36
    exact ⟨by decide, by decide⟩

theorem idCont_byte (c : Char) (h : (c.isAlphanum || c = '_' || c = '$') = true) :
    is_id_continue c.toNat = true ∧ c.toNat < 0x80 := by
  simp only [Bool.or_eq_true, decide_eq_true_eq] at h
  rcases h with (han | h95) | h36
  · rw [Char.isAlphanum, Bool.or_eq_true] at han
    rcases han with ha | hd
    · obtain ⟨hs, hlt⟩ := idStart_byte c (by simp [ha])
      exact ⟨by rw [is_id_continue]; simp [hs], hlt⟩
    · obtain ⟨h1, h2⟩ := isDigit_toNat c hd
      exact ⟨by rw [is_id_continue, is_id_start]; simp; omega, by omega⟩
  · subst h95
    exact ⟨by decide, by decide⟩
  · subst h36
    exact ⟨by decide, by decide⟩

theorem ident_chars (k : List Char) (h : is_valid_identifier k = true) :
    k ≠ [] ∧ (∀ c ∈ k.tail, (c.isAlphanum || c = '_' || c = '$') = true) ∧
      ∀ c ∈ k, c.toNat < 0x80 := by
  cases k with
  | nil => exact absurd h (by decide)
  | cons c0 kr =>
      rw [is_valid_identifier] at h
      simp only [Bool.and_eq_true, List.all_eq_true] at h
      obtain ⟨h0, hrest⟩ := h
      refine ⟨by simp, fun c hc => hrest c hc, ?_⟩
      intro c hc
      rcases List.mem_cons.mp hc with rfl | hc2
      · exact (idStart_byte c h0).2
      · have := hrest c hc2
        exact (idCont_byte c this).2

theorem escapeChar_plain (c : Char) (h : goodChar c = true) : escapeChar c = [c] := by
  rw [goodChar] at h
  simp only [Bool.and_eq_true, decide_eq_true_eq] at h
  obtain ⟨⟨h20, h34⟩, h92⟩ := h
  rw [escapeChar]
  rw [if_neg (fun hq => h34 (by rw [hq]; rfl))]
  rw [if_neg (fun hq => h92 (by rw [hq]; rfl))]
  rw [if_neg (fun hq => by rw [hq] at h20; exact absurd h20 (by decide))]
  rw [if_neg (fun hq => by rw [hq] at h20; exact absurd h20 (by decide))]
  rw [if_neg (fun hq => by rw [hq] at h20; exact absurd h20 (by decide))]
  rw [if_neg (fun hq => by rw [hq] at h20; exact absurd h20 (by decide))]
  rw [if_neg (fun hq => by rw [hq] at h20; exact absurd h20 (by decide))]
  rw [if_neg (by omega)]

theorem write_escaped_str_plain (s : List Char) (h : ∀ c ∈ s, goodChar c = true) :
    write_escaped_str s true = '"' :: s ++ ['"'] := by
  rw [write_escaped_str]
  rw [show s.map escapeChar = s.map (fun c => [c]) from
    List.map_congr_left (fun c hc => escapeChar_plain c (h c hc))]
  have hfl : ∀ t : List Char, (List.map (fun c => [c]) t).flatten = t := by
    intro t
    induction t with
    | nil => rfl
    | cons a t iht => simp [iht]
  rw [hfl]
  simp

theorem listSlice_empty (inp : List Nat) (a : Nat) : listSlice inp a a = [] := by
  rw [listSlice]
  simp

theorem decode_ascii_ctx (inp : List Nat) (pos : Nat) (c : Char)
    (hlt : c.toNat < 0x80) (hb : byteAt inp pos = some c.toNat) :
    decode_utf8_char inp pos = .ok (c, pos + 1) := by
  have henc : utf8EncodeChar c = [c.toNat] := by
    rw [utf8EncodeChar, if_pos hlt]
  have hseg : listSlice inp pos (pos + (utf8EncodeChar c).length) = utf8EncodeChar c := by
    rw [henc]
    simp only [List.length_cons, List.length_nil]
    rw [listSlice_cons inp pos (pos + 1) c.toNat hb (by omega), listSlice_empty]
  have h := decode_utf8_char_encode inp pos c hseg
  rw [henc] at h
  exact h

theorem idLoop_ctx (bstop : Nat) (hb80 : ¬ 0x80 ≤ bstop)
    (hbnc : is_id_continue bstop = false) :
    ∀ (kr : List Char) (fuel : Nat) (inp pre rest : List Nat) (acc : List Char),
      inp = pre ++ kr.map Char.toNat ++ (bstop :: rest) →
      (∀ c ∈ kr, (c.isAlphanum || c = '_' || c = '$') = true) →
      kr.length < fuel →
      idLoop inp fuel acc pre.length = .ok (acc ++ kr, pre.length + kr.length) := by
  intro kr
  induction kr with
  | nil =>
      intro fuel inp pre rest acc hinp _ hfuel
      cases fuel with
      | zero => omega
      | succ f =>
          rw [idLoop]
          have hb : byteAt inp pre.length = some bstop := by
            rw [hinp]
            simp only [List.map_nil, List.append_nil]
            have h := byteAt_after pre (bstop :: rest) 0
            rw [Nat.add_zero] at h
            exact h
          rw [hb]
          simp only [hbnc]
          rw [if_neg (by simp), if_neg hb80]
          simp
  | cons c kr ih =>
      intro fuel inp pre rest acc hinp hcont hfuel
      cases fuel with
      | zero => omega
      | succ f =>
          rw [idLoop]
          have hb : byteAt inp pre.length = some c.toNat :=
            byteAt_head_ctx inp pre (bstop :: rest) c.toNat (kr.map Char.toNat)
              (by rw [hinp]; simp)
          rw [hb]
          obtain ⟨hcc, _⟩ := idCont_byte c (hcont c (by simp))
          simp only [hcc]
          rw [if_pos trivial]
          have hofn : Char.ofNat c.toNat = c := Char.ofNat_toNat c
          rw [hofn]
          have hih := ih f inp (pre ++ [c.toNat]) rest (acc ++ [c])
            (by rw [hinp]; simp) (fun d hd => hcont d (by simp [hd]))
            (by simp at hfuel ⊢; omega)
          rw [show (pre ++ [c.toNat]).length = pre.length + 1 from by simp] at hih
          rw [hih]
          simp only [List.append_assoc, List.singleton_append, List.length_cons]
          rw [show pre.length + 1 + kr.length = pre.length + (kr.length + 1) from by omega]

theorem pid_ctx (inp pre rest : List Nat) (k : List Char) (bstop : Nat)
    (hb80 : ¬ 0x80 ≤ bstop) (hbnc : is_id_continue bstop = false)
    (hinp : inp = pre ++ k.map Char.toNat ++ (bstop :: rest))
    (hid : is_valid_identifier k = true) :
    parse_identifier inp pre.length = .ok (k, pre.length + k.length) := by
  cases k with
  | nil => exact absurd hid (by decide)
  | cons c0 kr =>
      rw [is_valid_identifier] at hid
      simp only [Bool.and_eq_true, List.all_eq_true] at hid
      obtain ⟨h0, hrest⟩ := hid
      obtain ⟨hs0, hlt0⟩ := idStart_byte c0 h0
      have hb : byteAt inp pre.length = some c0.toNat :=
        byteAt_head_ctx inp pre (bstop :: rest) c0.toNat (kr.map Char.toNat)
          (by rw [hinp]; simp)
      rw [parse_identifier, decode_ascii_ctx inp pre.length c0 hlt0 hb]
      simp only []
      rw [if_neg (by
        simp only [is_id_start_char, charIsAlphabetic, Bool.or_eq_true, decide_eq_true_eq,
          not_not]
        simp only [Bool.or_eq_true, decide_eq_true_eq] at h0
        tauto)]
      have hil := idLoop_ctx bstop hb80 hbnc kr (inp.length + 1) inp
        (pre ++ [c0.toNat]) rest [c0] (by rw [hinp]; simp)
        (fun d hd => hrest d hd)
        (by rw [hinp]; simp only [List.length_append, List.length_map, List.length_cons]; omega)
      rw [show (pre ++ [c0.toNat]).length = pre.length + 1 from by simp] at hil
      rw [hil]
      simp only [List.singleton_append, List.length_cons]
      rw [show pre.length + 1 + kr.length = pre.length + (kr.length + 1) from by omega]

theorem is_id_start_bounds (b : Nat) (h : is_id_start b = true) :
    (65 ≤ b ∧ b ≤ 90) ∨ (97 ≤ b ∧ b ≤ 122) ∨ b = 95 ∨ b = 36 := by
  rw [is_id_start] at h
  exact of_decide_eq_true h

theorem pk_ctx (inp pre rest : List Nat) (k : List Char)
    (hinp : inp = pre ++ utf8Encode (keyChars k) ++ (58 :: rest))
    (hgk : goodKey k = true) :
    parse_key inp pre.length = .ok (k, pre.length + (utf8Encode (keyChars k)).length) := by
  by_cases hik : is_valid_identifier k = true
  · obtain ⟨hne, hcont, hascii⟩ := ident_chars k hik
    have henc : utf8Encode (keyChars k) = k.map Char.toNat := by
      rw [keyChars, if_pos hik]
      exact utf8Encode_ascii k hascii
    cases k with
    | nil => exact absurd hik (by decide)
    | cons c0 kr =>
        rw [is_valid_identifier] at hik
        simp only [Bool.and_eq_true, List.all_eq_true] at hik
        obtain ⟨hs0, hlt0⟩ := idStart_byte c0 hik.1
        have hb : byteAt inp pre.length = some c0.toNat :=
          byteAt_head_ctx inp pre (58 :: rest) c0.toNat (kr.map Char.toNat)
            (by rw [hinp, henc]; simp)
        have hbounds := is_id_start_bounds c0.toNat hs0
        have hb34 : c0.toNat ≠ 34 := by omega
        have hb39 : c0.toNat ≠ 39 := by omega
        rw [parse_key]
        have hpid := pid_ctx inp pre rest (c0 :: kr) 58 (by omega) (by decide)
          (by rw [hinp, henc]) (by
            rw [is_valid_identifier]
            simp only [Bool.and_eq_true, List.all_eq_true]
            exact hik)
        rw [hb]
        split
        · rename_i heq
          exact absurd (Option.some.inj heq) hb34
        · rename_i heq
          exact absurd (Option.some.inj heq) hb39
        · rename_i b heq
          have hbe := Option.some.inj heq
          subst hbe
          rw [if_pos hs0, hpid, henc]
          simp
        · rename_i heq
          exact Option.noConfusion heq
  · have hall : ∀ c ∈ k, goodChar c = true := by
      rw [goodKey, Bool.or_eq_true] at hgk
      rcases hgk with h | h
      · exact absurd h hik
      · rw [List.all_eq_true] at h
        exact h
    have henc : utf8Encode (keyChars k) = 34 :: utf8Encode k ++ [34] := by
      rw [keyChars, if_neg hik, write_escaped_str_plain k hall]
      rw [show ('"' :: k ++ ['"'] : List Char) = '"' :: (k ++ ['"']) from rfl]
      rw [utf8Encode_cons, utf8Encode_append]
      rfl
    have hb : byteAt inp pre.length = some 34 :=
      byteAt_head_ctx inp pre (58 :: rest) 34 (utf8Encode k ++ [34])
        (by rw [hinp, henc]; rfl)
    have hps := ps_ctx inp pre (58 :: rest) k (by rw [hinp, henc]) hall
    rw [parse_key, hb, hps, henc]
    simp only [List.length_cons, List.length_append, List.length_nil]
    rw [show pre.length + (utf8Encode k).length + 2 =
      pre.length + ((utf8Encode k).length + (0 + 1) + 1) from by omega]

theorem numHead (n : Number) (hg : numberGood n = true) :
    ∃ b t, utf8Encode n.display = b :: t ∧
      ((48 ≤ b ∧ b ≤ 57) ∨ b = 45 ∨ b = 73) := by
  cases n with
  | Int i =>
      by_cases hi : i < 0
      · have henc : utf8Encode (Number.Int i).display = 45 :: natBytes (-i).toNat := by
          rw [Number.display, intDigits, if_pos hi, utf8Encode_cons, utf8Encode_natDigits]
          rfl
        exact ⟨45, _, henc, by omega⟩
      · have henc : utf8Encode (Number.Int i).display = natBytes i.toNat := by
          rw [Number.display, intDigits, if_neg hi, utf8Encode_natDigits]
        cases hnb : natBytes i.toNat with
        | nil => exact absurd hnb (natBytes_ne_nil _)
        | cons b t =>
            obtain ⟨h1, h2⟩ := natBytes_digits i.toNat b (by rw [hnb]; simp)
            exact ⟨b, t, by rw [henc, hnb], by omega⟩
  | Uint u =>
      have henc : utf8Encode (Number.Uint u).display = natBytes u := by
        rw [Number.display, utf8Encode_natDigits]
      cases hnb : natBytes u with
      | nil => exact absurd hnb (natBytes_ne_nil _)
      | cons b t =>
          obtain ⟨h1, h2⟩ := natBytes_digits u b (by rw [hnb]; simp)
          exact ⟨b, t, by rw [henc, hnb], by omega⟩
  | Float f =>
      cases f with
      | finite q =>
          rw [numberGood, decide_eq_true_eq] at hg
          have hdisp : (Number.Float (.finite q)).display =
              intDigits q.num ++ ['.', '0'] := by
            rw [Number.display]
            rw [if_pos (by rw [F64.isWholeFinite]; exact decide_eq_true hg)]
            rw [ratTrunc_den_one q hg]
          by_cases hq0 : q.num < 0
          · have henc : utf8Encode (Number.Float (.finite q)).display =
                45 :: (natBytes (-q.num).toNat ++ 46 :: natBytes 0) := by
              rw [hdisp, intDigits, if_pos hq0, natBytes_zero]
              rw [show ('-' :: natDigits (-q.num).toNat) ++ ['.', '0'] =
                '-' :: (natDigits (-q.num).toNat ++ ['.', '0']) from rfl]
              rw [utf8Encode_cons, utf8Encode_append, utf8Encode_natDigits]
              rfl
            exact ⟨45, _, henc, by omega⟩
          · have henc : utf8Encode (Number.Float (.finite q)).display =
                natBytes q.num.toNat ++ 46 :: natBytes 0 := by
              rw [hdisp, intDigits, if_neg hq0, natBytes_zero]
              rw [utf8Encode_append, utf8Encode_natDigits]
              rfl
            cases hnb : natBytes q.num.toNat with
            | nil => exact absurd hnb (natBytes_ne_nil _)
            | cons b t =>
                obtain ⟨h1, h2⟩ := natBytes_digits q.num.toNat b (by rw [hnb]; simp)
                exact ⟨b, t ++ 46 :: natBytes 0, by rw [henc, hnb]; rfl, by omega⟩
      | inf => exact absurd hg (by decide)
      | neginf => exact absurd hg (by decide)
      | nan => exact absurd hg (by decide)
  | NaN => exact absurd hg (by decide)
  | Infinity => exact ⟨73, _, rfl, by omega⟩
  | NegInfinity => exact ⟨45, _, rfl, by omega⟩

theorem write_escaped_str_quoted (s : List Char) :
    write_escaped_str s true = '"' :: ((s.map escapeChar).flatten ++ ['"']) := by
  rw [write_escaped_str]
  norm_num

theorem encHead (v : Value) (hg : valueGood v = true) :
    ∃ b t, utf8Encode (encCompact false v) = b :: t ∧
      ((48 ≤ b ∧ b ≤ 57) ∨ b = 45 ∨ b = 73 ∨ b = 110 ∨ b = 116 ∨ b = 102 ∨
        b = 34 ∨ b = 91 ∨ b = 123) := by
  cases v with
  | Null => exact ⟨110, _, rfl, by omega⟩
  | Bool b =>
      cases b with
      | true => exact ⟨116, _, rfl, by omega⟩
      | false => exact ⟨102, _, rfl, by omega⟩
  | Number n =>
      rw [valueGood] at hg
      obtain ⟨b, t, he, hb⟩ := numHead n hg
      exact ⟨b, t, by rw [encCompact]; exact he, by omega⟩
  | String s =>
      refine ⟨34, utf8Encode ((s.map escapeChar).flatten ++ ['"']), ?_, by omega⟩
      rw [encCompact, write_escaped_str_quoted, utf8Encode_cons]
      rfl
  | Array a =>
      refine ⟨91, utf8Encode (encCompactArr false a true ++ [']']), ?_, by omega⟩
      rw [encCompact]
      rw [show ('[' :: encCompactArr false a true ++ [']'] : List Char) =
        '[' :: (encCompactArr false a true ++ [']']) from rfl]
      rw [utf8Encode_cons]
      rfl
  | Object o =>
      refine ⟨123, utf8Encode (encCompactObj false o true ++ ['}']), ?_, by omega⟩
      rw [encCompact]
      rw [show ('{' :: encCompactObj false o true ++ ['}'] : List Char) =
        '{' :: (encCompactObj false o true ++ ['}']) from rfl]
      rw [utf8Encode_cons]
      rfl

theorem encArrTrue_cons (v : Value) (t : List Value) :
    encCompactArr false (v :: t) true =
      encCompact false v ++ encCompactArr false t false := by
  rw [encCompactArr]
  simp

theorem encArrFalse_cons (v : Value) (t : List Value) :
    encCompactArr false (v :: t) false =
      ',' :: (encCompact false v ++ encCompactArr false t false) := by
  rw [encCompactArr]
  simp

theorem encObjTrue_cons (k : List Char) (v : Value) (t : List (List Char × Value)) :
    encCompactObj false ((k, v) :: t) true =
      keyChars k ++ (':' :: (encCompact false v ++ encCompactObj false t false)) := by
  rw [encCompactObj, keyChars]
  simp

theorem encObjFalse_cons (k : List Char) (v : Value) (t : List (List Char × Value)) :
    encCompactObj false ((k, v) :: t) false =
      ',' :: (keyChars k ++ (':' :: (encCompact false v ++ encCompactObj false t false))) := by
  rw [encCompactObj, keyChars]
  simp

theorem encBytes_len_pos (v : Value) (hg : valueGood v = true) :
    1 ≤ (utf8Encode (encCompact false v)).length := by
  obtain ⟨b, t, he, _⟩ := encHead v hg
  rw [he]
  simp

theorem keyHead (k : List Char) (hgk : goodKey k = true) :
    ∃ b t, utf8Encode (keyChars k) = b :: t ∧
      (b = 34 ∨ (65 ≤ b ∧ b ≤ 90) ∨ (97 ≤ b ∧ b ≤ 122) ∨ b = 95 ∨ b = 36) := by
  by_cases hik : is_valid_identifier k = true
  · obtain ⟨hne, _, hascii⟩ := ident_chars k hik
    have henc : utf8Encode (keyChars k) = k.map Char.toNat := by
      rw [keyChars, if_pos hik]
      exact utf8Encode_ascii k hascii
    cases k with
    | nil => exact absurd hik (by decide)
    | cons c0 kr =>
        rw [is_valid_identifier] at hik
        simp only [Bool.and_eq_true, List.all_eq_true] at hik
        obtain ⟨hs0, _⟩ := idStart_byte c0 hik.1
        exact ⟨c0.toNat, kr.map Char.toNat, by rw [henc]; rfl,
          Or.inr (is_id_start_bounds c0.toNat hs0)⟩
  · have hall : ∀ c ∈ k, goodChar c = true := by
      rw [goodKey, Bool.or_eq_true] at hgk
      rcases hgk with h | h
      · exact absurd h hik
      · exact List.all_eq_true.mp h
    have henc : utf8Encode (keyChars k) = 34 :: utf8Encode k ++ [34] := by
      rw [keyChars, if_neg hik, write_escaped_str_plain k hall]
      rw [show ('"' :: k ++ ['"'] : List Char) = '"' :: (k ++ ['"']) from rfl]
      rw [utf8Encode_cons, utf8Encode_append]
      rfl
    exact ⟨34, utf8Encode k ++ [34], by rw [henc]; rfl, Or.inl rfl⟩

theorem restOk_arrTail (t : List Value) (rest : List Nat) :
    restOk (utf8Encode (encCompactArr false t false) ++ 93 :: rest) := by
  cases t with
  | nil =>
      rw [show encCompactArr false [] false = [] from rfl]
      rw [show utf8Encode [] = [] from rfl, List.nil_append]
      exact Or.inr ⟨93, rest, rfl, by omega⟩
  | cons w tw =>
      rw [encArrFalse_cons, utf8Encode_cons]
      rw [show utf8EncodeChar ',' = [44] from rfl]
      exact Or.inr ⟨44, _, rfl, by omega⟩

theorem restOk_objTail (t : List (List Char × Value)) (rest : List Nat) :
    restOk (utf8Encode (encCompactObj false t false) ++ 125 :: rest) := by
  cases t with
  | nil =>
      rw [show encCompactObj false [] false = [] from rfl]
      rw [show utf8Encode [] = [] from rfl, List.nil_append]
      exact Or.inr ⟨125, rest, rfl, by omega⟩
  | cons p tw =>
      obtain ⟨k, v⟩ := p
      rw [encObjFalse_cons, utf8Encode_cons]
      rw [show utf8EncodeChar ',' = [44] from rfl]
      exact Or.inr ⟨44, _, rfl, by omega⟩

theorem keyAbsent_single (k k2 : List Char) (v : Value) (h : ¬ k = k2) :
    keyAbsent k2 [(k, v)] = true := by
  simp [keyAbsent, h]

theorem toNat_inj_lit (c d : Char) (h : c.toNat = d.toNat) : c = d := by
  have h1 := Char.ofNat_toNat c
  have h2 := Char.ofNat_toNat d
  rw [← h1, ← h2, h]

theorem needsEsc_false_facts (c : Char) (h : needsEsc c = false) :
    0x20 ≤ c.toNat ∧ c.toNat ≠ 34 ∧ c.toNat ≠ 92 := by
  rw [needsEsc] at h
  simp only [Bool.or_eq_false_iff, decide_eq_false_iff_not, not_lt] at h
  obtain ⟨⟨h1, h2⟩, h3⟩ := h
  refine ⟨h3, fun hc => h1 (toNat_inj_lit c '"' (by rw [hc]; rfl)),
    fun hc => h2 (toNat_inj_lit c '\\' (by rw [hc]; rfl))⟩

theorem needsEsc_false_goodChar (c : Char) (h : needsEsc c = false) :
    goodChar c = true := by
  obtain ⟨h1, h2, h3⟩ := needsEsc_false_facts c h
  rw [goodChar]
  simp [h1, h2, h3]

theorem escapeChar_of_plain (c : Char) (h : needsEsc c = false) :
    escapeChar c = [c] := escapeChar_plain c (needsEsc_false_goodChar c h)

theorem hexDigit_facts (d : Nat) (hd : d < 16) :
    ((48 ≤ (hex_digit d).toNat ∧ (hex_digit d).toNat ≤ 57) ∨
      (97 ≤ (hex_digit d).toNat ∧ (hex_digit d).toNat ≤ 102)) ∧
    hex_val (hex_digit d).toNat = some d := by
  interval_cases d <;> exact ⟨by decide, by decide⟩

theorem hex_val_lt (b v : Nat) (h : hex_val b = some v) : v < 16 := by
  rw [hex_val] at h
  split at h
  · have := Option.some.inj h
    omega
  · split at h
    · have := Option.some.inj h
      omega
    · split at h
      · have := Option.some.inj h
        omega
      · exact Option.noConfusion h

/-- Evaluation of `escapeChar` into the three shapes the round-trip
argument distinguishes: verbatim, two-byte simple escape whose escape
byte `parse_escape` maps straight back, or a `\uXXXX` escape of a
control character. -/
theorem escapeChar_spec (c : Char) :
    (needsEsc c = false ∧ escapeChar c = [c]) ∨
    (needsEsc c = true ∧ ∃ e : Char, escapeChar c = ['\\', e] ∧ e.toNat < 0x80 ∧
      (∀ inp pos, byteAt inp pos = some e.toNat →
        parse_escape inp pos = .ok ([c], pos + 1))) ∨
    (needsEsc c = true ∧ c.toNat < 0x20 ∧
      escapeChar c = ['\\', 'u', hex_digit (c.toNat / 4096 % 16),
        hex_digit (c.toNat / 256 % 16), hex_digit (c.toNat / 16 % 16),
        hex_digit (c.toNat % 16)]) := by
  by_cases h34 : c = '"'
  · subst h34
    refine Or.inr (Or.inl ⟨by decide, '"', rfl, by decide, fun inp pos hb => ?_⟩)
    rw [parse_escape, hb, show ('"').toNat = 34 from rfl]
    norm_num
  by_cases h92 : c = '\\'
  · subst h92
    refine Or.inr (Or.inl ⟨by decide, '\\', rfl, by decide, fun inp pos hb => ?_⟩)
    rw [parse_escape, hb, show ('\\').toNat = 92 from rfl]
    norm_num
  by_cases h8 : c = '\x08'
  · subst h8
    refine Or.inr (Or.inl ⟨by decide, 'b', by decide, by decide, fun inp pos hb => ?_⟩)
    rw [parse_escape, hb, show ('b').toNat = 98 from rfl]
    norm_num
  by_cases h12 : c = '\x0C'
  · subst h12
    refine Or.inr (Or.inl ⟨by decide, 'f', by decide, by decide, fun inp pos hb => ?_⟩)
    rw [parse_escape, hb, show ('f').toNat = 102 from rfl]
    norm_num
  by_cases h10 : c = '\n'
  · subst h10
    refine Or.inr (Or.inl ⟨by decide, 'n', by decide, by decide, fun inp pos hb => ?_⟩)
    rw [parse_escape, hb, show ('n').toNat = 110 from rfl]
    norm_num
  by_cases h13 : c = '\r'
  · subst h13
    refine Or.inr (Or.inl ⟨by decide, 'r', by decide, by decide, fun inp pos hb => ?_⟩)
    rw [parse_escape, hb, show ('r').toNat = 114 from rfl]
    norm_num
  by_cases h9 : c = '\t'
  · subst h9
    refine Or.inr (Or.inl ⟨by decide, 't', by decide, by decide, fun inp pos hb => ?_⟩)
    rw [parse_escape, hb, show ('t').toNat = 116 from rfl]
    norm_num
  by_cases hlo : c.toNat < 0x20
  · refine Or.inr (Or.inr ⟨by rw [needsEsc]; simp [hlo], hlo, ?_⟩)
    rw [escapeChar, if_neg h34, if_neg h92, if_neg h8, if_neg h12, if_neg h10,
      if_neg h13, if_neg h9, if_pos hlo]
  · have hne : needsEsc c = false := by
      rw [needsEsc]
      simp [h34, h92, hlo]
    exact Or.inl ⟨hne, escapeChar_of_plain c hne⟩

theorem shl4_or (a d : Nat) (hd : d < 16) : (a <<< 4) ||| d = 16 * a + d := by
  rw [Nat.shiftLeft_eq]
  rw [show a * 2 ^ 4 = 2 ^ 4 * a from by ring]
  rw [← or_of_lt 4 a d hd]
  norm_num

theorem eatHexN_step (inp : List Nat) (n cp pos x d : Nat)
    (hb : byteAt inp pos = some x) (hv : hex_val x = some d) :
    eatHexN inp (n + 1) cp pos = eatHexN inp n ((cp <<< 4) ||| d) (pos + 1) := by
  rw [eatHexN, hb]
  simp only []
  rw [hv]

theorem eatHexN_four (inp : List Nat) (pos : Nat) (x0 x1 x2 x3 d0 d1 d2 d3 : Nat)
    (h0 : byteAt inp pos = some x0) (hv0 : hex_val x0 = some d0)
    (h1 : byteAt inp (pos + 1) = some x1) (hv1 : hex_val x1 = some d1)
    (h2 : byteAt inp (pos + 2) = some x2) (hv2 : hex_val x2 = some d2)
    (h3 : byteAt inp (pos + 3) = some x3) (hv3 : hex_val x3 = some d3) :
    eatHexN inp 4 0 pos = .ok (4096 * d0 + 256 * d1 + 16 * d2 + d3, pos + 4) := by
  have hl0 := hex_val_lt x0 d0 hv0
  have hl1 := hex_val_lt x1 d1 hv1
  have hl2 := hex_val_lt x2 d2 hv2
  have hl3 := hex_val_lt x3 d3 hv3
  rw [show (4 : Nat) = 3 + 1 from rfl, eatHexN_step inp 3 0 pos x0 d0 h0 hv0]
  rw [show (3 : Nat) = 2 + 1 from rfl, eatHexN_step inp 2 _ (pos + 1) x1 d1 h1 hv1]
  rw [show (2 : Nat) = 1 + 1 from rfl,
    eatHexN_step inp 1 _ (pos + 1 + 1) x2 d2 (by rw [show pos + 1 + 1 = pos + 2 from by omega]; exact h2) hv2]
  rw [show (1 : Nat) = 0 + 1 from rfl,
    eatHexN_step inp 0 _ (pos + 1 + 1 + 1) x3 d3 (by rw [show pos + 1 + 1 + 1 = pos + 3 from by omega]; exact h3) hv3]
  rw [eatHexN]
  rw [shl4_or 0 d0 hl0, shl4_or (16 * 0 + d0) d1 hl1,
    shl4_or (16 * (16 * 0 + d0) + d1) d2 hl2,
    shl4_or (16 * (16 * (16 * 0 + d0) + d1) + d2) d3 hl3]
  have hnum : 16 * (16 * (16 * (16 * 0 + d0) + d1) + d2) + d3 =
      4096 * d0 + 256 * d1 + 16 * d2 + d3 := by ring
  rw [hnum, show pos + 1 + 1 + 1 + 1 = pos + 4 from by omega]

/-- `parse_unicode_escape` on the `\uXXXX` form the serializer emits for
a control character: four hex digits of a code below 0x20. -/
theorem pue_low (inp : List Nat) (pos code : Nat) (hcode : code < 0x20)
    (h0 : byteAt inp pos = some (hex_digit (code / 4096 % 16)).toNat)
    (h1 : byteAt inp (pos + 1) = some (hex_digit (code / 256 % 16)).toNat)
    (h2 : byteAt inp (pos + 2) = some (hex_digit (code / 16 % 16)).toNat)
    (h3 : byteAt inp (pos + 3) = some (hex_digit (code % 16)).toNat) :
    parse_unicode_escape inp pos = .ok (Char.ofNat code, pos + 4) := by
  obtain ⟨hr0, hx0⟩ := hexDigit_facts (code / 4096 % 16) (by omega)
  obtain ⟨hr1, hx1⟩ := hexDigit_facts (code / 256 % 16) (by omega)
  obtain ⟨hr2, hx2⟩ := hexDigit_facts (code / 16 % 16) (by omega)
  obtain ⟨hr3, hx3⟩ := hexDigit_facts (code % 16) (by omega)
  have hne123 : ¬ byteAt inp pos = some 123 := by
    rw [h0]
    intro hx
    have := Option.some.inj hx
    omega
  have hval : 4096 * (code / 4096 % 16) + 256 * (code / 256 % 16) +
      16 * (code / 16 % 16) + code % 16 = code := by
    omega
  rw [parse_unicode_escape, if_neg hne123,
    eatHexN_four inp pos _ _ _ _ _ _ _ _ h0 hx0 h1 hx1 h2 hx2 h3 hx3, hval]
  simp only []
  rw [ueFromCp, if_neg (by omega)]
  rw [show charFromU32 code = some (Char.ofNat code) from by
    rw [charFromU32, if_pos (Or.inl (by omega))]]

/-- A run of printable non-quote non-backslash bytes advances the fast
scan one byte at a time. -/
theorem fastScan_over_plain (inp : List Nat) (quote : Nat) (hq : 0x20 ≤ quote) :
    ∀ (seg : List Nat) (fuel pos : Nat) (esc : Bool),
      (∀ b ∈ seg, b ≠ quote ∧ b ≠ 92 ∧ 0x20 ≤ b) →
      (∀ i, i < seg.length → byteAt inp (pos + i) = seg.get? i) →
      seg.length ≤ fuel →
      fastScan inp quote fuel pos esc =
        fastScan inp quote (fuel - seg.length) (pos + seg.length) esc := by
  intro seg
  induction seg with
  | nil =>
      intro fuel pos esc _ _ _
      simp
  | cons b seg ih =>
      intro fuel pos esc hb hat hfuel
      obtain ⟨hbq, hb92, hb20⟩ := hb b (by simp)
      cases fuel with
      | zero => simp at hfuel
      | succ f =>
          have hb0 : byteAt inp pos = some b := by
            have h := hat 0 (by simp)
            rw [Nat.add_zero] at h
            exact h
          rw [fastScan, hb0]
          simp only []
          rw [if_neg hbq, if_neg hb92, if_neg (by omega), if_neg (by omega)]
          have hih := ih f (pos + 1) esc
            (fun x hx => hb x (by simp [hx]))
            (fun i hi => by
              have h := hat (i + 1) (by simp; omega)
              rw [show pos + (i + 1) = pos + 1 + i from by omega] at h
              exact h)
            (by simp at hfuel ⊢; omega)
          rw [hih]
          simp only [List.length_cons]
          rw [show pos + 1 + seg.length = pos + (seg.length + 1) from by omega,
            show f - seg.length = f + 1 - (seg.length + 1) from by omega]

theorem utf8Encode_singleton (c : Char) : utf8Encode [c] = utf8EncodeChar c := by
  rw [utf8Encode_cons]
  simp [utf8Encode]

theorem escFlatten_cons (c : Char) (s : List Char) :
    ((c :: s).map escapeChar).flatten = escapeChar c ++ (s.map escapeChar).flatten := by
  simp

theorem escBytes_simple (e : Char) (he : e.toNat < 0x80) :
    utf8Encode ['\\', e] = [92, e.toNat] := by
  rw [utf8Encode_ascii ['\\', e] (by
    intro c hc
    simp at hc
    rcases hc with rfl | rfl
    · decide
    · exact he)]
  rw [show List.map Char.toNat ['\\', e] = ['\\'.toNat, e.toNat] from rfl,
    show ('\\').toNat = 92 from rfl]

theorem hexByte_plain (d : Nat) (hd : d < 16) :
    (hex_digit d).toNat ≠ 34 ∧ (hex_digit d).toNat ≠ 92 ∧
      0x20 ≤ (hex_digit d).toNat ∧ (hex_digit d).toNat < 0x80 := by
  obtain ⟨hr, _⟩ := hexDigit_facts d hd
  rcases hr with ⟨h1, h2⟩ | ⟨h1, h2⟩ <;> exact ⟨by omega, by omega, by omega, by omega⟩

theorem escBytes_u (c : Char) (hlo : c.toNat < 0x20) :
    utf8Encode ['\\', 'u', hex_digit (c.toNat / 4096 % 16), hex_digit (c.toNat / 256 % 16),
      hex_digit (c.toNat / 16 % 16), hex_digit (c.toNat % 16)] =
    [92, 117, (hex_digit (c.toNat / 4096 % 16)).toNat, (hex_digit (c.toNat / 256 % 16)).toNat,
      (hex_digit (c.toNat / 16 % 16)).toNat, (hex_digit (c.toNat % 16)).toNat] := by
  rw [utf8Encode_ascii _ (by
    intro x hx
    simp at hx
    rcases hx with rfl | rfl | rfl | rfl | rfl | rfl
    · decide
    · decide
    · exact (hexByte_plain _ (by omega)).2.2.2
    · exact (hexByte_plain _ (by omega)).2.2.2
    · exact (hexByte_plain _ (by omega)).2.2.2
    · exact (hexByte_plain _ (by omega)).2.2.2)]
  simp only [List.map_cons, List.map_nil]
  rw [show ('\\').toNat = 92 from rfl, show ('u').toNat = 117 from rfl]

theorem plainChar_bytes (c : Char) (h : needsEsc c = false) :
    ∀ b ∈ utf8EncodeChar c, b ≠ 34 ∧ b ≠ 92 ∧ 0x20 ≤ b := by
  obtain ⟨h20, h34, h92⟩ := needsEsc_false_facts c h
  intro b hb
  rcases utf8EncodeChar_bytes c b hb with rfl | hge
  · exact ⟨h34, h92, h20⟩
  · exact ⟨by omega, by omega, by omega⟩

set_option maxHeartbeats 1000000 in
theorem fastScan_escaped (rest : List Nat) :
    ∀ (s : List Char) (inp pre : List Nat) (fuel : Nat) (esc0 : Bool),
      inp = pre ++ utf8Encode ((s.map escapeChar).flatten) ++ 34 :: rest →
      (utf8Encode ((s.map escapeChar).flatten)).length < fuel →
      fastScan inp 34 fuel pre.length esc0 =
        .ok (pre.length + (utf8Encode ((s.map escapeChar).flatten)).length,
          esc0 || s.any needsEsc) := by
  intro s
  induction s with
  | nil =>
      intro inp pre fuel esc0 hinp hfuel
      cases fuel with
      | zero => omega
      | succ f =>
          have hb : byteAt inp pre.length = some 34 := by
            rw [hinp, show utf8Encode (([].map escapeChar).flatten) = [] from rfl,
              List.append_nil]
            have h := byteAt_after pre (34 :: rest) 0
            rw [Nat.add_zero] at h
            exact h
          rw [fastScan, hb]
          simp only []
          rw [if_pos trivial]
          rw [show utf8Encode (([].map escapeChar).flatten) = [] from rfl]
          simp
  | cons c s ih =>
      intro inp pre fuel esc0 hinp hfuel
      rw [escFlatten_cons, utf8Encode_append] at hinp hfuel ⊢
      rcases escapeChar_spec c with ⟨hne, hec⟩ | ⟨hne, e, hec, helt, _⟩ | ⟨hne, hlo, hec⟩
      · -- plain character: scan over its bytes
        rw [hec, utf8Encode_singleton] at hinp hfuel ⊢
        have hplain := plainChar_bytes c hne
        have hover := fastScan_over_plain inp 34 (by omega) (utf8EncodeChar c) fuel
          pre.length esc0 hplain
          (fun i hi => by
            rw [hinp, show pre ++ (utf8EncodeChar c ++
                utf8Encode ((s.map escapeChar).flatten)) ++ 34 :: rest =
              pre ++ utf8EncodeChar c ++
                (utf8Encode ((s.map escapeChar).flatten) ++ 34 :: rest) from by simp]
            exact byteAt_mid pre (utf8EncodeChar c) _ i hi)
          (by simp only [List.length_append] at hfuel; omega)
        rw [hover]
        have hih := ih inp (pre ++ utf8EncodeChar c)
          (fuel - (utf8EncodeChar c).length) esc0
          (by rw [hinp]; simp)
          (by simp only [List.length_append] at hfuel; omega)
        rw [show (pre ++ utf8EncodeChar c).length =
          pre.length + (utf8EncodeChar c).length from by simp] at hih
        rw [hih]
        simp only [List.any_cons, hne, Bool.false_or, List.length_append]
        rw [show pre.length + (utf8EncodeChar c).length +
          (utf8Encode ((s.map escapeChar).flatten)).length =
          pre.length + ((utf8EncodeChar c).length +
            (utf8Encode ((s.map escapeChar).flatten)).length) from by omega]
      · -- two-byte simple escape: one jump
        rw [hec, escBytes_simple e helt] at hinp hfuel ⊢
        cases fuel with
        | zero => simp at hfuel
        | succ f =>
            have hb : byteAt inp pre.length = some 92 :=
              byteAt_head_ctx inp pre (34 :: rest) 92
                (e.toNat :: utf8Encode ((s.map escapeChar).flatten))
                (by rw [hinp]; simp)
            rw [fastScan, hb]
            simp only []
            rw [if_neg (by omega)]
            rw [if_pos trivial]
            have hih := ih inp (pre ++ [92, e.toNat]) f true
              (by rw [hinp]; simp)
              (by simp only [List.length_append, List.length_cons] at hfuel ⊢; omega)
            rw [show (pre ++ [92, e.toNat]).length = pre.length + 2 from by simp] at hih
            rw [hih]
            simp only [List.any_cons, hne, Bool.true_or, Bool.or_true, Bool.true_and,
              List.length_append, List.length_cons, List.length_nil]
            simp only [Except.ok.injEq, Prod.mk.injEq]
            exact ⟨by omega, by trivial⟩
      · -- six-byte unicode escape: jump, then four hex digits
        rw [hec, escBytes_u c hlo] at hinp hfuel ⊢
        cases fuel with
        | zero => simp at hfuel
        | succ f =>
            have hb : byteAt inp pre.length = some 92 :=
              byteAt_head_ctx inp pre (34 :: rest) 92 _ (by rw [hinp]; rfl)
            rw [fastScan, hb]
            simp only []
            rw [if_neg (by omega)]
            rw [if_pos trivial]
            have hseg4 : ∀ b ∈ [(hex_digit (c.toNat / 4096 % 16)).toNat,
                (hex_digit (c.toNat / 256 % 16)).toNat,
                (hex_digit (c.toNat / 16 % 16)).toNat,
                (hex_digit (c.toNat % 16)).toNat], b ≠ 34 ∧ b ≠ 92 ∧ 0x20 ≤ b := by
              intro b hbm
              simp at hbm
              rcases hbm with rfl | rfl | rfl | rfl
              · obtain ⟨a1, a2, a3, _⟩ := hexByte_plain _ (show c.toNat / 4096 % 16 < 16 by omega)
                exact ⟨a1, a2, a3⟩
              · obtain ⟨a1, a2, a3, _⟩ := hexByte_plain _ (show c.toNat / 256 % 16 < 16 by omega)
                exact ⟨a1, a2, a3⟩
              · obtain ⟨a1, a2, a3, _⟩ := hexByte_plain _ (show c.toNat / 16 % 16 < 16 by omega)
                exact ⟨a1, a2, a3⟩
              · obtain ⟨a1, a2, a3, _⟩ := hexByte_plain _ (show c.toNat % 16 < 16 by omega)
                exact ⟨a1, a2, a3⟩
            have hover := fastScan_over_plain inp 34 (by omega)
              [(hex_digit (c.toNat / 4096 % 16)).toNat,
                (hex_digit (c.toNat / 256 % 16)).toNat,
                (hex_digit (c.toNat / 16 % 16)).toNat,
                (hex_digit (c.toNat % 16)).toNat] f (pre.length + 2) true hseg4
              (fun i hi => by
                rw [hinp, show pre ++ ([92, 117, (hex_digit (c.toNat / 4096 % 16)).toNat,
                    (hex_digit (c.toNat / 256 % 16)).toNat,
                    (hex_digit (c.toNat / 16 % 16)).toNat,
                    (hex_digit (c.toNat % 16)).toNat] ++
                    utf8Encode ((s.map escapeChar).flatten)) ++ 34 :: rest =
                  (pre ++ [92, 117]) ++ [(hex_digit (c.toNat / 4096 % 16)).toNat,
                    (hex_digit (c.toNat / 256 % 16)).toNat,
                    (hex_digit (c.toNat / 16 % 16)).toNat,
                    (hex_digit (c.toNat % 16)).toNat] ++
                    (utf8Encode ((s.map escapeChar).flatten) ++ 34 :: rest) from by simp]
                have h := byteAt_mid (pre ++ [92, 117])
                  [(hex_digit (c.toNat / 4096 % 16)).toNat,
                    (hex_digit (c.toNat / 256 % 16)).toNat,
                    (hex_digit (c.toNat / 16 % 16)).toNat,
                    (hex_digit (c.toNat % 16)).toNat]
                  (utf8Encode ((s.map escapeChar).flatten) ++ 34 :: rest) i hi
                rw [show pre.length + 2 + i = (pre ++ [92, 117]).length + i from by simp]
                exact h)
              (by simp only [List.length_append, List.length_cons] at hfuel ⊢; omega)
            rw [show [(hex_digit (c.toNat / 4096 % 16)).toNat,
                (hex_digit (c.toNat / 256 % 16)).toNat,
                (hex_digit (c.toNat / 16 % 16)).toNat,
                (hex_digit (c.toNat % 16)).toNat].length = 4 from rfl] at hover
            rw [hover]
            have hih := ih inp (pre ++ [92, 117, (hex_digit (c.toNat / 4096 % 16)).toNat,
                (hex_digit (c.toNat / 256 % 16)).toNat,
                (hex_digit (c.toNat / 16 % 16)).toNat,
                (hex_digit (c.toNat % 16)).toNat]) (f - 4) true
              (by rw [hinp]; simp)
              (by simp only [List.length_append, List.length_cons] at hfuel ⊢; omega)
            rw [show (pre ++ [92, 117, (hex_digit (c.toNat / 4096 % 16)).toNat,
                (hex_digit (c.toNat / 256 % 16)).toNat,
                (hex_digit (c.toNat / 16 % 16)).toNat,
                (hex_digit (c.toNat % 16)).toNat]).length = pre.length + 6 from by simp]
              at hih
            rw [show pre.length + 2 + 4 = pre.length + 6 from by omega] at hover ⊢
            rw [hih]
            simp only [List.any_cons, hne, Bool.true_or, Bool.or_true,
              List.length_append, List.length_cons, List.length_nil]
            simp only [Except.ok.injEq, Prod.mk.injEq]
            exact ⟨by omega, by trivial⟩

set_option maxHeartbeats 1000000 in
theorem slowRebuild_escaped (rest : List Nat) :
    ∀ (s : List Char) (inp pre : List Nat) (out : List Char) (fuel : Nat),
      inp = pre ++ utf8Encode ((s.map escapeChar).flatten) ++ 34 :: rest →
      (utf8Encode ((s.map escapeChar).flatten)).length + 1 ≤ fuel →
      slowRebuild inp 34 fuel pre.length out =
        .ok (out ++ s, pre.length + (utf8Encode ((s.map escapeChar).flatten)).length + 1) := by
  intro s
  induction s with
  | nil =>
      intro inp pre out fuel hinp hfuel
      cases fuel with
      | zero => omega
      | succ f =>
          have hb : byteAt inp pre.length = some 34 := by
            rw [hinp, show utf8Encode (([].map escapeChar).flatten) = [] from rfl,
              List.append_nil]
            have h := byteAt_after pre (34 :: rest) 0
            rw [Nat.add_zero] at h
            exact h
          rw [slowRebuild, hb]
          simp only []
          rw [if_pos trivial]
          rw [show utf8Encode (([].map escapeChar).flatten) = [] from rfl]
          simp
  | cons c s ih =>
      intro inp pre out fuel hinp hfuel
      rw [escFlatten_cons, utf8Encode_append] at hinp hfuel ⊢
      rcases escapeChar_spec c with ⟨hne, hec⟩ | ⟨hne, e, hec, helt, hsem⟩ | ⟨hne, hlo, hec⟩
      · -- verbatim character: decode one scalar
        rw [hec, utf8Encode_singleton] at hinp hfuel ⊢
        obtain ⟨h20, h34, h92⟩ := needsEsc_false_facts c hne
        cases fuel with
        | zero =>
            have := utf8EncodeChar_length_pos c
            simp only [List.length_append] at hfuel
            omega
        | succ f =>
            obtain ⟨b0, t0, hcons, hb0v⟩ := utf8EncodeChar_head c
            have hinp2 : inp = pre ++ utf8EncodeChar c ++
                (utf8Encode ((s.map escapeChar).flatten) ++ 34 :: rest) := by
              rw [hinp]
              simp
            have hseg : listSlice inp pre.length
                (pre.length + (utf8EncodeChar c).length) = utf8EncodeChar c := by
              rw [hinp2]
              exact listSlice_mid pre (utf8EncodeChar c) _
            have hb0 : byteAt inp pre.length = some b0 := by
              have h := byteAt_of_slice _ (utf8EncodeChar c) pre.length hseg 0
                (utf8EncodeChar_length_pos c)
              rw [Nat.add_zero, hcons] at h
              exact h
            have hdec := decode_utf8_char_encode _ pre.length c hseg
            rw [slowRebuild, hb0]
            simp only []
            rw [if_neg (by omega), if_neg (by omega)]
            rw [hdec]
            simp only []
            rw [if_neg (by
              intro hc
              rcases hc with hc | hc <;> (subst hc; revert h20; decide))]
            have hih := ih inp (pre ++ utf8EncodeChar c) (out ++ [c]) f
              (by rw [hinp]; simp)
              (by
                have := utf8EncodeChar_length_pos c
                simp only [List.length_append] at hfuel ⊢
                omega)
            rw [show (pre ++ utf8EncodeChar c).length =
              pre.length + (utf8EncodeChar c).length from by simp] at hih
            rw [hih]
            simp only [Except.ok.injEq, Prod.mk.injEq, List.append_assoc,
              List.singleton_append, List.length_append, List.length_cons,
              List.length_nil]
            exact ⟨by trivial, by omega⟩
      · -- simple two-byte escape
        rw [hec, escBytes_simple e helt] at hinp hfuel ⊢
        cases fuel with
        | zero => simp at hfuel
        | succ f =>
            have hb : byteAt inp pre.length = some 92 :=
              byteAt_head_ctx inp pre (34 :: rest) 92
                (e.toNat :: utf8Encode ((s.map escapeChar).flatten))
                (by rw [hinp]; simp)
            have hbe : byteAt inp (pre.length + 1) = some e.toNat := by
              rw [hinp]
              have h := byteAt_mid pre
                ([92, e.toNat] ++ utf8Encode ((s.map escapeChar).flatten))
                (34 :: rest) 1 (by simp)
              exact h
            rw [slowRebuild, hb]
            simp only []
            rw [if_neg (by omega)]
            rw [if_pos trivial]
            rw [hsem inp (pre.length + 1) hbe]
            simp only []
            have hih := ih inp (pre ++ [92, e.toNat]) (out ++ [c]) f
              (by rw [hinp]; simp)
              (by simp only [List.length_append, List.length_cons] at hfuel ⊢; omega)
            rw [show (pre ++ [92, e.toNat]).length = pre.length + 2 from by simp] at hih
            rw [show pre.length + 1 + 1 = pre.length + 2 from by omega, hih]
            simp only [Except.ok.injEq, Prod.mk.injEq, List.append_assoc,
              List.singleton_append, List.length_append, List.length_cons,
              List.length_nil]
            exact ⟨by trivial, by omega⟩
      · -- six-byte unicode escape
        rw [hec, escBytes_u c hlo] at hinp hfuel ⊢
        cases fuel with
        | zero => simp at hfuel
        | succ f =>
            have hb : byteAt inp pre.length = some 92 :=
              byteAt_head_ctx inp pre (34 :: rest) 92 _ (by rw [hinp]; rfl)
            have hbu : byteAt inp (pre.length + 1) = some 117 := by
              rw [hinp]
              exact byteAt_mid pre ([92, 117, (hex_digit (c.toNat / 4096 % 16)).toNat,
                (hex_digit (c.toNat / 256 % 16)).toNat,
                (hex_digit (c.toNat / 16 % 16)).toNat,
                (hex_digit (c.toNat % 16)).toNat] ++
                utf8Encode ((s.map escapeChar).flatten)) (34 :: rest) 1 (by simp)
            have hbhex : ∀ j : Nat, j < 4 →
                byteAt inp (pre.length + 2 + j) =
                  ([(hex_digit (c.toNat / 4096 % 16)).toNat,
                    (hex_digit (c.toNat / 256 % 16)).toNat,
                    (hex_digit (c.toNat / 16 % 16)).toNat,
                    (hex_digit (c.toNat % 16)).toNat] : List Nat).get? j := by
              intro j hj
              rw [hinp]
              have h := byteAt_mid pre ([92, 117, (hex_digit (c.toNat / 4096 % 16)).toNat,
                (hex_digit (c.toNat / 256 % 16)).toNat,
                (hex_digit (c.toNat / 16 % 16)).toNat,
                (hex_digit (c.toNat % 16)).toNat] ++
                utf8Encode ((s.map escapeChar).flatten)) (34 :: rest) (2 + j)
                (by simp; omega)
              rw [show pre.length + (2 + j) = pre.length + 2 + j from by omega] at h
              rw [h]
              rw [List.get?_append (by simp; omega)]
              interval_cases j <;> rfl
            have hpue := pue_low inp (pre.length + 2) c.toNat hlo
              (by have h := hbhex 0 (by omega); rw [Nat.add_zero] at h; exact h)
              (by have h := hbhex 1 (by omega); exact h)
              (by have h := hbhex 2 (by omega); exact h)
              (by have h := hbhex 3 (by omega); exact h)
            have hpe : parse_escape inp (pre.length + 1) = .ok ([c], pre.length + 6) := by
              rw [parse_escape, hbu]
              norm_num
              rw [show pre.length + 1 + 1 = pre.length + 2 from by omega, hpue,
                Char.ofNat_toNat]
            rw [slowRebuild, hb]
            simp only []
            rw [if_neg (by omega)]
            rw [if_pos trivial]
            rw [hpe]
            simp only []
            have hih := ih inp (pre ++ [92, 117, (hex_digit (c.toNat / 4096 % 16)).toNat,
                (hex_digit (c.toNat / 256 % 16)).toNat,
                (hex_digit (c.toNat / 16 % 16)).toNat,
                (hex_digit (c.toNat % 16)).toNat]) (out ++ [c]) f
              (by rw [hinp]; simp)
              (by simp only [List.length_append, List.length_cons] at hfuel ⊢; omega)
            rw [show (pre ++ [92, 117, (hex_digit (c.toNat / 4096 % 16)).toNat,
                (hex_digit (c.toNat / 256 % 16)).toNat,
                (hex_digit (c.toNat / 16 % 16)).toNat,
                (hex_digit (c.toNat % 16)).toNat]).length = pre.length + 6 from by simp]
              at hih
            rw [hih]
            simp only [Except.ok.injEq, Prod.mk.injEq, List.append_assoc,
              List.singleton_append, List.length_append, List.length_cons,
              List.length_nil]
            exact ⟨by trivial, by omega⟩

theorem escFlatten_of_no_esc (s : List Char) (h : s.any needsEsc = false) :
    (s.map escapeChar).flatten = s := by
  induction s with
  | nil => rfl
  | cons c t ih =>
      simp only [List.any_cons, Bool.or_eq_false_iff] at h
      rw [escFlatten_cons, escapeChar_of_plain c h.1, ih h.2]
      rfl

/-- `parse_string` on the serializer's double-quoted escaped rendering of
an arbitrary string, in arbitrary context: both the zero-copy path (no
escape present) and the slow rebuild (escape present) recover exactly the
original characters. -/
theorem ps_ctx_full (inp pre rest : List Nat) (s : List Char)
    (hinp : inp = pre ++
      (34 :: utf8Encode ((s.map escapeChar).flatten) ++ [34]) ++ rest) :
    parse_string inp pre.length =
      .ok (s, pre.length + (utf8Encode ((s.map escapeChar).flatten)).length + 2) := by
  by_cases hany : s.any needsEsc = true
  · have hb0 : byteAt inp pre.length = some 34 := by
      rw [hinp]
      have h := byteAt_mid pre
        (34 :: utf8Encode ((s.map escapeChar).flatten) ++ [34]) rest 0 (by simp)
      rw [Nat.add_zero] at h
      exact h
    have hinp2 : inp = (pre ++ [34]) ++
        utf8Encode ((s.map escapeChar).flatten) ++ 34 :: rest := by
      rw [hinp]
      simp
    have hfast := fastScan_escaped rest s inp (pre ++ [34]) (inp.length + 1) false
      hinp2
      (by rw [hinp2]; simp only [List.length_append, List.length_cons]; omega)
    have hl34 : (pre ++ [34]).length = pre.length + 1 := by simp
    rw [hl34, hany] at hfast
    have hslow := slowRebuild_escaped rest s inp (pre ++ [34]) [] (inp.length + 1)
      hinp2
      (by rw [hinp2]; simp only [List.length_append, List.length_cons]; omega)
    rw [hl34] at hslow
    rw [parse_string, hb0]
    simp only [parse_string_contents, hfast]
    rw [if_pos (show (false || true) = true by rfl), hslow]
    simp only [List.nil_append]
    rw [show pre.length + 1 + (utf8Encode ((s.map escapeChar).flatten)).length + 1 =
      pre.length + (utf8Encode ((s.map escapeChar).flatten)).length + 2 from by omega]
  · have hflat := escFlatten_of_no_esc s (Bool.not_eq_true _ ▸ eq_false_of_ne_true hany)
    rw [hflat] at hinp ⊢
    exact ps_ctx inp pre rest s hinp (fun c hc => needsEsc_false_goodChar c (by
      rcases hb : needsEsc c with _ | _
      · rfl
      · exact absurd (List.any_eq_true.mpr ⟨c, hc, hb⟩) hany))

set_option maxHeartbeats 1000000 in
theorem pv_string_full (inp pre rest : List Nat) (fuel : Nat) (s : List Char)
    (hinp : inp = pre ++
      (34 :: utf8Encode ((s.map escapeChar).flatten) ++ [34]) ++ rest) :
    parse_value inp (fuel + 1) pre.length =
      .ok (.String s,
        pre.length + (utf8Encode ((s.map escapeChar).flatten)).length + 2) := by
  have hb0 : byteAt inp pre.length = some 34 := by
    rw [hinp]
    have h := byteAt_mid pre
      (34 :: utf8Encode ((s.map escapeChar).flatten) ++ [34]) rest 0 (by simp)
    rw [Nat.add_zero] at h
    exact h
  have hskip := skip_noop_at inp pre.length 34 hb0 (by omega)
  have hps := ps_ctx_full inp pre rest s hinp
  norm_num [parse_value, hskip, hb0, hps]

/-- Head byte of the compact rendering of an object key: a double quote
for a quoted key, an identifier-start byte otherwise. -/
theorem keyHead_full (k : List Char) :
    ∃ b t, utf8Encode (keyChars k) = b :: t ∧
      (b = 34 ∨ (65 ≤ b ∧ b ≤ 90) ∨ (97 ≤ b ∧ b ≤ 122) ∨ b = 95 ∨ b = 36) := by
  by_cases hik : is_valid_identifier k = true
  · exact keyHead k (by rw [goodKey, hik]; rfl)
  · have henc : utf8Encode (keyChars k) =
        34 :: utf8Encode ((k.map escapeChar).flatten) ++ [34] := by
      rw [keyChars, if_neg hik, write_escaped_str_quoted, utf8Encode_cons,
        utf8Encode_append]
      rfl
    exact ⟨34, utf8Encode ((k.map escapeChar).flatten) ++ [34],
      by rw [henc]; rfl, Or.inl rfl⟩

/-- `parse_key` recovers any key from its compact rendering followed by a
colon: bare identifiers via `parse_identifier`, all other keys via the
quoted-string path. -/
theorem pk_ctx_full (inp pre rest : List Nat) (k : List Char)
    (hinp : inp = pre ++ utf8Encode (keyChars k) ++ (58 :: rest)) :
    parse_key inp pre.length = .ok (k, pre.length + (utf8Encode (keyChars k)).length) := by
  by_cases hik : is_valid_identifier k = true
  · exact pk_ctx inp pre rest k hinp (by rw [goodKey, hik]; rfl)
  · have henc : utf8Encode (keyChars k) =
        34 :: utf8Encode ((k.map escapeChar).flatten) ++ [34] := by
      rw [keyChars, if_neg hik, write_escaped_str_quoted, utf8Encode_cons,
        utf8Encode_append]
      rfl
    have hb : byteAt inp pre.length = some 34 :=
      byteAt_head_ctx inp pre (58 :: rest) 34
        (utf8Encode ((k.map escapeChar).flatten) ++ [34])
        (by rw [hinp, henc]; rfl)
    have hps := ps_ctx_full inp pre (58 :: rest) k (by rw [hinp, henc])
    rw [parse_key, hb, hps, henc]
    simp only [List.length_cons, List.length_append, List.length_nil]
    rw [show pre.length + (utf8Encode ((k.map escapeChar).flatten)).length + 2 =
      pre.length + ((utf8Encode ((k.map escapeChar).flatten)).length + (0 + 1) + 1)
      from by omega]

set_option maxHeartbeats 2000000 in
theorem parseBackAux (N : Nat) :
    (∀ v : Value, sizeOf v ≤ N → valueGood v = true →
      ∀ (inp pre rest : List Nat) (fuel : Nat),
        inp = pre ++ utf8Encode (encCompact false v) ++ rest →
        restOk rest →
        (utf8Encode (encCompact false v)).length < fuel →
        parse_value inp fuel pre.length =
          .ok (v, pre.length + (utf8Encode (encCompact false v)).length)) ∧
    (∀ l : List Value, sizeOf l ≤ N → valueGoodList l = true →
      ∀ (inp pre rest : List Nat) (fuel : Nat) (acc : List Value),
        inp = pre ++ utf8Encode (encCompactArr false l true) ++ (93 :: rest) →
        restOk rest →
        (utf8Encode (encCompactArr false l true)).length + 1 < fuel →
        arrLoop inp fuel acc pre.length =
          .ok (.Array (acc ++ l),
            pre.length + (utf8Encode (encCompactArr false l true)).length + 1)) ∧
    (∀ o : List (List Char × Value), sizeOf o ≤ N → valueGoodPairs o = true →
      ∀ (inp pre rest : List Nat) (fuel : Nat) (acc : List (List Char × Value)),
        inp = pre ++ utf8Encode (encCompactObj false o true) ++ (125 :: rest) →
        restOk rest →
        (∀ p ∈ o, keyAbsent p.1 acc = true) →
        (utf8Encode (encCompactObj false o true)).length + 1 < fuel →
        objLoop inp fuel acc pre.length =
          .ok (.Object (acc ++ o),
            pre.length + (utf8Encode (encCompactObj false o true)).length + 1)) := by
  induction N with
  | zero =>
      refine ⟨fun v hsz _ => absurd (value_sizeOf_pos v) (by omega),
        fun l hsz _ => ?_, fun o hsz _ => ?_⟩
      · cases l with
        | nil => simp at hsz
        | cons a t =>
            simp at hsz
      · cases o with
        | nil => simp at hsz
        | cons a t =>
            simp at hsz
  | succ N ih =>
      obtain ⟨ihP, ihQ, ihR⟩ := ih
      refine ⟨?_, ?_, ?_⟩
      · intro v hsz hg inp pre rest fuel hinp hrest hfuel
        cases fuel with
        | zero => omega
        | succ f =>
          cases v with
          | Null =>
              have h := pv_null inp pre rest f (by rw [hinp]; rfl)
              rw [h]
              rfl
          | Bool b =>
              cases b with
              | true =>
                  have h := pv_true inp pre rest f (by rw [hinp]; rfl)
                  rw [h]
                  rfl
              | false =>
                  have h := pv_false inp pre rest f (by rw [hinp]; rfl)
                  rw [h]
                  rfl
          | Number n =>
              rw [valueGood] at hg
              have h := pv_number inp pre rest f n (by rw [hinp]; rfl) hrest hg
              rw [h]
              rfl
          | String s =>
              have henc : utf8Encode (encCompact false (Value.String s)) =
                  34 :: utf8Encode ((s.map escapeChar).flatten) ++ [34] := by
                rw [show encCompact false (Value.String s) =
                  write_escaped_str s true from rfl]
                rw [write_escaped_str_quoted, utf8Encode_cons, utf8Encode_append]
                rfl
              have h := pv_string_full inp pre rest f s (by rw [hinp, henc]; try rfl)
              rw [h, henc]
              simp only [List.length_append, List.length_cons, List.length_nil,
                Except.ok.injEq, Prod.mk.injEq]
              exact ⟨trivial, by omega⟩
          | Array a =>
              rw [valueGood] at hg
              have hsza : sizeOf a ≤ N := by
                simp only [Value.Array.sizeOf_spec] at hsz
                omega
              have henc : utf8Encode (encCompact false (Value.Array a)) =
                  91 :: utf8Encode (encCompactArr false a true) ++ [93] := by
                rw [show encCompact false (Value.Array a) =
                  '[' :: (encCompactArr false a true ++ [']']) from rfl]
                rw [utf8Encode_cons, utf8Encode_append]
                rfl
              have hb0 : byteAt inp pre.length = some 91 :=
                byteAt_head_ctx inp pre rest 91
                  (utf8Encode (encCompactArr false a true) ++ [93])
                  (by rw [hinp, henc]; rfl)
              have hskip := skip_noop_at inp pre.length 91 hb0 (by omega)
              have harr := ihQ a hsza hg inp (pre ++ [91]) rest f []
                (by rw [hinp, henc]; simp) hrest
                (by rw [henc] at hfuel
                    simp only [List.length_append, List.length_cons,
                      List.length_nil] at hfuel ⊢
                    omega)
              have hplen : (pre ++ [91]).length = pre.length + 1 := by simp
              rw [hplen] at harr
              rw [henc]
              norm_num [parse_value, hskip, hb0, expectByte, harr]
              omega
          | Object o =>
              rw [valueGood] at hg
              have hszo : sizeOf o ≤ N := by
                simp only [Value.Object.sizeOf_spec] at hsz
                omega
              have henc : utf8Encode (encCompact false (Value.Object o)) =
                  123 :: utf8Encode (encCompactObj false o true) ++ [125] := by
                rw [show encCompact false (Value.Object o) =
                  '{' :: (encCompactObj false o true ++ ['}']) from rfl]
                rw [utf8Encode_cons, utf8Encode_append]
                rfl
              have hb0 : byteAt inp pre.length = some 123 :=
                byteAt_head_ctx inp pre rest 123
                  (utf8Encode (encCompactObj false o true) ++ [125])
                  (by rw [hinp, henc]; rfl)
              have hskip := skip_noop_at inp pre.length 123 hb0 (by omega)
              have hobj := ihR o hszo hg inp (pre ++ [123]) rest f []
                (by rw [hinp, henc]; simp) hrest (fun p _ => rfl)
                (by rw [henc] at hfuel
                    simp only [List.length_append, List.length_cons,
                      List.length_nil] at hfuel ⊢
                    omega)
              have hplen : (pre ++ [123]).length = pre.length + 1 := by simp
              rw [hplen] at hobj
              rw [henc]
              norm_num [parse_value, hskip, hb0, expectByte, hobj]
              omega
      · intro l hsz hg inp pre rest fuel acc hinp hrest hfuel
        cases fuel with
        | zero => omega
        | succ f =>
          cases l with
          | nil =>
              have hb : byteAt inp pre.length = some 93 := by
                rw [hinp, show utf8Encode (encCompactArr false [] true) = [] from rfl,
                  List.append_nil]
                have h := byteAt_after pre (93 :: rest) 0
                rw [Nat.add_zero] at h
                exact h
              have hskip := skip_noop_at inp pre.length 93 hb (by omega)
              rw [arrLoop, hskip, hb]
              rw [show utf8Encode (encCompactArr false [] true) = [] from rfl]
              simp
          | cons v t =>
              rw [valueGoodList, Bool.and_eq_true] at hg
              obtain ⟨hgv, hgt⟩ := hg
              have henc : utf8Encode (encCompactArr false (v :: t) true) =
                  utf8Encode (encCompact false v) ++
                    utf8Encode (encCompactArr false t false) := by
                rw [encArrTrue_cons, utf8Encode_append]
              obtain ⟨b0, t0, hbt, hbset⟩ := encHead v hgv
              have hb0 : byteAt inp pre.length = some b0 :=
                byteAt_head_ctx inp pre (93 :: rest) b0
                  (t0 ++ utf8Encode (encCompactArr false t false))
                  (by rw [hinp, henc, hbt]; simp)
              have hskip := skip_noop_at inp pre.length b0 hb0 (by omega)
              have hszv : sizeOf v ≤ N := by
                simp only [List.cons.sizeOf_spec] at hsz
                omega
              have hszt : sizeOf t ≤ N := by
                simp only [List.cons.sizeOf_spec] at hsz
                have := value_sizeOf_pos v
                omega
              have hlenv : 1 ≤ (utf8Encode (encCompact false v)).length :=
                encBytes_len_pos v hgv
              have hpv := ihP v hszv hgv inp pre
                (utf8Encode (encCompactArr false t false) ++ 93 :: rest) f
                (by rw [hinp, henc]; simp) (restOk_arrTail t rest)
                (by rw [henc] at hfuel
                    simp only [List.length_append] at hfuel ⊢
                    omega)
              rw [arrLoop, hskip, hb0]
              split
              · rename_i heq
                exact Option.noConfusion heq
              · rename_i heq
                have : b0 = 93 := Option.some.inj heq
                omega
              · rename_i b heq
                rw [hpv]
                simp only []
                cases t with
                | nil =>
                    have hb93 : byteAt inp
                        (pre.length + (utf8Encode (encCompact false v)).length) =
                        some 93 := by
                      rw [hinp, henc,
                        show utf8Encode (encCompactArr false [] false) = [] from rfl,
                        List.append_nil]
                      have h := byteAt_after (pre ++ utf8Encode (encCompact false v))
                        (93 :: rest) 0
                      rw [Nat.add_zero] at h
                      rw [show (pre ++ utf8Encode (encCompact false v)).length =
                        pre.length + (utf8Encode (encCompact false v)).length from by
                          simp] at h
                      exact h
                    have hskip2 := skip_noop_at inp
                      (pre.length + (utf8Encode (encCompact false v)).length) 93 hb93
                      (by omega)
                    rw [hskip2, hb93]
                    have harr2 := ihQ [] (by
                        simp only [List.cons.sizeOf_spec] at hsz
                        have := value_sizeOf_pos v
                        simp only [List.nil.sizeOf_spec]
                        omega)
                      rfl inp (pre ++ utf8Encode (encCompact false v)) rest f
                      (acc ++ [v])
                      (by rw [hinp, henc,
                            show utf8Encode (encCompactArr false [] false) = [] from rfl,
                            show utf8Encode (encCompactArr false [] true) = [] from rfl]
                          simp)
                      hrest
                      (by rw [henc,
                            show utf8Encode (encCompactArr false [] false) = [] from rfl]
                            at hfuel
                          simp only [List.length_append, List.length_nil] at hfuel
                          rw [show utf8Encode (encCompactArr false [] true) = [] from rfl]
                          simp only [List.length_nil]
                          omega)
                    rw [show (pre ++ utf8Encode (encCompact false v)).length =
                      pre.length + (utf8Encode (encCompact false v)).length from by
                        simp] at harr2
                    rw [harr2, henc,
                      show utf8Encode (encCompactArr false [] false) = [] from rfl,
                      show utf8Encode (encCompactArr false [] true) = [] from rfl]
                    simp only [List.append_assoc, List.singleton_append,
                      List.append_nil, List.length_append, List.length_nil,
                      Except.ok.injEq, Prod.mk.injEq]
                    all_goals exact ⟨by simp, by omega⟩
                | cons w tw =>
                    have htail : utf8Encode (encCompactArr false (w :: tw) false) =
                        44 :: utf8Encode (encCompactArr false (w :: tw) true) := by
                      rw [encArrFalse_cons, utf8Encode_cons, encArrTrue_cons]
                      rfl
                    have hb44 : byteAt inp
                        (pre.length + (utf8Encode (encCompact false v)).length) =
                        some 44 := by
                      rw [hinp, henc, htail]
                      have h := byteAt_after (pre ++ utf8Encode (encCompact false v))
                        ((44 :: utf8Encode (encCompactArr false (w :: tw) true)) ++
                          93 :: rest) 0
                      rw [Nat.add_zero] at h
                      rw [show (pre ++ utf8Encode (encCompact false v)).length =
                        pre.length + (utf8Encode (encCompact false v)).length from by
                          simp] at h
                      rw [show pre ++ (utf8Encode (encCompact false v) ++
                          44 :: utf8Encode (encCompactArr false (w :: tw) true)) ++
                          93 :: rest =
                        (pre ++ utf8Encode (encCompact false v)) ++
                          ((44 :: utf8Encode (encCompactArr false (w :: tw) true)) ++
                          93 :: rest) from by simp]
                      exact h
                    have hskip2 := skip_noop_at inp
                      (pre.length + (utf8Encode (encCompact false v)).length) 44 hb44
                      (by omega)
                    rw [hskip2, hb44]
                    have harr2 := ihQ (w :: tw) hszt hgt inp
                      (pre ++ utf8Encode (encCompact false v) ++ [44]) rest f
                      (acc ++ [v])
                      (by rw [hinp, henc, htail]; simp) hrest
                      (by rw [henc, htail] at hfuel
                          simp only [List.length_append, List.length_cons] at hfuel ⊢
                          omega)
                    have hplen2 : (pre ++ utf8Encode (encCompact false v) ++
                        [44]).length =
                        pre.length + (utf8Encode (encCompact false v)).length + 1 := by
                      simp
                      omega
                    rw [hplen2] at harr2
                    rw [harr2, henc, htail]
                    simp only [List.append_assoc, List.singleton_append,
                      List.length_append, List.length_cons,
                      Except.ok.injEq, Prod.mk.injEq]
                    exact ⟨by simp, by omega⟩
      · intro o hsz hg inp pre rest fuel acc hinp hrest hacc hfuel
        cases fuel with
        | zero => omega
        | succ f =>
          cases o with
          | nil =>
              have hb : byteAt inp pre.length = some 125 := by
                rw [hinp, show utf8Encode (encCompactObj false [] true) = [] from rfl,
                  List.append_nil]
                have h := byteAt_after pre (125 :: rest) 0
                rw [Nat.add_zero] at h
                exact h
              have hskip := skip_noop_at inp pre.length 125 hb (by omega)
              rw [objLoop, hskip, hb]
              rw [show utf8Encode (encCompactObj false [] true) = [] from rfl]
              simp
          | cons p t =>
              obtain ⟨k, v⟩ := p
              rw [valueGoodPairs, Bool.and_eq_true, Bool.and_eq_true] at hg
              obtain ⟨⟨hgv, hka⟩, hgt⟩ := hg
              have henc : utf8Encode (encCompactObj false ((k, v) :: t) true) =
                  utf8Encode (keyChars k) ++
                    (58 :: (utf8Encode (encCompact false v) ++
                      utf8Encode (encCompactObj false t false))) := by
                rw [encObjTrue_cons, utf8Encode_append, utf8Encode_cons,
                  utf8Encode_append]
                rfl
              obtain ⟨kb, kt, hkbt, hkbset⟩ := keyHead_full k
              have hlenkc : 1 ≤ (utf8Encode (keyChars k)).length := by
                rw [hkbt]
                simp
              have hb0 : byteAt inp pre.length = some kb :=
                byteAt_head_ctx inp pre (125 :: rest) kb
                  (kt ++ (58 :: (utf8Encode (encCompact false v) ++
                    utf8Encode (encCompactObj false t false))))
                  (by rw [hinp, henc, hkbt]; simp)
              have hskip := skip_noop_at inp pre.length kb hb0 (by omega)
              have hszv : sizeOf v ≤ N := by
                simp only [List.cons.sizeOf_spec, Prod.mk.sizeOf_spec] at hsz
                omega
              have hszt : sizeOf t ≤ N := by
                simp only [List.cons.sizeOf_spec, Prod.mk.sizeOf_spec] at hsz
                have := value_sizeOf_pos v
                omega
              have hlenv : 1 ≤ (utf8Encode (encCompact false v)).length :=
                encBytes_len_pos v hgv
              have hpk := pk_ctx_full inp pre
                (utf8Encode (encCompact false v) ++
                  (utf8Encode (encCompactObj false t false) ++ 125 :: rest)) k
                (by rw [hinp, henc]; simp)
              have hb58 : byteAt inp
                  (pre.length + (utf8Encode (keyChars k)).length) = some 58 := by
                rw [hinp, henc]
                have h := byteAt_after (pre ++ utf8Encode (keyChars k))
                  (58 :: (utf8Encode (encCompact false v) ++
                    utf8Encode (encCompactObj false t false)) ++ 125 :: rest) 0
                rw [Nat.add_zero] at h
                rw [show (pre ++ utf8Encode (keyChars k)).length =
                  pre.length + (utf8Encode (keyChars k)).length from by simp] at h
                rw [show pre ++ (utf8Encode (keyChars k) ++
                    (58 :: (utf8Encode (encCompact false v) ++
                      utf8Encode (encCompactObj false t false)))) ++ 125 :: rest =
                  (pre ++ utf8Encode (keyChars k)) ++
                    ((58 :: (utf8Encode (encCompact false v) ++
                      utf8Encode (encCompactObj false t false))) ++ 125 :: rest)
                  from by simp]
                exact h
              have hskip2 := skip_noop_at inp
                (pre.length + (utf8Encode (keyChars k)).length) 58 hb58 (by omega)
              have hpv := ihP v hszv hgv inp
                (pre ++ utf8Encode (keyChars k) ++ [58])
                (utf8Encode (encCompactObj false t false) ++ 125 :: rest) f
                (by rw [hinp, henc]; simp) (restOk_objTail t rest)
                (by rw [henc] at hfuel
                    simp only [List.length_append, List.length_cons] at hfuel ⊢
                    omega)
              have hplen : (pre ++ utf8Encode (keyChars k) ++ [58]).length =
                  pre.length + (utf8Encode (keyChars k)).length + 1 := by
                simp
                omega
              rw [hplen] at hpv
              have hkacc : keyAbsent k acc = true := hacc (k, v) (by simp)
              rw [objLoop, hskip, hb0]
              split
              · rename_i heq
                exact Option.noConfusion heq
              · rename_i heq
                have : kb = 125 := Option.some.inj heq
                omega
              · rename_i b heq
                rw [hpk]
                simp only []
                rw [hskip2]
                have hexp : expectByte inp
                    (pre.length + (utf8Encode (keyChars k)).length) 58 =
                    .ok (pre.length + (utf8Encode (keyChars k)).length + 1) := by
                  rw [expectByte, hb58]
                  simp
                rw [hexp]
                simp only []
                rw [hpv]
                simp only []
                rw [mapInsert_of_absent k v acc hkacc]
                cases t with
                | nil =>
                    have hb125 : byteAt inp
                        (pre.length + (utf8Encode (keyChars k)).length + 1 +
                          (utf8Encode (encCompact false v)).length) = some 125 := by
                      rw [hinp, henc,
                        show utf8Encode (encCompactObj false [] false) = [] from rfl,
                        List.append_nil]
                      have h := byteAt_after
                        (pre ++ utf8Encode (keyChars k) ++ [58] ++
                          utf8Encode (encCompact false v)) (125 :: rest) 0
                      rw [Nat.add_zero] at h
                      have hpl : (pre ++ utf8Encode (keyChars k) ++ [58] ++
                          utf8Encode (encCompact false v)).length =
                          pre.length + (utf8Encode (keyChars k)).length + 1 +
                            (utf8Encode (encCompact false v)).length := by
                        simp
                        omega
                      rw [hpl] at h
                      rw [show pre ++ (utf8Encode (keyChars k) ++
                          (58 :: utf8Encode (encCompact false v))) ++ 125 :: rest =
                        (pre ++ utf8Encode (keyChars k) ++ [58] ++
                          utf8Encode (encCompact false v)) ++ 125 :: rest
                        from by simp]
                      exact h
                    have hskip3 := skip_noop_at inp
                      (pre.length + (utf8Encode (keyChars k)).length + 1 +
                        (utf8Encode (encCompact false v)).length) 125 hb125 (by omega)
                    rw [hskip3, hb125]
                    have hobj2 := ihR [] (by
                        simp only [List.nil.sizeOf_spec]
                        simp only [List.cons.sizeOf_spec, Prod.mk.sizeOf_spec] at hsz
                        have := value_sizeOf_pos v
                        omega)
                      rfl inp
                      (pre ++ utf8Encode (keyChars k) ++ [58] ++
                        utf8Encode (encCompact false v)) rest f
                      (acc ++ [(k, v)])
                      (by rw [hinp, henc,
                            show utf8Encode (encCompactObj false [] false) = [] from rfl,
                            show utf8Encode (encCompactObj false [] true) = [] from rfl]
                          simp)
                      hrest
                      (fun p hp => absurd hp (List.not_mem_nil p))
                      (by rw [show utf8Encode (encCompactObj false [] true) = [] from rfl]
                          simp only [List.length_nil]
                          rw [henc,
                            show utf8Encode (encCompactObj false [] false) = [] from rfl]
                            at hfuel
                          simp only [List.length_append, List.length_cons,
                            List.length_nil] at hfuel
                          omega)
                    have hplen3 : (pre ++ utf8Encode (keyChars k) ++ [58] ++
                        utf8Encode (encCompact false v)).length =
                        pre.length + (utf8Encode (keyChars k)).length + 1 +
                          (utf8Encode (encCompact false v)).length := by
                      simp
                      omega
                    rw [hplen3] at hobj2
                    rw [hobj2, henc,
                      show utf8Encode (encCompactObj false [] false) = [] from rfl,
                      show utf8Encode (encCompactObj false [] true) = [] from rfl]
                    simp only [List.append_assoc, List.singleton_append,
                      List.append_nil, List.length_append, List.length_nil,
                      List.length_cons, Except.ok.injEq, Prod.mk.injEq]
                    all_goals exact ⟨by simp, by omega⟩
                | cons p2 t2 =>
                    obtain ⟨k2, v2⟩ := p2
                    have htail : utf8Encode (encCompactObj false ((k2, v2) :: t2) false) =
                        44 :: utf8Encode (encCompactObj false ((k2, v2) :: t2) true) := by
                      rw [encObjFalse_cons, utf8Encode_cons, encObjTrue_cons]
                      rfl
                    have hb44 : byteAt inp
                        (pre.length + (utf8Encode (keyChars k)).length + 1 +
                          (utf8Encode (encCompact false v)).length) = some 44 := by
                      rw [hinp, henc, htail]
                      have h := byteAt_after
                        (pre ++ utf8Encode (keyChars k) ++ [58] ++
                          utf8Encode (encCompact false v))
                        ((44 :: utf8Encode (encCompactObj false ((k2, v2) :: t2) true)) ++
                          125 :: rest) 0
                      rw [Nat.add_zero] at h
                      have hpl : (pre ++ utf8Encode (keyChars k) ++ [58] ++
                          utf8Encode (encCompact false v)).length =
                          pre.length + (utf8Encode (keyChars k)).length + 1 +
                            (utf8Encode (encCompact false v)).length := by
                        simp
                        omega
                      rw [hpl] at h
                      rw [show pre ++ (utf8Encode (keyChars k) ++
                          (58 :: (utf8Encode (encCompact false v) ++
                            (44 :: utf8Encode (encCompactObj false ((k2, v2) :: t2) true))))) ++
                          125 :: rest =
                        (pre ++ utf8Encode (keyChars k) ++ [58] ++
                          utf8Encode (encCompact false v)) ++
                          ((44 :: utf8Encode (encCompactObj false ((k2, v2) :: t2) true)) ++
                            125 :: rest)
                        from by simp]
                      exact h
                    have hskip3 := skip_noop_at inp
                      (pre.length + (utf8Encode (keyChars k)).length + 1 +
                        (utf8Encode (encCompact false v)).length) 44 hb44 (by omega)
                    rw [hskip3, hb44]
                    have hacc2 : ∀ p ∈ (k2, v2) :: t2,
                        keyAbsent p.1 (acc ++ [(k, v)]) = true := by
                      intro p hp
                      have hne := keyAbsent_ne k ((k2, v2) :: t2) hka p hp
                      rw [keyAbsent_append, Bool.and_eq_true]
                      exact ⟨hacc p (List.mem_cons_of_mem _ hp),
                        keyAbsent_single k p.1 v (fun h => hne h.symm)⟩
                    have hobj2 := ihR ((k2, v2) :: t2) hszt hgt inp
                      (pre ++ utf8Encode (keyChars k) ++ [58] ++
                        utf8Encode (encCompact false v) ++ [44]) rest f
                      (acc ++ [(k, v)])
                      (by rw [hinp, henc, htail]; simp) hrest hacc2
                      (by rw [henc, htail] at hfuel
                          simp only [List.length_append, List.length_cons] at hfuel ⊢
                          omega)
                    have hplen3 : (pre ++ utf8Encode (keyChars k) ++ [58] ++
                        utf8Encode (encCompact false v) ++ [44]).length =
                        pre.length + (utf8Encode (keyChars k)).length + 1 +
                          (utf8Encode (encCompact false v)).length + 1 := by
                      simp
                      omega
                    rw [hplen3] at hobj2
                    rw [hobj2, henc, htail]
                    simp only [List.append_assoc, List.singleton_append,
                      List.length_append, List.length_cons,
                      Except.ok.injEq, Prod.mk.injEq]
                    all_goals exact ⟨by simp, by omega⟩

/-- C1 (amended): the compact-encode/parse round trip is exact on the
good domain — values within the depth budget whose numbers re-parse to
their own variant (signed-range `Int`, above-signed-range `Uint`, whole
finite `Float`, the infinities) and whose object keys are pairwise
distinct.  Strings and keys are arbitrary: quotes, backslashes and
control characters round trip through the serializer's escapes and the
parser's escape resolution.  `encode_compact` succeeds with the
closed-form encoding and the top-level parser maps those bytes back to
exactly the same `Value`. -/
theorem C1_roundtrip (v : Value) (hg : valueGood v = true)
    (hd : valueDepth v ≤ MAX_DEPTH) :
    encode_compact v = .ok (encCompact false v) ∧
    parse_value_top (utf8Encode (encCompact false v)) = .ok v := by
  constructor
  · rw [encode_compact, valueReser_good v hg]
    exact cw_ok false MAX_DEPTH v 0 (by omega)
  · have h := (parseBackAux (sizeOf v)).1 v (le_refl _) hg
      (utf8Encode (encCompact false v)) [] []
      ((utf8Encode (encCompact false v)).length + 1)
      (by simp) (Or.inl rfl) (by omega)
    simp only [List.length_nil, Nat.zero_add] at h
    exact parse_value_top_of_ok_end _ v h

/-- C1 witness: the round trip holds for a concrete object exercising
identifier and quoted keys, arrays, strings, integers and floats. -/
theorem C1_roundtrip_witness :
    valueGood roundValue = true ∧ valueDepth roundValue ≤ MAX_DEPTH ∧
      (encode_compact roundValue = .ok (encCompact false roundValue) ∧
       parse_value_top (utf8Encode (encCompact false roundValue)) = .ok roundValue) :=
  ⟨by decide, by decide, C1_roundtrip roundValue (by decide) (by decide)⟩

/-- C1 counterexamples to the unrestricted claim, both NaN-free: `Uint 0`
encodes to `"0"` and re-parses as `Int 0`, and `Float(f64::INFINITY)` is
re-serialized by the `Encoder` pass as the `Infinity` variant — in both
cases the round trip returns a value unequal to the original under the
derived equality. -/
theorem C1_counterexample :
    valueNanPayloadFree (.Number (.Uint 0)) = true ∧
    encode_compact (.Number (.Uint 0)) = .ok ['0'] ∧
    parse_value_top (utf8Encode ['0']) = .ok (.Number (.Int 0)) ∧
    valueBEq (.Number (.Uint 0)) (.Number (.Int 0)) = false ∧
    valueNanPayloadFree (.Number (.Float .inf)) = true ∧
    encode_compact (.Number (.Float .inf)) = .ok ("Infinity".toList) ∧
    parse_value_top (utf8Encode ("Infinity".toList)) = .ok (.Number .Infinity) ∧
    valueBEq (.Number (.Float .inf)) (.Number .Infinity) = false := by
  refine ⟨by decide, ?_, ?_, by decide, by decide, ?_, ?_, by decide⟩
  · rw [encode_compact, show valueReser (.Number (.Uint 0)) = .Number (.Uint 0) from rfl]
    rw [cw_ok false MAX_DEPTH (.Number (.Uint 0)) 0 (by decide)]
    rw [show encCompact false (.Number (.Uint 0)) = natDigits 0 from rfl]
    rw [natDigits]
    norm_num [show Char.ofNat 48 = '0' from rfl]
  · have h := parse_top_nat 0
    rw [natBytes_zero] at h
    rw [show utf8Encode ['0'] = [48] from rfl, h]
    norm_num
  · rw [encode_compact,
      show valueReser (.Number (.Float .inf)) = .Number .Infinity from rfl]
    rw [cw_ok false MAX_DEPTH (.Number .Infinity) 0 (by decide)]
    rfl
  · have h := pv_infinity (strBytes "Infinity") [] [] 8 (by simp)
    simp only [List.length_nil, Nat.zero_add] at h
    rw [show utf8Encode ("Infinity".toList) = strBytes "Infinity" from rfl]
    exact parse_value_top_of_ok_end _ _ h

end Json5

